import Mathlib

/-!
# BOOT_CONF: bootstrap confidence intervals

A shallow embedding of `src/BOUND_MEAN/BOOT_CONF.CPP` (`boot_conf_pctile` and
`boot_conf_BCa`) and theorems about it.

Modelling conventions.

* A C `double` is an exact rational (`ℚ`) and the arithmetic is exact, with
  one exception: the subtraction `1.0 - ahi` of lines 174, 187 and 200 is
  `one_minus`, which returns `1` where the double result is `1.0`
  (`-2^-53 ≤ ahi ≤ 2^-54`), because there the rounding moves the rank `k` to
  `nboot` and the read to `work2[-1]`.  The literals `0.025`, `0.05`, `0.10`,
  `6.0`, `1.e-60` are the rationals they denote.
* A C `int` is an `Int`: the values are taken to stay in the range of `int`,
  no overflow is modelled.
* An array is a `List ℚ`.  A read or a write outside the array has no defined
  result: `rd` and `wr` return `none` there, and so does every procedure that
  performs one.  Likewise a division by zero (`fdiv`) and a call of
  `inverse_normal_cdf` at an argument outside `(0, 1)` (`probit`).
* The doubles nearest to `0.025`, `0.05` and `0.10` lie above them by less
  than `1e-17`, so for every `int` value of `nboot + 1 ≥ 0` the truncated
  product `(int) (p * (nboot + 1))` of the source is the exact one.
* The external collaborators that the file only declares (`unifrand`,
  `qsortd`, `normal_cdf`, `inverse_normal_cdf`), together with `sqrt` from
  `math.h`, are the fields of `Ext`.  The hidden state of `unifrand` is made
  explicit: `Mem.draws` counts the calls made so far and `unifrand s` is the
  value returned by the call made after `s` earlier calls.
* The caller-supplied statistic `user_t` is a function of the count and of the
  buffer it is handed; it does not write to the buffer.
* A `for (i=0 ; i<n ; i++)` loop is `for_loop body n.toNat 0`: the body runs
  at `i = 0, 1, ...` exactly `max n 0` times.
* Lines 147-158 are also given with the numbers in an arbitrary field `K`
  (`compute_accel_over`): at `ℚ` this is `compute_accel`, and at `ℝ` with the
  real square root it is the computation of `accel` in real arithmetic, the
  subject of the statements about `(Σ diff²)^1.5`.
-/

namespace BootConf

/-! ## Data model -/

/-- External collaborators of BOOT_CONF.CPP (declared at lines 10-13, and `sqrt` of math.h). -/
structure Ext where
  /-- The call `unifrand ()` made after `s` earlier calls returns `unifrand s`. -/
  unifrand : Nat → ℚ
  /-- The buffer after `qsortd ( first , last , data )`. -/
  qsortd : Int → Int → List ℚ → List ℚ
  /-- The function `normal_cdf ( z )`. -/
  normal_cdf : ℚ → ℚ
  /-- The function `inverse_normal_cdf ( p )`. -/
  inverse_normal_cdf : ℚ → ℚ
  /-- The function `sqrt` of math.h. -/
  sqrt : ℚ → ℚ

/-- The memory the two procedures work on: the sample `x`, the work areas
`xwork` and `work2`, and the number of calls of `unifrand` made so far. -/
structure Mem where
  x : List ℚ
  xwork : List ℚ
  work2 : List ℚ
  draws : Nat
  deriving DecidableEq

/-- The six output cells `*low2p5 ... *high10`. -/
structure Bounds where
  low2p5 : ℚ
  high2p5 : ℚ
  low5 : ℚ
  high5 : ℚ
  low10 : ℚ
  high10 : ℚ
  deriving DecidableEq

/-- The statistic: `double (*user_t) (int , double *)`. -/
abbrev Stat := Int → List ℚ → ℚ

/-! ## Primitive operations -/

/-- Array read `a[k]`; undefined outside the array. -/
def rd (a : List ℚ) (k : Int) : Option ℚ :=
  if 0 ≤ k then a[k.toNat]? else none

/-- Array write `a[k] = v`; undefined outside the array. -/
def wr (a : List ℚ) (k : Int) (v : ℚ) : Option (List ℚ) :=
  if 0 ≤ k ∧ k < a.length then some (a.set k.toNat v) else none

/-- The C cast `(int) d` of a double: truncation toward zero. -/
def to_int (d : ℚ) : Int :=
  if 0 ≤ d then ⌊d⌋ else ⌈d⌉

/-- Division of doubles `a / b`; undefined for a zero divisor. -/
def fdiv (a b : ℚ) : Option ℚ :=
  if b = 0 then none else some (a / b)

/-- Modelled from the spec: the domain of `inverse_normal_cdf`, whose body is
not in BOOT_CONF.CPP.  The call `inverse_normal_cdf ( p )` is the inverse of
the standard normal CDF (section 6), which has no value at the "degenerate
probabilities of exactly 0 or 1" (section 4.2): at `p ≤ 0` or `p ≥ 1` the call
has no defined result. -/
def probit (E : Ext) (p : ℚ) : Option ℚ :=
  if 0 < p ∧ p < 1 then some (E.inverse_normal_cdf p) else none

/-- The loop `for (i = i0 ; ... ; i++) body`, run for `k` iterations from index `i0`. -/
def for_loop {σ : Type} (body : Int → σ → Option σ) : Nat → Int → σ → Option σ
  | 0, _, s => some s
  | k + 1, i, s => (body i s).bind (for_loop body k (i + 1))

/-! ## The resampling step (lines 41-51 and 105-118) -/

/-- Lines 44-47 (and 108-111): select a case from the sample and put it in `xwork[i]`. -/
def draw_case (E : Ext) (n : Int) (i : Int) (m : Mem) : Option Mem := do
  let k := to_int (E.unifrand m.draws * n)
  let k := if k ≥ n then n - 1 else k
  let v ← rd m.x k
  let xw ← wr m.xwork i v
  pure { m with xwork := xw, draws := m.draws + 1 }

/-- Lines 44-46 (and 108-110): the index of the case selected for the uniform
draw `u`: `k = (int) (u * n) ; if (k >= n) k = n - 1 ;`. -/
def draw_index (u : ℚ) (n : Int) : Int :=
  let k := to_int (u * n)
  if k ≥ n then n - 1 else k

/-- Lines 43-50: body of the replication loop of `boot_conf_pctile`. -/
def pctile_rep (E : Ext) (n : Int) (user_t : Stat) (rep : Int) (m : Mem) : Option Mem := do
  let m1 ← for_loop (draw_case E n) n.toNat 0 m
  let w2 ← wr m1.work2 rep (user_t n m1.xwork)
  pure { m1 with work2 := w2 }

/-- Lines 107-117: body of the replication loop of `boot_conf_BCa`; the second
component of the state is `z0_count`. -/
def bca_rep (E : Ext) (n : Int) (user_t : Stat) (theta_hat : ℚ) (rep : Int)
    (s : Mem × Int) : Option (Mem × Int) := do
  let m1 ← for_loop (draw_case E n) n.toNat 0 s.1
  let param := user_t n m1.xwork
  let w2 ← wr m1.work2 rep param
  pure ({ m1 with work2 := w2 }, if param < theta_hat then s.2 + 1 else s.2)

/-! ## Quantile extraction -/

/-- The three statements `k = (int) (p * (nboot + 1)) - 1 ; if (k < 0) k = 0 ;`
that precede every read of `work2` (lines 55-57, 61-63, 67-69, 170-172, ...). -/
def rank (p : ℚ) (nboot : Int) : Int :=
  let k := to_int (p * (nboot + 1)) - 1
  if k < 0 then 0 else k

/-- Lines 53-71: the output stage of `boot_conf_pctile`. -/
def pctile_outputs (E : Ext) (nboot : Int) (m : Mem) : Option (Bounds × Mem) := do
  let work2 := E.qsortd 0 (nboot - 1) m.work2
  let k := rank 0.025 nboot
  let low2p5 ← rd work2 k
  let high2p5 ← rd work2 (nboot - 1 - k)
  let k := rank 0.05 nboot
  let low5 ← rd work2 k
  let high5 ← rd work2 (nboot - 1 - k)
  let k := rank 0.10 nboot
  let low10 ← rd work2 k
  let high10 ← rd work2 (nboot - 1 - k)
  pure (⟨low2p5, high2p5, low5, high5, low10, high10⟩, { m with work2 := work2 })

/-- The procedure `boot_conf_pctile` (lines 24-72). -/
def boot_conf_pctile (E : Ext) (n : Int) (user_t : Stat) (nboot : Int) (m : Mem) :
    Option (Bounds × Mem) := do
  let m1 ← for_loop (pctile_rep E n user_t) nboot.toNat 0 m
  pctile_outputs E nboot m1

/-! ## The BCa procedure -/

/-- Lines 120-123: the two clamps of `z0_count`. -/
def clamp_z0_count (z0_count nboot : Int) : Int :=
  let c := if z0_count ≥ nboot then nboot - 1 else z0_count
  if c ≤ 0 then 1 else c

/-- Lines 135-140: body of the jackknife loop; the second component of the state is `theta_dot`. -/
def jack_step (n : Int) (user_t : Stat) (xlast : ℚ) (i : Int) (s : Mem × ℚ) :
    Option (Mem × ℚ) := do
  let xtemp ← rd s.1.x i
  let x1 ← wr s.1.x i xlast
  let param := user_t (n - 1) x1
  let theta_dot := s.2 + param
  let xw ← wr s.1.xwork i param
  let x2 ← wr x1 i xtemp
  pure ({ s.1 with x := x2, xwork := xw }, theta_dot)

/-- Lines 132-141: the jackknife. -/
def jackknife (n : Int) (user_t : Stat) (m : Mem) : Option (Mem × ℚ) := do
  let xlast ← rd m.x (n - 1)
  for_loop (jack_step n user_t xlast) n.toNat 0 (m, 0)

/-- Lines 150-153: body of the loop that cumulates `(numer, denom)`. -/
def accel_step (theta_dot : ℚ) (xwork : List ℚ) (i : Int) (s : ℚ × ℚ) : Option (ℚ × ℚ) := do
  let v ← rd xwork i
  let diff := theta_dot - v
  let xtemp := diff * diff
  let denom := s.2 + xtemp
  let numer := s.1 + xtemp * diff
  pure (numer, denom)

/-- Lines 147-158: compute `accel` from the jackknifed values in `xwork` and their sum. -/
def compute_accel (E : Ext) (n : Int) (xwork : List ℚ) (theta_dot : ℚ) : Option ℚ := do
  let theta_dot ← fdiv theta_dot n
  let s ← for_loop (accel_step theta_dot xwork) n.toNat 0 (0, 0)
  let denom := E.sqrt s.2
  let denom := denom * denom * denom
  fdiv s.1 (6 * denom + 1 / 10 ^ 60)

/-- Array read `a[k]` for cells of any type; undefined outside the array. -/
def rd_over {K : Type} (a : List K) (k : Int) : Option K :=
  if 0 ≤ k then a[k.toNat]? else none

/-- Division `a / b` in a field `K`; undefined for a zero divisor. -/
def fdiv_over {K : Type} [Field K] [DecidableEq K] (a b : K) : Option K :=
  if b = 0 then none else some (a / b)

/-- Lines 150-153 with the numbers taken in a field `K`. -/
def accel_step_over {K : Type} [Field K] (theta_dot : K) (xwork : List K) (i : Int)
    (s : K × K) : Option (K × K) := do
  let v ← rd_over xwork i
  let diff := theta_dot - v
  let xtemp := diff * diff
  let denom := s.2 + xtemp
  let numer := s.1 + xtemp * diff
  pure (numer, denom)

/-- Lines 147-158 with the numbers taken in a field `K` and `sqrt` a function
on `K`: at `K = ℚ` this is `compute_accel`; at `K = ℝ` with the real square
root it is the computation of `accel` in real arithmetic. -/
def compute_accel_over {K : Type} [Field K] [DecidableEq K] (sqrt : K → K) (n : Int)
    (xwork : List K) (theta_dot : K) : Option K := do
  let theta_dot ← fdiv_over theta_dot (n : K)
  let s ← for_loop (accel_step_over theta_dot xwork) n.toNat 0 (0, 0)
  let denom := sqrt s.2
  let denom := denom * denom * denom
  fdiv_over s.1 (6 * denom + 1 / 10 ^ 60)

/-- The expression `normal_cdf ( z0 + (z0 + z) / (1.0 - accel * (z0 + z)) )` (lines 168-169, ...). -/
def bca_adjust (E : Ext) (z0 accel z : ℚ) : Option ℚ := do
  let q ← fdiv (z0 + z) (1 - accel * (z0 + z))
  pure (E.normal_cdf (z0 + q))

/-- The double subtraction `1.0 - a` of lines 174, 187 and 200, as far as it
decides whether the rank stays inside the buffer: in round-to-nearest (ties to
even) the result is `1.0` exactly when `-2^-53 ≤ a ≤ 2^-54`; everywhere else
the difference is taken exactly, like the other operations. -/
def one_minus (a : ℚ) : ℚ :=
  if -(1 / 2 ^ 53) ≤ a ∧ a ≤ 1 / 2 ^ 54 then 1 else 1 - a

/-- Lines 166-177 (179-190, 192-203): one pair of bounds, for the nominal
tail probabilities `plo` and `phi`, read from the sorted `work2`. -/
def bca_pair (E : Ext) (z0 accel : ℚ) (nboot : Int) (work2 : List ℚ) (plo phi : ℚ) :
    Option (ℚ × ℚ) := do
  let zlo ← probit E plo
  let zhi ← probit E phi
  let alo ← bca_adjust E z0 accel zlo
  let ahi ← bca_adjust E z0 accel zhi
  let k := rank alo nboot
  let low ← rd work2 k
  let k := rank (one_minus ahi) nboot
  let high ← rd work2 (nboot - 1 - k)
  pure (low, high)

/-- Lines 164-203: the output stage of `boot_conf_BCa`. -/
def bca_outputs (E : Ext) (z0 accel : ℚ) (nboot : Int) (m : Mem) : Option (Bounds × Mem) := do
  let work2 := E.qsortd 0 (nboot - 1) m.work2
  let p1 ← bca_pair E z0 accel nboot work2 0.025 0.975
  let p2 ← bca_pair E z0 accel nboot work2 0.05 0.95
  let p3 ← bca_pair E z0 accel nboot work2 0.10 0.90
  pure (⟨p1.1, p1.2, p2.1, p2.2, p3.1, p3.2⟩, { m with work2 := work2 })

/-- Lines 101-125: `theta_hat`, the replication loop, and `z0`.  Returns the
memory after the loop and `z0`. -/
def bca_replicates (E : Ext) (n : Int) (user_t : Stat) (nboot : Int) (m : Mem) :
    Option (Mem × ℚ) := do
  let theta_hat := user_t n m.x
  let s ← for_loop (bca_rep E n user_t theta_hat) nboot.toNat 0 (m, 0)
  let z0_count := clamp_z0_count s.2 nboot
  let p ← fdiv z0_count nboot
  let z0 ← probit E p
  pure (s.1, z0)

/-- The procedure `boot_conf_BCa` (lines 82-204). -/
def boot_conf_BCa (E : Ext) (n : Int) (user_t : Stat) (nboot : Int) (m : Mem) :
    Option (Bounds × Mem) := do
  let r ← bca_replicates E n user_t nboot m
  let j ← jackknife n user_t r.1
  let accel ← compute_accel E n j.1.xwork j.2
  bca_outputs E r.2 accel nboot j.1

/-! ## The arithmetic mean as statistic -/

/-- The arithmetic mean of the first `cnt` cells of the buffer. -/
def mean : Stat := fun cnt buf => (buf.take cnt.toNat).sum / cnt

/-- The jackknifed parameter value of iteration `j`: the statistic of the
first `n - 1` cells of the sample with `x[n-1]` swapped into cell `j`. -/
def jack_value (n : Int) (user_t : Stat) (x : List ℚ) (xlast : ℚ) (j : Nat) : ℚ :=
  user_t (n - 1) (x.set j xlast)

/-- The number of values of the list that are strictly below `theta_hat`. -/
def count_below (theta_hat : ℚ) (w : List ℚ) : Int :=
  (w.countP (fun v => decide (v < theta_hat)) : Nat)

/-- The corrected tail probability for the nominal tail probability `p`. -/
def corrected (E : Ext) (z0 accel p : ℚ) : ℚ :=
  E.normal_cdf (z0 + (z0 + E.inverse_normal_cdf p) /
    (1 - accel * (z0 + E.inverse_normal_cdf p)))

/-! ## Hypotheses on the inputs and on the external collaborators -/

/-- Every value returned by `unifrand` lies in `[0, 1]`. -/
def draws_unit (E : Ext) : Prop := ∀ s, 0 ≤ E.unifrand s ∧ E.unifrand s ≤ 1

/-- A well-formed call: the sample `x` and the work area `xwork` are `n` long,
the work area `work2` is `nboot` long. -/
def well_formed (n nboot : Int) (m : Mem) : Prop :=
  (m.x.length : Int) = n ∧ (m.xwork.length : Int) = n ∧ (m.work2.length : Int) = nboot

/-- The call `qsortd ( 0 , nboot-1 , work2 )` sorts the `nboot` cells of
`work2` ascending: the buffer afterwards is an ascending permutation of the buffer before. -/
def sorts_ascending (E : Ext) (nboot : Int) : Prop :=
  ∀ w : List ℚ, (w.length : Int) = nboot →
    (E.qsortd 0 (nboot - 1) w).Sorted (· ≤ ·) ∧ (E.qsortd 0 (nboot - 1) w).Perm w

/-- The value `v` is the statistic of a resample: of a buffer of `n` cells, each holding a case of `x`. -/
def is_replicate (n : Int) (user_t : Stat) (x : List ℚ) (v : ℚ) : Prop :=
  ∃ xw : List ℚ, (xw.length : Int) = n ∧ (∀ e ∈ xw, e ∈ x) ∧ v = user_t n xw

/-- The values the specification gives for the rank: `floor(p · (nboot + 1)) − 1`,
clamped to a minimum of 0. -/
def spec_rank (p : ℚ) (nboot : Int) : Int :=
  max 0 (⌊p * (nboot + 1)⌋ - 1)

/-- The differences as the specification words them: `diff_i = theta_dot − j_i`
with `theta_dot = (Σ j_i) / n`, for the jackknife values `js`. -/
def spec_diffs {K : Type} [Field K] (n : Int) (js : List K) : List K :=
  js.map (fun v => js.sum / (n : K) - v)

/-- The sum `Σ diff_i²` of the specification. -/
def spec_sum_sq {K : Type} [Field K] (n : Int) (js : List K) : K :=
  ((spec_diffs n js).map (fun d => d ^ 2)).sum

/-- The sum `Σ diff_i³` of the specification. -/
def spec_sum_cube {K : Type} [Field K] (n : Int) (js : List K) : K :=
  ((spec_diffs n js).map (fun d => d ^ 3)).sum

/-- The call `qsortd ( 0 , nboot-1 , work2 )` permutes the `nboot` cells of `work2`. -/
def permutes (E : Ext) (nboot : Int) : Prop :=
  ∀ w : List ℚ, (w.length : Int) = nboot → (E.qsortd 0 (nboot - 1) w).Perm w

/-- The function `normal_cdf` is non-decreasing. -/
def cdf_monotone (E : Ext) : Prop :=
  ∀ z1 z2, z1 ≤ z2 → E.normal_cdf z1 ≤ E.normal_cdf z2

/-- The function `normal_cdf` takes its values in the closed interval `[0, 1]`. -/
def cdf_unit (E : Ext) : Prop :=
  ∀ z, 0 ≤ E.normal_cdf z ∧ E.normal_cdf z ≤ 1

/-- The function `normal_cdf` takes its values strictly inside `(0, 1)`. -/
def cdf_open (E : Ext) : Prop :=
  ∀ z, 0 < E.normal_cdf z ∧ E.normal_cdf z < 1

/-- The function `inverse_normal_cdf` is non-decreasing on `(0, 1)`. -/
def inverse_monotone (E : Ext) : Prop :=
  ∀ p q, 0 < p → p ≤ q → q < 1 → E.inverse_normal_cdf p ≤ E.inverse_normal_cdf q

/-- The function `inverse_normal_cdf` is the inverse of `normal_cdf` on `(0, 1)`. -/
def inverse_of_cdf (E : Ext) : Prop :=
  ∀ p, 0 < p → p < 1 → E.normal_cdf (E.inverse_normal_cdf p) = p

/-- The function `sqrt` returns no negative value. -/
def sqrt_nonneg (E : Ext) : Prop :=
  ∀ q, 0 ≤ E.sqrt q

/-- The six nominal tail probabilities of `boot_conf_BCa` (lines 166-167, 179-180, 192-193). -/
def nominal : List ℚ := [0.025, 0.05, 0.10, 0.90, 0.95, 0.975]

/-- The divisor `1.0 - accel * (z0 + z)` is positive at the six nominal quantiles
`z = inverse_normal_cdf ( p )`. -/
def divisors_positive (E : Ext) (z0 accel : ℚ) : Prop :=
  ∀ p ∈ nominal, 0 < 1 - accel * (z0 + E.inverse_normal_cdf p)

/-- The six corrected probabilities keep the six ranks inside the buffer: the
three `alo` are below `1`, and for the three `ahi` the double `1.0 - ahi` is
below `1` (which is `ahi > 2^-54`). -/
def ranks_in_range (E : Ext) (z0 accel : ℚ) : Prop :=
  (∀ p ∈ [(0.025 : ℚ), 0.05, 0.10], corrected E z0 accel p < 1) ∧
    ∀ p ∈ [(0.90 : ℚ), 0.95, 0.975], one_minus (corrected E z0 accel p) < 1

/-- The nesting `low2p5 ≤ low5 ≤ low10 ≤ high10 ≤ high5 ≤ high2p5` of six bounds. -/
def nested (b : Bounds) : Prop :=
  b.low2p5 ≤ b.low5 ∧ b.low5 ≤ b.low10 ∧ b.low10 ≤ b.high10 ∧
    b.high10 ≤ b.high5 ∧ b.high5 ≤ b.high2p5

/-- The six bounds `b` are the order statistics of the sorted buffer `s` that the
specification names: `low = s[k_p]` and `high = s[nboot − 1 − k_p]` with
`k_p = spec_rank p nboot`, for `p = 0.025, 0.05, 0.10`. -/
def order_statistics (s : List ℚ) (nboot : Int) (b : Bounds) : Prop :=
  (0 ≤ nboot - 1 - spec_rank 0.025 nboot ∧
    s[(spec_rank 0.025 nboot).toNat]? = some b.low2p5 ∧
    s[(nboot - 1 - spec_rank 0.025 nboot).toNat]? = some b.high2p5) ∧
  (0 ≤ nboot - 1 - spec_rank 0.05 nboot ∧
    s[(spec_rank 0.05 nboot).toNat]? = some b.low5 ∧
    s[(nboot - 1 - spec_rank 0.05 nboot).toNat]? = some b.high5) ∧
  (0 ≤ nboot - 1 - spec_rank 0.10 nboot ∧
    s[(spec_rank 0.10 nboot).toNat]? = some b.low10 ∧
    s[(nboot - 1 - spec_rank 0.10 nboot).toNat]? = some b.high10)

/-! ## Concrete instances used to run the procedures -/

/-- A square root that is exact on the squares of rationals. -/
def sqrt_exact (q : ℚ) : ℚ :=
  (Nat.sqrt q.num.toNat : ℚ) / (Nat.sqrt q.den : ℚ)

/-- A distribution function with values strictly inside `(0, 1)`, strictly
increasing, with rational values at rational arguments. -/
def cdf_demo (z : ℚ) : ℚ := (1 + z / (1 + |z|)) / 2

/-- The inverse of `cdf_demo` on `(0, 1)`. -/
def inverse_cdf_demo (p : ℚ) : ℚ := (2 * p - 1) / (1 - |2 * p - 1|)

/-- Collaborators for a concrete run: the generator returns `0` four times and
then `3/4` forever, `qsortd` is an insertion sort. -/
def demo_ext : Ext where
  unifrand := fun s => if s < 4 then 0 else 3 / 4
  qsortd := fun _ _ w => w.insertionSort (· ≤ ·)
  normal_cdf := cdf_demo
  inverse_normal_cdf := inverse_cdf_demo
  sqrt := sqrt_exact

/-- Memory for a concrete run: a sample of 4 cases, work areas of 4 and 2 cells. -/
def demo_mem : Mem := ⟨[24, 6, 6, 0], [0, 0, 0, 0], [0, 0], 0⟩

/-- A distribution function that saturates: `0` below `-4`, `1` above `4`, linear between. -/
def cdf_sat (z : ℚ) : ℚ := max 0 (min 1 ((z + 4) / 8))

/-- The inverse of `cdf_sat` on `(0, 1)`. -/
def inverse_cdf_sat (p : ℚ) : ℚ := 8 * p - 4

/-- Collaborators for a concrete run with a saturating `normal_cdf`: the
generator always returns `0`, `qsortd` is an insertion sort. -/
def sat_ext : Ext where
  unifrand := fun _ => 0
  qsortd := fun _ _ w => w.insertionSort (· ≤ ·)
  normal_cdf := cdf_sat
  inverse_normal_cdf := inverse_cdf_sat
  sqrt := sqrt_exact

/-- Memory for a concrete run: a sample of 2 cases, work areas of 2 and 20 cells. -/
def sat_mem : Mem := ⟨[0, 1], [0, 0], List.replicate 20 0, 0⟩

/-- Memory for a concrete run: a skewed sample of 5 cases, work areas of 5 and 2 cells. -/
def skew_mem : Mem := ⟨[20, 12, 4, 4, 0], [0, 0, 0, 0, 0], [0, 0], 0⟩

/-- Memory for a concrete run: a sample of 3 equal cases, work areas of 3 and 2 cells. -/
def const_mem : Mem := ⟨[7, 7, 7], [0, 0, 0], [0, 0], 0⟩

/-- Memory for a concrete run with a single replication: a sample of 2 equal
cases, work areas of 2 cells and 1 cell. -/
def single_mem : Mem := ⟨[7, 7], [0, 0], [0], 0⟩

/-- Collaborators for a concrete run in which the third call of the generator
returns `1` (every other call returns `1/2`); `qsortd` is an insertion sort. -/
def edge_ext : Ext where
  unifrand := fun s => if s = 2 then 1 else 1 / 2
  qsortd := fun _ _ w => w.insertionSort (· ≤ ·)
  normal_cdf := cdf_demo
  inverse_normal_cdf := inverse_cdf_demo
  sqrt := sqrt_exact

/-- Memory for a concrete run: the sample of `demo_mem`, after two calls of the generator. -/
def edge_mem : Mem := ⟨[24, 6, 6, 0], [0, 0, 0, 0], [0, 0], 2⟩

/-- Memory for a second run: the memory that `boot_conf_BCa` leaves after a run
from `demo_mem` (the jackknifed values in `xwork`, the sorted replicates in
`work2`), with the generator set back to its initial state. -/
def rerun_mem : Mem := ⟨[24, 6, 6, 0], [4, 10, 10, 12], [0, 24], 0⟩

/-- The weight of each tail of `cdf_thin`. -/
def tail_eps : ℚ := 1 / 2 ^ 60

/-- A distribution function with thin tails: strictly increasing, with values
strictly inside `(0, 1)`, below `2^-60` for `z < -4` and above `1 - 2^-60` for
`z > 4`, linear between. -/
def cdf_thin (z : ℚ) : ℚ :=
  if z < -4 then tail_eps / (-3 - z)
  else if z ≤ 4 then tail_eps + (1 - 2 * tail_eps) * ((z + 4) / 8)
  else 1 - tail_eps / (z - 3)

/-- The inverse of `cdf_thin` on `(0, 1)`. -/
def inverse_cdf_thin (p : ℚ) : ℚ :=
  if p < tail_eps then -3 - tail_eps / p
  else if p ≤ 1 - tail_eps then 8 * (p - tail_eps) / (1 - 2 * tail_eps) - 4
  else 3 + tail_eps / (1 - p)

/-- Collaborators for a concrete run with a thin-tailed `normal_cdf`: the
generator always returns `0`, `qsortd` is an insertion sort. -/
def thin_ext : Ext where
  unifrand := fun _ => 0
  qsortd := fun _ _ w => w.insertionSort (· ≤ ·)
  normal_cdf := cdf_thin
  inverse_normal_cdf := inverse_cdf_thin
  sqrt := sqrt_exact

/-- Memory for a concrete run: a sample of 2 equal cases, work areas of 2 and 20 cells. -/
def flat_mem : Mem := ⟨[7, 7], [0, 0], List.replicate 20 0, 0⟩

/-! ## Loops, reads and writes -/

theorem for_loop_inv {σ : Type} (body : Int → σ → Option σ) (P : Int → σ → Prop) (hi : Int)
    (step : ∀ i s, 0 ≤ i → i < hi → P i s → ∃ s', body i s = some s' ∧ P (i + 1) s') :
    ∀ (k : Nat) (i : Int) (s : σ), 0 ≤ i → i + k ≤ hi → P i s →
      ∃ s', for_loop body k i s = some s' ∧ P (i + k) s' := by
  intro k
  induction k with
  | zero => intro i s _ _ hP; exact ⟨s, rfl, by simpa using hP⟩
  | succ k ih =>
    intro i s h0 hk hP
    obtain ⟨s1, hb, hP1⟩ := step i s h0 (by push_cast at hk; omega) hP
    obtain ⟨s2, hl, hP2⟩ := ih (i + 1) s1 (by omega) (by push_cast at hk ⊢; omega) hP1
    refine ⟨s2, ?_, ?_⟩
    · simp [for_loop, hb, hl]
    · have : i + 1 + (k : Int) = i + ((k + 1 : Nat) : Int) := by push_cast; ring
      rw [← this]; exact hP2

theorem rd_eq_some {a : List ℚ} {k : Int} (h0 : 0 ≤ k) (h1 : k < a.length) :
    ∃ v, rd a k = some v ∧ v ∈ a ∧ a[k.toNat]? = some v := by
  have hlt : k.toNat < a.length := by omega
  refine ⟨a[k.toNat], ?_, List.getElem_mem _, ?_⟩
  · simp [rd, h0, List.getElem?_eq_getElem hlt]
  · simp [List.getElem?_eq_getElem hlt]

theorem wr_eq_some {a : List ℚ} {k : Int} (v : ℚ) (h0 : 0 ≤ k) (h1 : k < a.length) :
    wr a k v = some (a.set k.toNat v) := by
  simp [wr, h0, h1]

theorem draw_index_range (u : ℚ) (n : Int) (hn : 1 ≤ n) (h0 : 0 ≤ u) :
    0 ≤ (if to_int (u * n) ≥ n then n - 1 else to_int (u * n)) ∧
      (if to_int (u * n) ≥ n then n - 1 else to_int (u * n)) < n := by
  have hn0 : (0 : ℚ) ≤ (n : ℚ) := by exact_mod_cast (by omega : (0 : Int) ≤ n)
  have hun : 0 ≤ u * n := mul_nonneg h0 hn0
  have hf : to_int (u * n) = ⌊u * n⌋ := by simp [to_int, hun]
  have hf0 : 0 ≤ ⌊u * n⌋ := Int.floor_nonneg.mpr hun
  rw [hf]
  split_ifs with h
  · omega
  · omega

theorem draw_case_spec (E : Ext) (hE : draws_unit E) (n : Int) (hn : 1 ≤ n) (i : Int) (m : Mem)
    (hx : (m.x.length : Int) = n) (hi0 : 0 ≤ i) (hi1 : i < m.xwork.length) :
    ∃ v ∈ m.x, draw_case E n i m =
      some { m with xwork := m.xwork.set i.toNat v, draws := m.draws + 1 } := by
  obtain ⟨hk0, hk1⟩ := draw_index_range (E.unifrand m.draws) n hn (hE _).1
  obtain ⟨v, hv, hmem, _⟩ := rd_eq_some (a := m.x) hk0 (by omega)
  refine ⟨v, hmem, ?_⟩
  simp only [draw_case, hv]
  simp [wr_eq_some v hi0 hi1]


theorem set_initial_inv {a : List ℚ} {P : ℚ → Prop} {i : Int} (hi0 : 0 ≤ i)
    (hi1 : i < a.length)
    (h : ∀ j : Nat, (j : Int) < i → ∃ v, P v ∧ a[j]? = some v) {v : ℚ} (hv : P v) :
    ∀ j : Nat, (j : Int) < i + 1 → ∃ w, P w ∧ (a.set i.toNat v)[j]? = some w := by
  intro j hj
  by_cases hji : j = i.toNat
  · refine ⟨v, hv, ?_⟩
    subst hji
    have : i.toNat < a.length := by omega
    simp [List.getElem?_set, this]
  · obtain ⟨w, hw1, hw2⟩ := h j (by omega)
    refine ⟨w, hw1, ?_⟩
    have : i.toNat ≠ j := fun h => hji h.symm
    simp [List.getElem?_set, this, hw2]

theorem initial_all {a : List ℚ} {P : ℚ → Prop} {n : Int} (hlen : (a.length : Int) = n)
    (h : ∀ j : Nat, (j : Int) < n → ∃ v, P v ∧ a[j]? = some v) : ∀ e ∈ a, P e := by
  intro e he
  obtain ⟨j, hj, rfl⟩ := List.getElem_of_mem he
  obtain ⟨v, hv, hjv⟩ := h j (by omega)
  rw [List.getElem?_eq_getElem hj] at hjv
  simp at hjv
  rw [hjv]; exact hv

theorem gen_sample_spec (E : Ext) (hE : draws_unit E) (n : Int) (hn : 1 ≤ n) (m : Mem)
    (hx : (m.x.length : Int) = n) (hw : (m.xwork.length : Int) = n) :
    ∃ m', for_loop (draw_case E n) n.toNat 0 m = some m' ∧ m'.x = m.x ∧ m'.work2 = m.work2 ∧
      m'.draws = m.draws + n.toNat ∧ (m'.xwork.length : Int) = n ∧ ∀ e ∈ m'.xwork, e ∈ m.x := by
  have key := for_loop_inv (draw_case E n)
    (fun i s => s.x = m.x ∧ s.work2 = m.work2 ∧ s.draws = m.draws + i.toNat ∧
      s.xwork.length = m.xwork.length ∧
      ∀ j : Nat, (j : Int) < i → ∃ v, v ∈ m.x ∧ s.xwork[j]? = some v) n
    (by
      rintro i s hi0 hi1 ⟨h1, h2, h3, h4, h5⟩
      obtain ⟨v, hv, hd⟩ := draw_case_spec E hE n hn i s (by rw [h1]; exact hx) hi0 (by omega)
      refine ⟨_, hd, h1, h2, ?_, by simp [h4], ?_⟩
      · simp only [h3]
        have : (i + 1).toNat = i.toNat + 1 := by omega
        omega
      · exact set_initial_inv hi0 (by omega) h5 (h1 ▸ hv))
    n.toNat 0 m le_rfl (by omega) ⟨rfl, rfl, by simp, rfl, by intro j hj; omega⟩
  obtain ⟨m', hl, h1, h2, h3, h4, h5⟩ := key
  have h6 : (0 : Int) + (n.toNat : Int) = n := by omega
  rw [h6] at h3 h5
  exact ⟨m', hl, h1, h2, h3, by omega, initial_all (by omega) h5⟩

theorem pctile_rep_spec (E : Ext) (hE : draws_unit E) (n : Int) (hn : 1 ≤ n) (user_t : Stat)
    (rep : Int) (m : Mem) (hx : (m.x.length : Int) = n) (hw : (m.xwork.length : Int) = n)
    (hr0 : 0 ≤ rep) (hr1 : rep < m.work2.length) :
    ∃ m' v, pctile_rep E n user_t rep m = some m' ∧ m'.x = m.x ∧ (m'.xwork.length : Int) = n ∧
      m'.work2 = m.work2.set rep.toNat v ∧ is_replicate n user_t m.x v ∧
      m'.draws = m.draws + n.toNat := by
  obtain ⟨m1, hl, h1, h2, h3, h4, h5⟩ := gen_sample_spec E hE n hn m hx hw
  refine ⟨{ m1 with work2 := m.work2.set rep.toNat (user_t n m1.xwork) }, user_t n m1.xwork,
    ?_, h1, h4, rfl, ⟨m1.xwork, h4, h5, rfl⟩, h3⟩
  simp only [pctile_rep, hl]
  simp [h2, wr_eq_some _ hr0 hr1]

theorem pctile_loop_spec (E : Ext) (hE : draws_unit E) (n : Int) (hn : 1 ≤ n) (user_t : Stat)
    (nboot : Int) (m : Mem) (hx : (m.x.length : Int) = n) (hw : (m.xwork.length : Int) = n)
    (hw2 : (m.work2.length : Int) = nboot) :
    ∃ m', for_loop (pctile_rep E n user_t) nboot.toNat 0 m = some m' ∧ m'.x = m.x ∧
      (m'.xwork.length : Int) = n ∧ (m'.work2.length : Int) = nboot ∧
      m'.draws = m.draws + nboot.toNat * n.toNat ∧
      ∀ v ∈ m'.work2, is_replicate n user_t m.x v := by
  have key := for_loop_inv (pctile_rep E n user_t)
    (fun i s => s.x = m.x ∧ (s.xwork.length : Int) = n ∧ (s.work2.length : Int) = nboot ∧
      s.draws = m.draws + i.toNat * n.toNat ∧
      ∀ j : Nat, (j : Int) < i → ∃ v, is_replicate n user_t m.x v ∧ s.work2[j]? = some v) nboot
    (by
      rintro i s hi0 hi1 ⟨h1, h2, h3, h4, h5⟩
      obtain ⟨m', v, hd, g1, g2, g3, g4, g5⟩ :=
        pctile_rep_spec E hE n hn user_t i s (by rw [h1]; exact hx) h2 hi0 (by omega)
      refine ⟨m', hd, g1.trans h1, g2, by simp [g3, h3], ?_, ?_⟩
      · rw [g5, h4]
        have : (i + 1).toNat = i.toNat + 1 := by omega
        rw [this]; ring
      · rw [g3]; rw [h1] at g4
        exact set_initial_inv hi0 (by omega) h5 g4)
    nboot.toNat 0 m le_rfl (by omega) ⟨rfl, hw, hw2, by simp, by intro j hj; omega⟩
  obtain ⟨m', hl, h1, h2, h3, h4, h5⟩ := key
  have h6 : (0 : Int) + (nboot.toNat : Int) = nboot := by omega
  rw [h6] at h4 h5
  exact ⟨m', hl, h1, h2, h3, h4, initial_all h3 h5⟩

theorem bca_loop_fst (E : Ext) (n : Int) (user_t : Stat) (theta_hat : ℚ) :
    ∀ (k : Nat) (i : Int) (s : Mem × Int),
      (for_loop (bca_rep E n user_t theta_hat) k i s).map Prod.fst =
        for_loop (pctile_rep E n user_t) k i s.1 := by
  intro k
  induction k with
  | zero => intro i s; rfl
  | succ k ih =>
    intro i s
    simp only [for_loop]
    cases h : for_loop (draw_case E n) n.toNat 0 s.1 with
    | none => simp [bca_rep, pctile_rep, h]
    | some m1 =>
      cases h2 : wr m1.work2 i (user_t n m1.xwork) with
      | none => simp [bca_rep, pctile_rep, h, h2]
      | some w2 =>
        simp [bca_rep, pctile_rep, h, h2]
        exact ih _ _

/-! ## Ranks and reads of a sorted buffer -/


theorem to_int_mono {p q : ℚ} (h : p ≤ q) : to_int p ≤ to_int q := by
  unfold to_int
  split_ifs with hp hq hq
  · exact Int.floor_mono h
  · exact absurd (le_trans hp h) hq
  · push_neg at hp
    have h1 : ⌈p⌉ ≤ 0 := Int.ceil_le.mpr (by exact_mod_cast hp.le)
    have h2 : 0 ≤ ⌊q⌋ := Int.floor_nonneg.mpr hq
    omega
  · exact Int.ceil_mono h

theorem to_int_pos {d : ℚ} (h : 1 ≤ to_int d) : 0 ≤ d ∧ to_int d = ⌊d⌋ := by
  unfold to_int at h ⊢
  split_ifs at h ⊢ with hd
  · exact ⟨hd, rfl⟩
  · push_neg at hd
    have h1 : ⌈d⌉ ≤ 0 := Int.ceil_le.mpr (by exact_mod_cast hd.le)
    omega

theorem rank_eq_max (p : ℚ) (nboot : Int) : rank p nboot = max 0 (to_int (p * (nboot + 1)) - 1) := by
  unfold rank
  simp only
  split_ifs with h <;> omega

theorem rank_nonneg (p : ℚ) (nboot : Int) : 0 ≤ rank p nboot := by
  rw [rank_eq_max]; exact le_max_left _ _

theorem rank_mono {p q : ℚ} (nboot : Int) (hnb : 0 ≤ nboot + 1) (h : p ≤ q) :
    rank p nboot ≤ rank q nboot := by
  rw [rank_eq_max, rank_eq_max]
  have h0 : (0 : ℚ) ≤ ((nboot : ℚ) + 1) := by exact_mod_cast hnb
  have := to_int_mono (mul_le_mul_of_nonneg_right h h0)
  omega

theorem to_int_lt {p : ℚ} {nboot : Int} (hnb : 1 ≤ nboot) (hp : p < 1) :
    to_int (p * (nboot + 1)) ≤ nboot := by
  have h0 : (0 : ℚ) < ((nboot : ℚ) + 1) := by exact_mod_cast (by omega : (0 : Int) < nboot + 1)
  by_cases h : 1 ≤ to_int (p * (nboot + 1))
  · obtain ⟨_, he⟩ := to_int_pos h
    rw [he]
    have : p * (nboot + 1) < ((nboot + 1 : Int) : ℚ) := by
      push_cast; nlinarith
    have := Int.floor_lt.mpr this
    omega
  · omega

theorem rank_le {p : ℚ} {nboot : Int} (hnb : 1 ≤ nboot) (hp : p < 1) :
    rank p nboot ≤ nboot - 1 := by
  rw [rank_eq_max]
  have := to_int_lt hnb hp
  omega

theorem rank_add_le {p q : ℚ} {nboot : Int} (hnb : 1 ≤ nboot) (hp : p < 1) (hq : q < 1)
    (hpq : p + q ≤ 1) : rank p nboot + rank q nboot ≤ nboot - 1 := by
  have hp1 := to_int_lt hnb hp
  have hq1 := to_int_lt hnb hq
  rw [rank_eq_max, rank_eq_max]
  by_cases h1 : 1 ≤ to_int (p * (nboot + 1))
  · by_cases h2 : 1 ≤ to_int (q * (nboot + 1))
    · obtain ⟨_, e1⟩ := to_int_pos h1
      obtain ⟨_, e2⟩ := to_int_pos h2
      have h0 : (0 : ℚ) < ((nboot : ℚ) + 1) := by
        exact_mod_cast (by omega : (0 : Int) < nboot + 1)
      have hs : ⌊p * (nboot + 1)⌋ + ⌊q * (nboot + 1)⌋ ≤ ⌊p * (nboot + 1) + q * (nboot + 1)⌋ :=
        Int.le_floor_add _ _
      have hle : p * (nboot + 1) + q * (nboot + 1) ≤ ((nboot + 1 : Int) : ℚ) := by
        push_cast; nlinarith
      have := Int.floor_le_floor hle
      rw [Int.floor_intCast] at this
      omega
    · omega
  · omega

theorem rd_sorted_le {s : List ℚ} (hs : s.Sorted (· ≤ ·)) {i j : Int} (hi : 0 ≤ i) (hij : i ≤ j)
    (hj : j < s.length) : ∃ u v, rd s i = some u ∧ rd s j = some v ∧ u ≤ v := by
  have h1 : i.toNat < s.length := by omega
  have h2 : j.toNat < s.length := by omega
  refine ⟨s[i.toNat], s[j.toNat], ?_, ?_, ?_⟩
  · simp [rd, hi, List.getElem?_eq_getElem h1]
  · simp [rd, le_trans hi hij, List.getElem?_eq_getElem h2]
  · have := hs.rel_get_of_le (a := ⟨i.toNat, h1⟩) (b := ⟨j.toNat, h2⟩) (by
      simp only [Fin.mk_le_mk]; omega)
    simpa using this

/-! ## The percentile procedure -/


theorem nested_reads {s : List ℚ} {nboot : Int} (hs : s.Sorted (· ≤ ·))
    (hlen : (s.length : Int) = nboot) {k1 k2 k3 h1 h2 h3 : Int} (k0 : 0 ≤ k1) (k12 : k1 ≤ k2)
    (k23 : k2 ≤ k3) (h0 : 0 ≤ h1) (h12 : h1 ≤ h2) (h23 : h2 ≤ h3) (mid : k3 + h3 ≤ nboot - 1) :
    ∃ a1 b1 a2 b2 a3 b3, rd s k1 = some a1 ∧ rd s (nboot - 1 - h1) = some b1 ∧
      rd s k2 = some a2 ∧ rd s (nboot - 1 - h2) = some b2 ∧
      rd s k3 = some a3 ∧ rd s (nboot - 1 - h3) = some b3 ∧
      a1 ≤ a2 ∧ a2 ≤ a3 ∧ a3 ≤ b3 ∧ b3 ≤ b2 ∧ b2 ≤ b1 := by
  obtain ⟨a1, a2, e1, e2, l1⟩ := rd_sorted_le hs k0 k12 (by omega)
  obtain ⟨a2', a3, e2', e3, l2⟩ := rd_sorted_le hs (le_trans k0 k12) k23 (by omega)
  obtain ⟨a3', b3, e3', f3, l3⟩ :=
    rd_sorted_le hs (i := k3) (j := nboot - 1 - h3) (by omega) (by omega) (by omega)
  obtain ⟨b3', b2, f3', f2, l4⟩ :=
    rd_sorted_le hs (i := nboot - 1 - h3) (j := nboot - 1 - h2) (by omega) (by omega) (by omega)
  obtain ⟨b2', b1, f2', f1, l5⟩ :=
    rd_sorted_le hs (i := nboot - 1 - h2) (j := nboot - 1 - h1) (by omega) (by omega) (by omega)
  have : a2' = a2 := Option.some.inj (e2'.symm.trans e2)
  subst this
  have : a3' = a3 := Option.some.inj (e3'.symm.trans e3)
  subst this
  have : b3' = b3 := Option.some.inj (f3'.symm.trans f3)
  subst this
  have : b2' = b2 := Option.some.inj (f2'.symm.trans f2)
  subst this
  exact ⟨a1, b1, a2', b2', a3', b3', e1, f1, e2, f2, e3, f3, l1, l2, l3, l4, l5⟩

theorem pctile_outputs_some (E : Ext) (nboot : Int) (m : Mem) {a1 b1 a2 b2 a3 b3 : ℚ}
    (r1 : rd (E.qsortd 0 (nboot - 1) m.work2) (rank 0.025 nboot) = some a1)
    (r2 : rd (E.qsortd 0 (nboot - 1) m.work2) (nboot - 1 - rank 0.025 nboot) = some b1)
    (r3 : rd (E.qsortd 0 (nboot - 1) m.work2) (rank 0.05 nboot) = some a2)
    (r4 : rd (E.qsortd 0 (nboot - 1) m.work2) (nboot - 1 - rank 0.05 nboot) = some b2)
    (r5 : rd (E.qsortd 0 (nboot - 1) m.work2) (rank 0.10 nboot) = some a3)
    (r6 : rd (E.qsortd 0 (nboot - 1) m.work2) (nboot - 1 - rank 0.10 nboot) = some b3) :
    pctile_outputs E nboot m =
      some (⟨a1, b1, a2, b2, a3, b3⟩, { m with work2 := E.qsortd 0 (nboot - 1) m.work2 }) := by
  simp [pctile_outputs, r1, r2, r3, r4, r5, r6]

theorem pctile_run (E : Ext) (n : Int) (user_t : Stat) (nboot : Int) (m : Mem) (hn : 1 ≤ n)
    (hwf : well_formed n nboot m) (hE : draws_unit E) :
    ∃ m1, for_loop (pctile_rep E n user_t) nboot.toNat 0 m = some m1 ∧ m1.x = m.x ∧
      (m1.xwork.length : Int) = n ∧ (m1.work2.length : Int) = nboot ∧
      m1.draws = m.draws + nboot.toNat * n.toNat ∧
      (∀ v ∈ m1.work2, is_replicate n user_t m.x v) ∧
      boot_conf_pctile E n user_t nboot m = pctile_outputs E nboot m1 := by
  obtain ⟨m1, hl, h1, h2, h3, h4, h5⟩ :=
    pctile_loop_spec E hE n hn user_t nboot m hwf.1 hwf.2.1 hwf.2.2
  exact ⟨m1, hl, h1, h2, h3, h4, h5, by simp [boot_conf_pctile, hl]⟩

theorem pctile_ranks_nested (nboot : Int) (hnb : 1 ≤ nboot) :
    0 ≤ rank 0.025 nboot ∧ rank 0.025 nboot ≤ rank 0.05 nboot ∧
      rank 0.05 nboot ≤ rank 0.10 nboot ∧ rank 0.10 nboot + rank 0.10 nboot ≤ nboot - 1 :=
  ⟨rank_nonneg _ _, rank_mono nboot (by omega) (by norm_num),
    rank_mono nboot (by omega) (by norm_num),
    rank_add_le hnb (by norm_num) (by norm_num) (by norm_num)⟩

/-- C1. Nesting of the percentile bounds: for a sample of size `n ≥ 2`, any
statistic, `nboot ≥ 1`, uniform draws in `[0,1]` and a `qsortd` that sorts
ascending, `boot_conf_pctile` returns, and its six outputs satisfy
`low2p5 ≤ low5 ≤ low10 ≤ high10 ≤ high5 ≤ high2p5`. -/
theorem pctile_nesting (E : Ext) (n : Int) (user_t : Stat) (nboot : Int) (m : Mem)
    (hn : 2 ≤ n) (hnb : 1 ≤ nboot) (hwf : well_formed n nboot m) (hE : draws_unit E)
    (hsort : sorts_ascending E nboot) :
    ∃ b m', boot_conf_pctile E n user_t nboot m = some (b, m') ∧ nested b := by
  obtain ⟨m1, -, -, -, hlen, -, -, hrun⟩ :=
    pctile_run E n user_t nboot m (by omega) hwf hE
  obtain ⟨hs, hp⟩ := hsort m1.work2 hlen
  obtain ⟨k0, k12, k23, mid⟩ := pctile_ranks_nested nboot hnb
  obtain ⟨a1, b1, a2, b2, a3, b3, r1, r2, r3, r4, r5, r6, l1, l2, l3, l4, l5⟩ :=
    nested_reads hs (by rw [hp.length_eq]; exact hlen) k0 k12 k23 k0 k12 k23 mid
  exact ⟨_, _, hrun.trans (pctile_outputs_some E nboot m1 r1 r2 r3 r4 r5 r6), l1, l2, l3, l4, l5⟩


theorem demo_draws_unit : draws_unit demo_ext := by
  intro s
  simp only [demo_ext]
  split_ifs <;> norm_num

theorem demo_sorts (nboot : Int) : sorts_ascending demo_ext nboot := by
  intro w _
  exact ⟨List.sorted_insertionSort _ w, List.perm_insertionSort _ w⟩

theorem sorts_permutes {E : Ext} {nboot : Int} (h : sorts_ascending E nboot) :
    permutes E nboot := fun w hw => (h w hw).2

theorem demo_well_formed : well_formed 4 2 demo_mem := ⟨rfl, rfl, rfl⟩

/-- C1, witness: `pctile_nesting` on a concrete run (`n = 4`, `nboot = 2`). -/
theorem pctile_nesting_witness :
    ∃ b m', boot_conf_pctile demo_ext 4 mean 2 demo_mem = some (b, m') ∧ nested b :=
  pctile_nesting demo_ext 4 mean 2 demo_mem (by decide) (by decide) demo_well_formed
    demo_draws_unit (demo_sorts 2)

theorem rank_in_range (nboot : Int) (hnb : 1 ≤ nboot) (p : ℚ) (hp : p < 1)
    (work2 : List ℚ) (hlen : (work2.length : Int) = nboot) :
    ∃ a b, rd work2 (rank p nboot) = some a ∧ rd work2 (nboot - 1 - rank p nboot) = some b := by
  have h0 := rank_nonneg p nboot
  have h1 : rank p nboot ≤ nboot - 1 := rank_le hnb hp
  obtain ⟨a, ha, -⟩ := rd_eq_some (a := work2) h0 (by omega)
  obtain ⟨b, hb, -⟩ :=
    rd_eq_some (a := work2) (k := nboot - 1 - rank p nboot) (by omega) (by omega)
  exact ⟨a, b, ha, hb⟩

theorem nominal_lt_one {p : ℚ} (hp : p = 0.025 ∨ p = 0.05 ∨ p = 0.10) : p < 1 := by
  rcases hp with h | h | h <;> rw [h] <;> norm_num

/-- C4. Rank bounds of the percentile method: for `nboot ≥ 1` and `p` one of
`0.025`, `0.05`, `0.10`, the rank `k` that `boot_conf_pctile` computes
satisfies `0 ≤ k ≤ nboot − 1`, both indices `k` and `nboot−1−k` lie in
`[0, nboot−1]`, and both reads of an `nboot`-long buffer are defined. -/
theorem pctile_rank_bounds (nboot : Int) (hnb : 1 ≤ nboot) (p : ℚ)
    (hp : p = 0.025 ∨ p = 0.05 ∨ p = 0.10) :
    0 ≤ rank p nboot ∧ rank p nboot ≤ nboot - 1 ∧
      0 ≤ nboot - 1 - rank p nboot ∧ nboot - 1 - rank p nboot ≤ nboot - 1 ∧
      ∀ work2 : List ℚ, (work2.length : Int) = nboot →
        (rd work2 (rank p nboot)).isSome ∧ (rd work2 (nboot - 1 - rank p nboot)).isSome := by
  have h0 := rank_nonneg p nboot
  have h1 : rank p nboot ≤ nboot - 1 := rank_le hnb (nominal_lt_one hp)
  refine ⟨h0, h1, by omega, by omega, ?_⟩
  intro work2 hlen
  obtain ⟨a, b, ha, hb⟩ := rank_in_range nboot hnb p (nominal_lt_one hp) work2 hlen
  simp [ha, hb]

/-- C4, witness: `nboot = 1000`, `p = 0.025`. -/
theorem pctile_rank_bounds_witness :
    0 ≤ rank 0.025 1000 ∧ rank 0.025 1000 ≤ 1000 - 1 ∧
      0 ≤ 1000 - 1 - rank 0.025 1000 ∧ 1000 - 1 - rank 0.025 1000 ≤ 1000 - 1 ∧
      ∀ work2 : List ℚ, (work2.length : Int) = 1000 →
        (rd work2 (rank 0.025 1000)).isSome ∧ (rd work2 (1000 - 1 - rank 0.025 1000)).isSome :=
  pctile_rank_bounds 1000 (by decide) 0.025 (Or.inl rfl)

theorem rank_eq_spec_rank {p : ℚ} {nboot : Int} (hp : 0 ≤ p) (hnb : 0 ≤ nboot + 1) :
    rank p nboot = spec_rank p nboot := by
  have h0 : (0 : ℚ) ≤ ((nboot : ℚ) + 1) := by exact_mod_cast hnb
  rw [rank_eq_max, spec_rank, to_int, if_pos (mul_nonneg hp h0)]

theorem rd_getElem {a : List ℚ} {k : Int} {v : ℚ} (h : rd a k = some v) :
    0 ≤ k ∧ a[k.toNat]? = some v := by
  unfold rd at h
  split_ifs at h with h0
  exact ⟨h0, h⟩

theorem rd_mem {a : List ℚ} {k : Int} {v : ℚ} (h : rd a k = some v) : v ∈ a := by
  obtain ⟨_, h1⟩ := rd_getElem h
  obtain ⟨_, hm⟩ := List.getElem?_eq_some_iff.mp h1
  exact hm ▸ List.getElem_mem _

/-- C6. Order-statistic formula of the percentile method: for `nboot ≥ 1`, with
`s` the ascending sort of the `nboot` replicates (`work2` after the
replication loop) and `k_p = max(0, floor(p·(nboot+1)) − 1)`,
`boot_conf_pctile` returns `low = s[k_p]` and `high = s[nboot−1−k_p]` for
`p = 0.025, 0.05, 0.10`; for `nboot = 1000` the index pairs are `(24, 975)`,
`(49, 950)`, `(99, 900)`. -/
theorem pctile_order_statistics (E : Ext) (n : Int) (user_t : Stat) (nboot : Int) (m : Mem)
    (hn : 1 ≤ n) (hnb : 1 ≤ nboot) (hwf : well_formed n nboot m) (hE : draws_unit E)
    (hsort : sorts_ascending E nboot) :
    (∃ m1 b m', for_loop (pctile_rep E n user_t) nboot.toNat 0 m = some m1 ∧
      boot_conf_pctile E n user_t nboot m = some (b, m') ∧
      order_statistics (E.qsortd 0 (nboot - 1) m1.work2) nboot b) ∧
    (spec_rank 0.025 1000 = 24 ∧ 1000 - 1 - spec_rank 0.025 1000 = 975) ∧
    (spec_rank 0.05 1000 = 49 ∧ 1000 - 1 - spec_rank 0.05 1000 = 950) ∧
    (spec_rank 0.10 1000 = 99 ∧ 1000 - 1 - spec_rank 0.10 1000 = 900) := by
  refine ⟨?_, by decide!, by decide!, by decide!⟩
  obtain ⟨m1, hl, -, -, hlen, -, -, hrun⟩ := pctile_run E n user_t nboot m hn hwf hE
  obtain ⟨hs, hp⟩ := hsort m1.work2 hlen
  obtain ⟨k0, k12, k23, mid⟩ := pctile_ranks_nested nboot hnb
  obtain ⟨a1, b1, a2, b2, a3, b3, r1, r2, r3, r4, r5, r6, -⟩ :=
    nested_reads hs (by rw [hp.length_eq]; exact hlen) k0 k12 k23 k0 k12 k23 mid
  have e1 : rank 0.025 nboot = spec_rank 0.025 nboot :=
    rank_eq_spec_rank (by norm_num) (by omega)
  have e2 : rank 0.05 nboot = spec_rank 0.05 nboot :=
    rank_eq_spec_rank (by norm_num) (by omega)
  have e3 : rank 0.10 nboot = spec_rank 0.10 nboot :=
    rank_eq_spec_rank (by norm_num) (by omega)
  refine ⟨m1, _, _, hl, hrun.trans (pctile_outputs_some E nboot m1 r1 r2 r3 r4 r5 r6), ?_⟩
  rw [e1] at r1 r2
  rw [e2] at r3 r4
  rw [e3] at r5 r6
  exact ⟨⟨(rd_getElem r2).1, (rd_getElem r1).2, (rd_getElem r2).2⟩,
    ⟨(rd_getElem r4).1, (rd_getElem r3).2, (rd_getElem r4).2⟩,
    ⟨(rd_getElem r6).1, (rd_getElem r5).2, (rd_getElem r6).2⟩⟩

/-- C6, witness: `pctile_order_statistics` on a concrete run (`n = 4`, `nboot = 2`). -/
theorem pctile_order_statistics_witness :
    (∃ m1 b m', for_loop (pctile_rep demo_ext 4 mean) (2 : Int).toNat 0 demo_mem = some m1 ∧
      boot_conf_pctile demo_ext 4 mean 2 demo_mem = some (b, m') ∧
      order_statistics (demo_ext.qsortd 0 (2 - 1) m1.work2) 2 b) ∧
    (spec_rank 0.025 1000 = 24 ∧ 1000 - 1 - spec_rank 0.025 1000 = 975) ∧
    (spec_rank 0.05 1000 = 49 ∧ 1000 - 1 - spec_rank 0.05 1000 = 950) ∧
    (spec_rank 0.10 1000 = 99 ∧ 1000 - 1 - spec_rank 0.10 1000 = 900) :=
  pctile_order_statistics demo_ext 4 mean 2 demo_mem (by decide) (by decide) demo_well_formed
    demo_draws_unit (demo_sorts 2)

/-- C7. No interpolation: for `n ≥ 2`, `nboot ≥ 1`, any statistic and uniform
draws in `[0,1]`, with a `qsortd` that permutes the buffer, each of the six
outputs of `boot_conf_pctile` is one of the `nboot` values stored in `work2`
by the replication loop, and each of those is `user_t ( n , xwork )` for a
resample `xwork` of `n` cases of the sample. -/
theorem pctile_no_interpolation (E : Ext) (n : Int) (user_t : Stat) (nboot : Int) (m : Mem)
    (hn : 2 ≤ n) (hnb : 1 ≤ nboot) (hwf : well_formed n nboot m) (hE : draws_unit E)
    (hperm : permutes E nboot) :
    ∃ m1 b m', for_loop (pctile_rep E n user_t) nboot.toNat 0 m = some m1 ∧
      boot_conf_pctile E n user_t nboot m = some (b, m') ∧
      (m1.work2.length : Int) = nboot ∧
      (∀ v ∈ m1.work2, is_replicate n user_t m.x v) ∧
      b.low2p5 ∈ m1.work2 ∧ b.high2p5 ∈ m1.work2 ∧ b.low5 ∈ m1.work2 ∧
      b.high5 ∈ m1.work2 ∧ b.low10 ∈ m1.work2 ∧ b.high10 ∈ m1.work2 := by
  obtain ⟨m1, hl, -, -, hlen, -, hrep, hrun⟩ :=
    pctile_run E n user_t nboot m (by omega) hwf hE
  have hp := hperm m1.work2 hlen
  have hlen2 : ((E.qsortd 0 (nboot - 1) m1.work2).length : Int) = nboot := by
    rw [hp.length_eq]; exact hlen
  have rdk : ∀ p : ℚ, p = 0.025 ∨ p = 0.05 ∨ p = 0.10 →
      ∃ a b, rd (E.qsortd 0 (nboot - 1) m1.work2) (rank p nboot) = some a ∧
        rd (E.qsortd 0 (nboot - 1) m1.work2) (nboot - 1 - rank p nboot) = some b := by
    intro p hp
    exact rank_in_range nboot hnb p (nominal_lt_one hp) _ hlen2
  obtain ⟨a1, b1, r1, r2⟩ := rdk 0.025 (Or.inl rfl)
  obtain ⟨a2, b2, r3, r4⟩ := rdk 0.05 (Or.inr (Or.inl rfl))
  obtain ⟨a3, b3, r5, r6⟩ := rdk 0.10 (Or.inr (Or.inr rfl))
  refine ⟨m1, _, _, hl, hrun.trans (pctile_outputs_some E nboot m1 r1 r2 r3 r4 r5 r6), hlen,
    hrep, ?_⟩
  exact ⟨hp.subset (rd_mem r1), hp.subset (rd_mem r2), hp.subset (rd_mem r3),
    hp.subset (rd_mem r4), hp.subset (rd_mem r5), hp.subset (rd_mem r6)⟩

/-- C7, witness: `pctile_no_interpolation` on a concrete run (`n = 4`, `nboot = 2`). -/
theorem pctile_no_interpolation_witness :
    ∃ m1 b m', for_loop (pctile_rep demo_ext 4 mean) (2 : Int).toNat 0 demo_mem = some m1 ∧
      boot_conf_pctile demo_ext 4 mean 2 demo_mem = some (b, m') ∧
      (m1.work2.length : Int) = 2 ∧
      (∀ v ∈ m1.work2, is_replicate 4 mean demo_mem.x v) ∧
      b.low2p5 ∈ m1.work2 ∧ b.high2p5 ∈ m1.work2 ∧ b.low5 ∈ m1.work2 ∧
      b.high5 ∈ m1.work2 ∧ b.low10 ∈ m1.work2 ∧ b.high10 ∈ m1.work2 :=
  pctile_no_interpolation demo_ext 4 mean 2 demo_mem (by decide) (by decide) demo_well_formed
    demo_draws_unit (sorts_permutes (demo_sorts 2))

theorem sorted_extremes {s : List ℚ} {nboot : Int} (hs : s.Sorted (· ≤ ·))
    (hlen : (s.length : Int) = nboot) (hnb : 1 ≤ nboot) :
    ∃ lo hi, rd s 0 = some lo ∧ rd s (nboot - 1 - 0) = some hi ∧
      ∀ r ∈ s, lo ≤ r ∧ r ≤ hi := by
  obtain ⟨lo, hi, e1, e2, -⟩ :=
    rd_sorted_le hs (i := 0) (j := nboot - 1 - 0) le_rfl (by omega) (by omega)
  refine ⟨lo, hi, e1, e2, ?_⟩
  intro r hr
  obtain ⟨j, hj, rfl⟩ := List.getElem_of_mem hr
  obtain ⟨lo', r1, f1, f2, l1⟩ :=
    rd_sorted_le hs (i := 0) (j := (j : Int)) le_rfl (by omega) (by omega)
  obtain ⟨r2, hi', g1, g2, l2⟩ :=
    rd_sorted_le hs (i := (j : Int)) (j := nboot - 1 - 0) (by omega) (by omega) (by omega)
  have hj1 : rd s (j : Int) = some s[j] := by
    simp [rd, List.getElem?_eq_getElem hj]
  have : lo' = lo := Option.some.inj (f1.symm.trans e1)
  subst this
  have : hi' = hi := Option.some.inj (g2.symm.trans e2)
  subst this
  have : r1 = s[j] := Option.some.inj (f2.symm.trans hj1)
  subst this
  have : r2 = s[j] := Option.some.inj (g1.symm.trans hj1)
  subst this
  exact ⟨l1, l2⟩

/-- C10. Small-`nboot` degeneracy of `boot_conf_pctile`: for `nboot ≥ 1` with
`floor(p·(nboot+1)) − 1 < 0` for each of `p = 0.025, 0.05, 0.10`, the three
ranks are clamped to 0, the three lower bounds are equal to the minimum
replicate and the three upper bounds to the maximum replicate. -/
theorem pctile_small_nboot (E : Ext) (n : Int) (user_t : Stat) (nboot : Int) (m : Mem)
    (hn : 2 ≤ n) (hnb : 1 ≤ nboot) (hwf : well_formed n nboot m) (hE : draws_unit E)
    (hsort : sorts_ascending E nboot)
    (hsmall : ∀ p : ℚ, p = 0.025 ∨ p = 0.05 ∨ p = 0.10 → ⌊p * (nboot + 1)⌋ - 1 < 0) :
    (rank 0.025 nboot = 0 ∧ rank 0.05 nboot = 0 ∧ rank 0.10 nboot = 0) ∧
    ∃ m1 b m' lo hi, for_loop (pctile_rep E n user_t) nboot.toNat 0 m = some m1 ∧
      boot_conf_pctile E n user_t nboot m = some (b, m') ∧
      (lo ∈ m1.work2 ∧ ∀ r ∈ m1.work2, lo ≤ r) ∧ (hi ∈ m1.work2 ∧ ∀ r ∈ m1.work2, r ≤ hi) ∧
      b.low2p5 = lo ∧ b.low5 = lo ∧ b.low10 = lo ∧
      b.high2p5 = hi ∧ b.high5 = hi ∧ b.high10 = hi := by
  have hr : ∀ p : ℚ, p = 0.025 ∨ p = 0.05 ∨ p = 0.10 → rank p nboot = 0 := by
    intro p hp
    have h0 : (0 : ℚ) ≤ p := by rcases hp with h | h | h <;> rw [h] <;> norm_num
    rw [rank_eq_spec_rank h0 (by omega), spec_rank]
    have := hsmall p hp
    omega
  have e1 := hr 0.025 (Or.inl rfl)
  have e2 := hr 0.05 (Or.inr (Or.inl rfl))
  have e3 := hr 0.10 (Or.inr (Or.inr rfl))
  refine ⟨⟨e1, e2, e3⟩, ?_⟩
  obtain ⟨m1, hl, -, -, hlen, -, -, hrun⟩ :=
    pctile_run E n user_t nboot m (by omega) hwf hE
  obtain ⟨hs, hp⟩ := hsort m1.work2 hlen
  obtain ⟨lo, hi, r1, r2, hext⟩ :=
    sorted_extremes hs (by rw [hp.length_eq]; exact hlen) hnb
  have q1 : rd (E.qsortd 0 (nboot - 1) m1.work2) (rank 0.025 nboot) = some lo := by
    rw [e1]; exact r1
  have q2 : rd (E.qsortd 0 (nboot - 1) m1.work2) (nboot - 1 - rank 0.025 nboot) = some hi := by
    rw [e1]; exact r2
  have q3 : rd (E.qsortd 0 (nboot - 1) m1.work2) (rank 0.05 nboot) = some lo := by
    rw [e2]; exact r1
  have q4 : rd (E.qsortd 0 (nboot - 1) m1.work2) (nboot - 1 - rank 0.05 nboot) = some hi := by
    rw [e2]; exact r2
  have q5 : rd (E.qsortd 0 (nboot - 1) m1.work2) (rank 0.10 nboot) = some lo := by
    rw [e3]; exact r1
  have q6 : rd (E.qsortd 0 (nboot - 1) m1.work2) (nboot - 1 - rank 0.10 nboot) = some hi := by
    rw [e3]; exact r2
  refine ⟨m1, _, _, lo, hi, hl,
    hrun.trans (pctile_outputs_some E nboot m1 q1 q2 q3 q4 q5 q6), ?_, ?_,
    rfl, rfl, rfl, rfl, rfl, rfl⟩
  · exact ⟨hp.subset (rd_mem r1), fun r hr => (hext r (hp.symm.subset hr)).1⟩
  · exact ⟨hp.subset (rd_mem r2), fun r hr => (hext r (hp.symm.subset hr)).2⟩

/-- C10, witness: `pctile_small_nboot` on a concrete run (`n = 4`, `nboot = 2`). -/
theorem pctile_small_nboot_witness :
    (rank 0.025 2 = 0 ∧ rank 0.05 2 = 0 ∧ rank 0.10 2 = 0) ∧
    ∃ m1 b m' lo hi, for_loop (pctile_rep demo_ext 4 mean) (2 : Int).toNat 0 demo_mem = some m1 ∧
      boot_conf_pctile demo_ext 4 mean 2 demo_mem = some (b, m') ∧
      (lo ∈ m1.work2 ∧ ∀ r ∈ m1.work2, lo ≤ r) ∧ (hi ∈ m1.work2 ∧ ∀ r ∈ m1.work2, r ≤ hi) ∧
      b.low2p5 = lo ∧ b.low5 = lo ∧ b.low10 = lo ∧
      b.high2p5 = hi ∧ b.high5 = hi ∧ b.high10 = hi :=
  pctile_small_nboot demo_ext 4 mean 2 demo_mem (by decide) (by decide) demo_well_formed
    demo_draws_unit (demo_sorts 2) (by
      intro p hp
      rcases hp with h | h | h <;> rw [h] <;> decide!)

/-! ## The jackknife -/

theorem set_getElem_same {l : List ℚ} {i : Nat} (h : i < l.length) : l.set i l[i] = l := by
  apply List.ext_getElem?
  intro j
  by_cases hji : i = j
  · subst hji
    simp [List.getElem?_set, h, List.getElem?_eq_getElem h]
  · simp [List.getElem?_set, hji]

theorem jack_step_spec (n : Int) (user_t : Stat) (xlast : ℚ) (i : Int) (s : Mem × ℚ)
    (hx : (s.1.x.length : Int) = n) (hw : (s.1.xwork.length : Int) = n) (hi0 : 0 ≤ i)
    (hi1 : i < n) :
    jack_step n user_t xlast i s =
      some ({ s.1 with xwork := s.1.xwork.set i.toNat (jack_value n user_t s.1.x xlast i.toNat) },
        s.2 + jack_value n user_t s.1.x xlast i.toNat) := by
  have hlt : i.toNat < s.1.x.length := by omega
  have h1 : rd s.1.x i = some s.1.x[i.toNat] := by
    simp [rd, hi0, List.getElem?_eq_getElem hlt]
  have h2 := wr_eq_some (a := s.1.x) xlast hi0 (by omega)
  have h3 := wr_eq_some (a := s.1.xwork) (jack_value n user_t s.1.x xlast i.toNat) hi0 (by omega)
  have h4 := wr_eq_some (a := s.1.x.set i.toNat xlast) s.1.x[i.toNat] hi0
    (by rw [List.length_set]; omega)
  simp only [jack_step, h1, h2, h4, Option.bind_eq_bind, Option.some_bind, Option.pure_def]
  rw [show user_t (n - 1) (s.1.x.set i.toNat xlast) = jack_value n user_t s.1.x xlast i.toNat
    from rfl, h3]
  simp [List.set_set, set_getElem_same hlt]

theorem jack_loop_spec (n : Int) (user_t : Stat) (xlast : ℚ) (m : Mem)
    (hx : (m.x.length : Int) = n) (hw : (m.xwork.length : Int) = n) (k : Nat) (hk : (k : Int) ≤ n) :
    ∃ s, for_loop (jack_step n user_t xlast) k 0 (m, 0) = some s ∧ s.1.x = m.x ∧
      s.1.work2 = m.work2 ∧ s.1.draws = m.draws ∧ (s.1.xwork.length : Int) = n ∧
      (∀ j : Nat, j < k → s.1.xwork[j]? = some (jack_value n user_t m.x xlast j)) ∧
      s.2 = ((List.range k).map (jack_value n user_t m.x xlast)).sum := by
  have key := for_loop_inv (jack_step n user_t xlast)
    (fun i s => s.1.x = m.x ∧ s.1.work2 = m.work2 ∧ s.1.draws = m.draws ∧
      (s.1.xwork.length : Int) = n ∧
      (∀ j : Nat, (j : Int) < i → s.1.xwork[j]? = some (jack_value n user_t m.x xlast j)) ∧
      s.2 = ((List.range i.toNat).map (jack_value n user_t m.x xlast)).sum) n
    (by
      rintro i s hi0 hi1 ⟨h1, h2, h3, h4, h5, h6⟩
      refine ⟨_, jack_step_spec n user_t xlast i s (by rw [h1]; exact hx) h4 hi0 hi1,
        h1, h2, h3, by simp [h4], ?_, ?_⟩
      · intro j hj
        by_cases hji : j = i.toNat
        · subst hji
          have : i.toNat < s.1.xwork.length := by omega
          simp [List.getElem?_set, this, h1]
        · have hne : i.toNat ≠ j := fun h => hji h.symm
          simp only [List.getElem?_set, hne, if_false]
          exact h5 j (by omega)
      · have : (i + 1).toNat = i.toNat + 1 := by omega
        simp only [this, List.range_succ, List.map_append, List.sum_append, List.map_cons,
          List.map_nil, List.sum_cons, List.sum_nil, add_zero, h6, h1])
    k 0 (m, 0) le_rfl (by omega) ⟨rfl, rfl, rfl, hw, by intro j hj; omega, by simp⟩
  obtain ⟨s, hl, h1, h2, h3, h4, h5, h6⟩ := key
  refine ⟨s, hl, h1, h2, h3, h4, ?_, ?_⟩
  · intro j hj
    exact h5 j (by omega)
  · simpa using h6

theorem jackknife_spec (n : Int) (user_t : Stat) (m : Mem) (hn : 1 ≤ n)
    (hx : (m.x.length : Int) = n) (hw : (m.xwork.length : Int) = n) :
    ∃ xlast j, rd m.x (n - 1) = some xlast ∧ jackknife n user_t m = some j ∧ j.1.x = m.x ∧
      j.1.work2 = m.work2 ∧ j.1.draws = m.draws ∧
      j.1.xwork = (List.range n.toNat).map (jack_value n user_t m.x xlast) ∧
      j.2 = ((List.range n.toNat).map (jack_value n user_t m.x xlast)).sum := by
  obtain ⟨xlast, hr, -, -⟩ := rd_eq_some (a := m.x) (k := n - 1) (by omega) (by omega)
  obtain ⟨s, hl, h1, h2, h3, h4, h5, h6⟩ :=
    jack_loop_spec n user_t xlast m hx hw n.toNat (by omega)
  refine ⟨xlast, s, hr, by simp [jackknife, hr, hl], h1, h2, h3, ?_, h6⟩
  apply List.ext_getElem?
  intro j
  by_cases hj : j < n.toNat
  · rw [h5 j hj]
    simp [List.getElem?_map, List.getElem?_range hj]
  · have e1 : s.1.xwork[j]? = none := List.getElem?_eq_none (by omega)
    have e2 : ((List.range n.toNat).map (jack_value n user_t m.x xlast))[j]? = none :=
      List.getElem?_eq_none (by simp; omega)
    rw [e1, e2]

/-! ## The replication loop of the BCa procedure -/

theorem take_set_succ {l : List ℚ} {i : Nat} (v : ℚ) (h : i < l.length) :
    (l.set i v).take (i + 1) = l.take i ++ [v] := by
  rw [List.take_succ]
  have h1 : (l.set i v).take i = l.take i := by
    apply List.ext_getElem?
    intro j
    rw [List.getElem?_take, List.getElem?_take]
    split_ifs with hj
    · rw [List.getElem?_set_ne (by omega)]
    · rfl
  have h2 : (l.set i v)[i]? = some v := by simp [List.getElem?_set, h]
  rw [h1, h2]; rfl

theorem bca_rep_spec (E : Ext) (hE : draws_unit E) (n : Int) (hn : 1 ≤ n) (user_t : Stat)
    (theta_hat : ℚ) (rep : Int) (s : Mem × Int) (hx : (s.1.x.length : Int) = n)
    (hw : (s.1.xwork.length : Int) = n) (hr0 : 0 ≤ rep) (hr1 : rep < s.1.work2.length) :
    ∃ m' v, bca_rep E n user_t theta_hat rep s =
        some (m', if v < theta_hat then s.2 + 1 else s.2) ∧
      m'.x = s.1.x ∧ (m'.xwork.length : Int) = n ∧ m'.work2 = s.1.work2.set rep.toNat v := by
  obtain ⟨m1, hl, h1, h2, h3, h4, h5⟩ := gen_sample_spec E hE n hn s.1 hx hw
  refine ⟨{ m1 with work2 := s.1.work2.set rep.toNat (user_t n m1.xwork) }, user_t n m1.xwork,
    ?_, h1, h4, rfl⟩
  simp only [bca_rep, hl]
  simp [h2, wr_eq_some _ hr0 hr1]

theorem count_below_snoc (theta_hat : ℚ) (w : List ℚ) (v : ℚ) :
    count_below theta_hat (w ++ [v]) =
      if v < theta_hat then count_below theta_hat w + 1 else count_below theta_hat w := by
  unfold count_below
  rw [List.countP_append, List.countP_singleton]
  by_cases h : v < theta_hat <;> simp [h]

theorem bca_loop_spec (E : Ext) (hE : draws_unit E) (n : Int) (hn : 1 ≤ n) (user_t : Stat)
    (theta_hat : ℚ) (nboot : Int) (m : Mem) (hwf : well_formed n nboot m) :
    ∃ m1, for_loop (pctile_rep E n user_t) nboot.toNat 0 m = some m1 ∧
      for_loop (bca_rep E n user_t theta_hat) nboot.toNat 0 (m, 0) =
        some (m1, count_below theta_hat m1.work2) := by
  obtain ⟨hx, hw, hw2⟩ := hwf
  have key := for_loop_inv (bca_rep E n user_t theta_hat)
    (fun i s => (s.1.x.length : Int) = n ∧ (s.1.xwork.length : Int) = n ∧
      (s.1.work2.length : Int) = nboot ∧
      s.2 = count_below theta_hat (s.1.work2.take i.toNat)) nboot
    (by
      rintro i s hi0 hi1 ⟨h1, h2, h3, h4⟩
      obtain ⟨m', v, hb, g1, g2, g3⟩ :=
        bca_rep_spec E hE n hn user_t theta_hat i s h1 h2 hi0 (by omega)
      refine ⟨_, hb, by rw [g1]; exact h1, g2, by simp [g3, h3], ?_⟩
      have e : (i + 1).toNat = i.toNat + 1 := by omega
      have hlt : i.toNat < s.1.work2.length := by omega
      simp only [g3, e, take_set_succ v hlt, count_below_snoc, h4])
    nboot.toNat 0 (m, 0) le_rfl (by omega) ⟨hx, hw, hw2, by simp [count_below]⟩
  obtain ⟨s, hl, -, -, h3, h4⟩ := key
  have hf := bca_loop_fst E n user_t theta_hat nboot.toNat 0 (m, 0)
  rw [hl] at hf
  simp only [Option.map_some'] at hf
  refine ⟨s.1, hf.symm, ?_⟩
  rw [hl]
  have e : ((0 : Int) + (nboot.toNat : Int)).toNat = s.1.work2.length := by omega
  rw [e, List.take_length] at h4
  rw [← h4]

theorem probit_some (E : Ext) {p : ℚ} (h0 : 0 < p) (h1 : p < 1) :
    probit E p = some (E.inverse_normal_cdf p) := by
  simp [probit, h0, h1]

theorem nominal_range {p : ℚ} (hp : p ∈ nominal) : 0 < p ∧ p < 1 := by
  simp only [nominal, List.mem_cons, List.mem_singleton, List.not_mem_nil, or_false] at hp
  rcases hp with h | h | h | h | h | h <;> rw [h] <;> norm_num

theorem probit_nominal (E : Ext) {p : ℚ} (hp : p ∈ nominal) :
    probit E p = some (E.inverse_normal_cdf p) :=
  probit_some E (nominal_range hp).1 (nominal_range hp).2

theorem clamp_z0_count_range (c : Int) {nboot : Int} (hnb : 2 ≤ nboot) :
    1 ≤ clamp_z0_count c nboot ∧ clamp_z0_count c nboot ≤ nboot - 1 := by
  unfold clamp_z0_count
  simp only
  split_ifs <;> omega

theorem clamp_proportion (c : Int) {nboot : Int} (hnb : 2 ≤ nboot) :
    0 < (clamp_z0_count c nboot : ℚ) / (nboot : ℚ) ∧
      (clamp_z0_count c nboot : ℚ) / (nboot : ℚ) < 1 := by
  obtain ⟨h1, h2⟩ := clamp_z0_count_range c hnb
  have hn : (0 : ℚ) < (nboot : ℚ) := by exact_mod_cast (by omega : (0 : Int) < nboot)
  have g1 : (0 : ℚ) < (clamp_z0_count c nboot : ℚ) := by
    exact_mod_cast (by omega : (0 : Int) < clamp_z0_count c nboot)
  have g2 : (clamp_z0_count c nboot : ℚ) < (nboot : ℚ) := by
    exact_mod_cast (by omega : clamp_z0_count c nboot < nboot)
  exact ⟨div_pos g1 hn, (div_lt_one hn).mpr g2⟩

theorem bca_replicates_spec (E : Ext) (hE : draws_unit E) (n : Int) (hn : 1 ≤ n) (user_t : Stat)
    (nboot : Int) (hnb : 2 ≤ nboot) (m : Mem) (hwf : well_formed n nboot m) :
    ∃ m1, for_loop (pctile_rep E n user_t) nboot.toNat 0 m = some m1 ∧
      bca_replicates E n user_t nboot m = some (m1, E.inverse_normal_cdf
        ((clamp_z0_count (count_below (user_t n m.x) m1.work2) nboot : ℚ) / (nboot : ℚ))) := by
  obtain ⟨m1, h1, h2⟩ := bca_loop_spec E hE n hn user_t (user_t n m.x) nboot m hwf
  refine ⟨m1, h1, ?_⟩
  have hnz : (nboot : ℚ) ≠ 0 := by exact_mod_cast (by omega : nboot ≠ 0)
  obtain ⟨g1, g2⟩ := clamp_proportion (count_below (user_t n m.x) m1.work2) hnb
  simp [bca_replicates, h2, fdiv, hnz, probit_some E g1 g2]

theorem bca_replicates_fst {E : Ext} {n : Int} {user_t : Stat} {nboot : Int} {m : Mem}
    {r : Mem × ℚ} (h : bca_replicates E n user_t nboot m = some r) :
    ∃ s, for_loop (bca_rep E n user_t (user_t n m.x)) nboot.toNat 0 (m, 0) = some s ∧
      r.1 = s.1 := by
  simp only [bca_replicates, Option.bind_eq_bind, Option.bind_eq_some, Option.pure_def,
    Option.some.injEq] at h
  obtain ⟨s, hs, _, _, _, _, rfl⟩ := h
  exact ⟨s, hs, rfl⟩

/-! ## The acceleration -/

theorem sum_map_take_succ (f : ℚ → ℚ) (l : List ℚ) {i : Nat} (h : i < l.length) :
    ((l.take (i + 1)).map f).sum = ((l.take i).map f).sum + f l[i] := by
  rw [List.take_succ, List.getElem?_eq_getElem h]
  simp only [Option.toList, List.map_append, List.sum_append, List.map_cons, List.map_nil,
    List.sum_cons, List.sum_nil, add_zero]

theorem accel_loop_spec (td : ℚ) (xwork : List ℚ) (k : Nat) (hk : k ≤ xwork.length) :
    for_loop (accel_step td xwork) k 0 (0, 0) =
      some (((xwork.take k).map (fun v => (td - v) * (td - v) * (td - v))).sum,
        ((xwork.take k).map (fun v => (td - v) * (td - v))).sum) := by
  have key := for_loop_inv (accel_step td xwork)
    (fun i s => s = (((xwork.take i.toNat).map (fun v => (td - v) * (td - v) * (td - v))).sum,
        ((xwork.take i.toNat).map (fun v => (td - v) * (td - v))).sum)) xwork.length
    (by
      rintro i s hi0 hi1 rfl
      have hlt : i.toNat < xwork.length := by omega
      have h1 : rd xwork i = some xwork[i.toNat] := by
        simp [rd, hi0, List.getElem?_eq_getElem hlt]
      have e : (i + 1).toNat = i.toNat + 1 := by omega
      have hstep : accel_step td xwork i
          (((xwork.take i.toNat).map (fun v => (td - v) * (td - v) * (td - v))).sum,
            ((xwork.take i.toNat).map (fun v => (td - v) * (td - v))).sum) =
          some (((xwork.take i.toNat).map (fun v => (td - v) * (td - v) * (td - v))).sum +
              (td - xwork[i.toNat]) * (td - xwork[i.toNat]) * (td - xwork[i.toNat]),
            ((xwork.take i.toNat).map (fun v => (td - v) * (td - v))).sum +
              (td - xwork[i.toNat]) * (td - xwork[i.toNat])) := by
        simp only [accel_step, h1, Option.bind_eq_bind, Option.some_bind, Option.pure_def]
      refine ⟨_, hstep, ?_⟩
      show (_, _) = (_, _)
      rw [e, sum_map_take_succ _ xwork hlt, sum_map_take_succ _ xwork hlt])
    k 0 (0, 0) le_rfl (by omega) (by simp)
  obtain ⟨s, hl, hs⟩ := key
  rw [hl, hs]
  simp

theorem compute_accel_spec (E : Ext) (hs : sqrt_nonneg E) (n : Int) (hn : 1 ≤ n)
    (xwork : List ℚ) (hw : (xwork.length : Int) = n) (theta_dot : ℚ) :
    compute_accel E n xwork theta_dot =
      some ((xwork.map (fun v => (theta_dot / n - v) * (theta_dot / n - v) *
          (theta_dot / n - v))).sum /
        (6 * (E.sqrt (xwork.map (fun v => (theta_dot / n - v) * (theta_dot / n - v))).sum *
            E.sqrt (xwork.map (fun v => (theta_dot / n - v) * (theta_dot / n - v))).sum *
            E.sqrt (xwork.map (fun v => (theta_dot / n - v) * (theta_dot / n - v))).sum) +
          1 / 10 ^ 60)) := by
  have hnz : (n : ℚ) ≠ 0 := by exact_mod_cast (by omega : n ≠ 0)
  have hl := accel_loop_spec (theta_dot / n) xwork n.toNat (by omega)
  have e : n.toNat = xwork.length := by omega
  rw [e, List.take_length] at hl
  have hd := hs (xwork.map (fun v => (theta_dot / n - v) * (theta_dot / n - v))).sum
  have hpos : (6 * (E.sqrt (xwork.map (fun v => (theta_dot / n - v) * (theta_dot / n - v))).sum *
            E.sqrt (xwork.map (fun v => (theta_dot / n - v) * (theta_dot / n - v))).sum *
            E.sqrt (xwork.map (fun v => (theta_dot / n - v) * (theta_dot / n - v))).sum) +
          1 / 10 ^ 60 : ℚ) ≠ 0 := by
    have : (0 : ℚ) < 1 / 10 ^ 60 := by positivity
    positivity
  simp only [compute_accel, fdiv, hnz, if_false, e, hl, Option.bind_eq_bind, Option.some_bind]
  rw [if_neg hpos]

/-! ## The output stage of the BCa procedure -/

theorem bca_adjust_some (E : Ext) {z0 accel z : ℚ} (h : 1 - accel * (z0 + z) ≠ 0) :
    bca_adjust E z0 accel z =
      some (E.normal_cdf (z0 + (z0 + z) / (1 - accel * (z0 + z)))) := by
  simp [bca_adjust, fdiv, h]

theorem bca_arg_mono {z0 accel z z' : ℚ} (hz : z ≤ z') (h : 0 < 1 - accel * (z0 + z))
    (h' : 0 < 1 - accel * (z0 + z')) :
    z0 + (z0 + z) / (1 - accel * (z0 + z)) ≤ z0 + (z0 + z') / (1 - accel * (z0 + z')) := by
  have e : (z0 + z) * (1 - accel * (z0 + z')) - (z0 + z') * (1 - accel * (z0 + z)) = z - z' := by
    ring
  have : (z0 + z) / (1 - accel * (z0 + z)) ≤ (z0 + z') / (1 - accel * (z0 + z')) := by
    rw [div_le_div_iff₀ h h']
    linarith
  linarith

theorem one_minus_exact {a : ℚ} (h : 1 / 2 ^ 54 < a) : one_minus a = 1 - a := by
  unfold one_minus
  rw [if_neg (fun h' => absurd h'.2 (not_le.mpr h))]

theorem one_minus_lt_one {a : ℚ} (h : one_minus a < 1) :
    1 / 2 ^ 54 < a ∧ one_minus a = 1 - a := by
  have e53 : (0 : ℚ) < 1 / 2 ^ 53 := by positivity
  have key : 1 / 2 ^ 54 < a := by
    by_contra hle
    push_neg at hle
    unfold one_minus at h
    split_ifs at h with h1
    · exact absurd h (lt_irrefl _)
    · have : a < -(1 / 2 ^ 53) := by
        by_contra h2
        push_neg at h2
        exact h1 ⟨h2, hle⟩
      linarith
  exact ⟨key, one_minus_exact key⟩

theorem one_minus_anti {a b : ℚ} (h : a ≤ b) : one_minus b ≤ one_minus a := by
  have e53 : (0 : ℚ) < 1 / 2 ^ 53 := by positivity
  have e54 : (0 : ℚ) < 1 / 2 ^ 54 := by positivity
  unfold one_minus
  split_ifs with h1 h2 h2
  · exact le_rfl
  · have : a < -(1 / 2 ^ 53) := by
      by_contra h3
      push_neg at h3
      exact h2 ⟨h3, le_trans h h1.2⟩
    linarith
  · have : 1 / 2 ^ 54 < b := by
      by_contra h3
      push_neg at h3
      exact h1 ⟨le_trans h2.1 h, h3⟩
    linarith
  · linarith

theorem bca_pair_some (E : Ext) (z0 accel : ℚ) (nboot : Int) (work2 : List ℚ) (plo phi : ℚ)
    {alo ahi lo hi : ℚ} (hplo : plo ∈ nominal) (hphi : phi ∈ nominal)
    (h1 : bca_adjust E z0 accel (E.inverse_normal_cdf plo) = some alo)
    (h2 : bca_adjust E z0 accel (E.inverse_normal_cdf phi) = some ahi)
    (h3 : rd work2 (rank alo nboot) = some lo)
    (h4 : rd work2 (nboot - 1 - rank (one_minus ahi) nboot) = some hi) :
    bca_pair E z0 accel nboot work2 plo phi = some (lo, hi) := by
  simp [bca_pair, probit_nominal E hplo, probit_nominal E hphi, h1, h2, h3, h4]

theorem corrected_mono (E : Ext) (hmono : cdf_monotone E) (hinv : inverse_monotone E)
    {z0 accel : ℚ} (hpos : divisors_positive E z0 accel) {p q : ℚ} (hp : p ∈ nominal)
    (hq : q ∈ nominal) (hpq : p ≤ q) : corrected E z0 accel p ≤ corrected E z0 accel q := by
  have hp0 : 0 < p := (nominal_range hp).1
  have hq1 : q < 1 := (nominal_range hq).2
  exact hmono _ _ (bca_arg_mono (hinv p q hp0 hpq hq1) (hpos p hp) (hpos q hq))

theorem bca_outputs_nested (E : Ext) (z0 accel : ℚ) (nboot : Int) (m : Mem) (hnb : 1 ≤ nboot)
    (hlen : (m.work2.length : Int) = nboot) (hsort : sorts_ascending E nboot)
    (hmono : cdf_monotone E) (hinv : inverse_monotone E)
    (hpos : divisors_positive E z0 accel) (hin : ranks_in_range E z0 accel) :
    ∃ b, bca_outputs E z0 accel nboot m =
        some (b, { m with work2 := E.qsortd 0 (nboot - 1) m.work2 }) ∧ nested b := by
  obtain ⟨hs, hp⟩ := hsort m.work2 hlen
  have m1 : (0.025 : ℚ) ∈ nominal := by simp [nominal]
  have m2 : (0.05 : ℚ) ∈ nominal := by simp [nominal]
  have m3 : (0.10 : ℚ) ∈ nominal := by simp [nominal]
  have m4 : (0.90 : ℚ) ∈ nominal := by simp [nominal]
  have m5 : (0.95 : ℚ) ∈ nominal := by simp [nominal]
  have m6 : (0.975 : ℚ) ∈ nominal := by simp [nominal]
  have c12 := corrected_mono E hmono hinv hpos m1 m2 (by norm_num)
  have c23 := corrected_mono E hmono hinv hpos m2 m3 (by norm_num)
  have c34 := corrected_mono E hmono hinv hpos m3 m4 (by norm_num)
  have c45 := corrected_mono E hmono hinv hpos m4 m5 (by norm_num)
  have c56 := corrected_mono E hmono hinv hpos m5 m6 (by norm_num)
  have hN : 0 ≤ nboot + 1 := by omega
  have hlo : corrected E z0 accel 0.10 < 1 := hin.1 0.10 (by simp)
  have hhi : one_minus (corrected E z0 accel 0.90) < 1 := hin.2 0.90 (by simp)
  obtain ⟨-, e90⟩ := one_minus_lt_one hhi
  have mid : rank (corrected E z0 accel 0.10) nboot +
      rank (one_minus (corrected E z0 accel 0.90)) nboot ≤ nboot - 1 :=
    rank_add_le hnb hlo hhi (by rw [e90]; linarith)
  obtain ⟨a1, b1, a2, b2, a3, b3, r1, r2, r3, r4, r5, r6, hnest⟩ :=
    nested_reads hs (by rw [hp.length_eq]; exact hlen) (rank_nonneg _ _)
      (rank_mono nboot hN c12) (rank_mono nboot hN c23) (rank_nonneg _ _)
      (rank_mono nboot hN (one_minus_anti c56)) (rank_mono nboot hN (one_minus_anti c45)) mid
  have p1 := bca_pair_some E z0 accel nboot (E.qsortd 0 (nboot - 1) m.work2) 0.025 0.975 m1 m6
    (bca_adjust_some E (hpos _ m1).ne') (bca_adjust_some E (hpos _ m6).ne') r1 r2
  have p2 := bca_pair_some E z0 accel nboot (E.qsortd 0 (nboot - 1) m.work2) 0.05 0.95 m2 m5
    (bca_adjust_some E (hpos _ m2).ne') (bca_adjust_some E (hpos _ m5).ne') r3 r4
  have p3 := bca_pair_some E z0 accel nboot (E.qsortd 0 (nboot - 1) m.work2) 0.10 0.90 m3 m4
    (bca_adjust_some E (hpos _ m3).ne') (bca_adjust_some E (hpos _ m4).ne') r5 r6
  exact ⟨⟨a1, b1, a2, b2, a3, b3⟩, by simp [bca_outputs, p1, p2, p3], hnest⟩

/-! ## The concrete collaborators -/

theorem demo_cdf_open : cdf_open demo_ext := by
  intro z
  show 0 < cdf_demo z ∧ cdf_demo z < 1
  unfold cdf_demo
  have hpos : 0 < 1 + |z| := by positivity
  have h1 : -1 < z / (1 + |z|) := by
    rw [lt_div_iff₀ hpos]
    have := neg_abs_le z
    linarith
  have h2 : z / (1 + |z|) < 1 := by
    rw [div_lt_iff₀ hpos]
    have := le_abs_self z
    linarith
  constructor <;> linarith

theorem demo_cdf_monotone : cdf_monotone demo_ext := by
  intro z1 z2 h
  show cdf_demo z1 ≤ cdf_demo z2
  unfold cdf_demo
  have hp1 : 0 < 1 + |z1| := by positivity
  have hp2 : 0 < 1 + |z2| := by positivity
  have : z1 / (1 + |z1|) ≤ z2 / (1 + |z2|) := by
    rw [div_le_div_iff₀ hp1 hp2]
    rcases abs_cases z1 with ⟨e1, s1⟩ | ⟨e1, s1⟩ <;>
      rcases abs_cases z2 with ⟨e2, s2⟩ | ⟨e2, s2⟩ <;> rw [e1, e2] <;> nlinarith
  linarith

theorem demo_inverse_monotone : inverse_monotone demo_ext := by
  intro p q hp hpq hq
  show inverse_cdf_demo p ≤ inverse_cdf_demo q
  unfold inverse_cdf_demo
  have a1 : |2 * p - 1| < 1 := by rw [abs_lt]; constructor <;> linarith
  have a2 : |2 * q - 1| < 1 := by rw [abs_lt]; constructor <;> linarith
  have hp1 : 0 < 1 - |2 * p - 1| := by linarith
  have hp2 : 0 < 1 - |2 * q - 1| := by linarith
  rw [div_le_div_iff₀ hp1 hp2]
  rcases abs_cases (2 * p - 1) with ⟨e1, s1⟩ | ⟨e1, s1⟩ <;>
    rcases abs_cases (2 * q - 1) with ⟨e2, s2⟩ | ⟨e2, s2⟩ <;> rw [e1, e2] <;> nlinarith

theorem demo_inverse_of_cdf : inverse_of_cdf demo_ext := by
  intro p hp0 hp1
  show cdf_demo (inverse_cdf_demo p) = p
  unfold cdf_demo inverse_cdf_demo
  have a1 : |2 * p - 1| < 1 := by rw [abs_lt]; constructor <;> linarith
  have hd : 0 < 1 - |2 * p - 1| := by linarith
  have habs : |(2 * p - 1) / (1 - |2 * p - 1|)| = |2 * p - 1| / (1 - |2 * p - 1|) := by
    rw [abs_div, abs_of_pos hd]
  rw [habs]
  have hd' : (1 - |2 * p - 1|) ≠ 0 := hd.ne'
  have h2 : 1 + |2 * p - 1| / (1 - |2 * p - 1|) = 1 / (1 - |2 * p - 1|) := by
    field_simp
  rw [h2]
  field_simp

theorem sat_draws_unit : draws_unit sat_ext := by
  intro s
  simp [sat_ext]

theorem sat_sorts (nboot : Int) : sorts_ascending sat_ext nboot := by
  intro w _
  exact ⟨List.sorted_insertionSort _ w, List.perm_insertionSort _ w⟩

theorem sat_cdf_unit : cdf_unit sat_ext := by
  intro z
  show 0 ≤ cdf_sat z ∧ cdf_sat z ≤ 1
  unfold cdf_sat
  exact ⟨le_max_left _ _, max_le (by norm_num) (min_le_left _ _)⟩

theorem sat_cdf_monotone : cdf_monotone sat_ext := by
  intro z1 z2 h
  show cdf_sat z1 ≤ cdf_sat z2
  unfold cdf_sat
  exact max_le_max le_rfl (min_le_min le_rfl (by linarith))

theorem sat_inverse_monotone : inverse_monotone sat_ext := by
  intro p q _ hpq _
  show inverse_cdf_sat p ≤ inverse_cdf_sat q
  unfold inverse_cdf_sat
  linarith

theorem sat_inverse_of_cdf : inverse_of_cdf sat_ext := by
  intro p hp0 hp1
  show cdf_sat (inverse_cdf_sat p) = p
  unfold cdf_sat inverse_cdf_sat
  have : (8 * p - 4 + 4) / 8 = p := by ring
  rw [this, min_eq_right hp1.le, max_eq_right hp0.le]

theorem sat_well_formed : well_formed 2 20 sat_mem := ⟨rfl, rfl, rfl⟩

theorem demo_sqrt_nonneg : sqrt_nonneg demo_ext := by
  intro q
  show 0 ≤ sqrt_exact q
  unfold sqrt_exact
  positivity

theorem tail_eps_pos : 0 < tail_eps := by unfold tail_eps; positivity

theorem tail_eps_small : tail_eps < 1 / 4 := by unfold tail_eps; norm_num

theorem cdf_thin_left {z : ℚ} (h : z < -4) : 0 < cdf_thin z ∧ cdf_thin z < tail_eps := by
  have he := tail_eps_pos
  have hd : (1 : ℚ) < -3 - z := by linarith
  unfold cdf_thin
  rw [if_pos h]
  refine ⟨div_pos he (by linarith), ?_⟩
  rw [div_lt_iff₀ (by linarith)]
  nlinarith

theorem cdf_thin_mid {z : ℚ} (h1 : -4 ≤ z) (h2 : z ≤ 4) :
    cdf_thin z = tail_eps + (1 - 2 * tail_eps) * ((z + 4) / 8) ∧
      tail_eps ≤ cdf_thin z ∧ cdf_thin z ≤ 1 - tail_eps := by
  have he := tail_eps_pos
  have hs := tail_eps_small
  have e : cdf_thin z = tail_eps + (1 - 2 * tail_eps) * ((z + 4) / 8) := by
    unfold cdf_thin
    rw [if_neg (by linarith), if_pos h2]
  refine ⟨e, ?_, ?_⟩
  · rw [e]; nlinarith
  · rw [e]; nlinarith

theorem cdf_thin_right {z : ℚ} (h : 4 < z) : 1 - tail_eps < cdf_thin z ∧ cdf_thin z < 1 := by
  have he := tail_eps_pos
  have hd : (1 : ℚ) < z - 3 := by linarith
  have e : cdf_thin z = 1 - tail_eps / (z - 3) := by
    unfold cdf_thin
    rw [if_neg (by linarith), if_neg (by linarith)]
  have h1 : 0 < tail_eps / (z - 3) := div_pos he (by linarith)
  have h2 : tail_eps / (z - 3) < tail_eps := by
    rw [div_lt_iff₀ (by linarith)]
    nlinarith
  rw [e]
  exact ⟨by linarith, by linarith⟩

theorem thin_cdf_open : cdf_open thin_ext := by
  intro z
  show 0 < cdf_thin z ∧ cdf_thin z < 1
  have he := tail_eps_pos
  have hs := tail_eps_small
  rcases lt_or_le z (-4) with h | h
  · obtain ⟨a, b⟩ := cdf_thin_left h
    exact ⟨a, by linarith⟩
  · rcases le_or_lt z 4 with h' | h'
    · obtain ⟨-, a, b⟩ := cdf_thin_mid h h'
      exact ⟨by linarith, by linarith⟩
    · obtain ⟨a, b⟩ := cdf_thin_right h'
      exact ⟨by linarith, b⟩

theorem cdf_thin_strict {z1 z2 : ℚ} (h : z1 < z2) : cdf_thin z1 < cdf_thin z2 := by
  have he := tail_eps_pos
  have hs := tail_eps_small
  rcases lt_or_le z1 (-4) with a1 | a1
  · rcases lt_or_le z2 (-4) with a2 | a2
    · unfold cdf_thin
      rw [if_pos a1, if_pos a2]
      exact div_lt_div_of_pos_left he (by linarith) (by linarith)
    · rcases le_or_lt z2 4 with b2 | b2
      · linarith [(cdf_thin_left a1).2, (cdf_thin_mid a2 b2).2.1]
      · linarith [(cdf_thin_left a1).2, (cdf_thin_right b2).1]
  · rcases le_or_lt z1 4 with b1 | b1
    · rcases le_or_lt z2 4 with b2 | b2
      · rw [(cdf_thin_mid a1 b1).1, (cdf_thin_mid (by linarith) b2).1]
        nlinarith
      · linarith [(cdf_thin_mid a1 b1).2.2, (cdf_thin_right b2).1]
    · have b2 : 4 < z2 := by linarith
      unfold cdf_thin
      rw [if_neg (by linarith), if_neg (by linarith), if_neg (by linarith), if_neg (by linarith)]
      have : tail_eps / (z2 - 3) < tail_eps / (z1 - 3) :=
        div_lt_div_of_pos_left he (by linarith) (by linarith)
      linarith

theorem thin_cdf_monotone : cdf_monotone thin_ext := by
  intro z1 z2 h
  show cdf_thin z1 ≤ cdf_thin z2
  rcases eq_or_lt_of_le h with e | e
  · rw [e]
  · exact (cdf_thin_strict e).le

theorem thin_inverse_of_cdf : inverse_of_cdf thin_ext := by
  intro p h0 h1
  show cdf_thin (inverse_cdf_thin p) = p
  have he := tail_eps_pos
  have hs := tail_eps_small
  unfold inverse_cdf_thin
  split_ifs with a b
  · have hq : 1 < tail_eps / p := by rw [lt_div_iff₀ h0]; linarith
    unfold cdf_thin
    rw [if_pos (by linarith)]
    have : -3 - (-3 - tail_eps / p) = tail_eps / p := by ring
    rw [this]
    field_simp
  · have hden : 0 < 1 - 2 * tail_eps := by linarith
    have hz0 : 0 ≤ 8 * (p - tail_eps) / (1 - 2 * tail_eps) :=
      div_nonneg (by linarith) hden.le
    have hz1 : 8 * (p - tail_eps) / (1 - 2 * tail_eps) ≤ 8 := by
      rw [div_le_iff₀ hden]; linarith
    rw [(cdf_thin_mid (by linarith) (by linarith)).1]
    field_simp
    ring
  · push_neg at a b
    have h1p : 0 < 1 - p := by linarith
    have hq : 1 < tail_eps / (1 - p) := by rw [lt_div_iff₀ h1p]; linarith
    unfold cdf_thin
    rw [if_neg (by linarith), if_neg (by linarith)]
    have : 3 + tail_eps / (1 - p) - 3 = tail_eps / (1 - p) := by ring
    rw [this]
    field_simp

theorem thin_inverse_monotone : inverse_monotone thin_ext := by
  intro p q h0 hpq h1
  show inverse_cdf_thin p ≤ inverse_cdf_thin q
  by_contra hlt
  push_neg at hlt
  have := cdf_thin_strict hlt
  have e1 : cdf_thin (inverse_cdf_thin p) = p := thin_inverse_of_cdf p h0 (by linarith)
  have e2 : cdf_thin (inverse_cdf_thin q) = q := thin_inverse_of_cdf q (by linarith) h1
  rw [e1, e2] at this
  linarith

theorem thin_draws_unit : draws_unit thin_ext := by
  intro s
  show (0 : ℚ) ≤ 0 ∧ (0 : ℚ) ≤ 1
  norm_num

theorem thin_sorts (nboot : Int) : sorts_ascending thin_ext nboot := by
  intro w _
  exact ⟨List.sorted_insertionSort _ w, List.perm_insertionSort _ w⟩

theorem flat_well_formed : well_formed 2 20 flat_mem := ⟨rfl, rfl, rfl⟩

theorem thin_divisors (z0 : ℚ) : divisors_positive thin_ext z0 0 := by
  intro p _
  norm_num

/-! ## The BCa procedure -/

theorem bca_outputs_frame {E : Ext} {z0 accel : ℚ} {nboot : Int} {m m' : Mem} {b : Bounds}
    (h : bca_outputs E z0 accel nboot m = some (b, m')) :
    m' = { m with work2 := E.qsortd 0 (nboot - 1) m.work2 } := by
  simp only [bca_outputs, Option.bind_eq_bind, Option.bind_eq_some, Option.pure_def,
    Option.some.injEq, Prod.mk.injEq] at h
  obtain ⟨_, _, _, _, _, _, _, h2⟩ := h
  exact h2.symm

theorem bca_prepare (E : Ext) (n : Int) (user_t : Stat) (nboot : Int) (m : Mem) (hn : 1 ≤ n)
    (hwf : well_formed n nboot m) (hE : draws_unit E) :
    ∃ m1 xlast j, for_loop (pctile_rep E n user_t) nboot.toNat 0 m = some m1 ∧
      for_loop (bca_rep E n user_t (user_t n m.x)) nboot.toNat 0 (m, 0) =
        some (m1, count_below (user_t n m.x) m1.work2) ∧
      m1.x = m.x ∧ (m1.xwork.length : Int) = n ∧ (m1.work2.length : Int) = nboot ∧
      (∀ v ∈ m1.work2, is_replicate n user_t m.x v) ∧
      rd m.x (n - 1) = some xlast ∧ jackknife n user_t m1 = some j ∧ j.1.x = m.x ∧
      j.1.work2 = m1.work2 ∧
      j.1.xwork = (List.range n.toNat).map (jack_value n user_t m.x xlast) ∧
      j.2 = ((List.range n.toNat).map (jack_value n user_t m.x xlast)).sum := by
  obtain ⟨m1, hl, hb⟩ := bca_loop_spec E hE n hn user_t (user_t n m.x) nboot m hwf
  obtain ⟨m1', hl', h1, h2, h3, -, h5, -⟩ := pctile_run E n user_t nboot m hn hwf hE
  have : m1' = m1 := Option.some.inj (hl'.symm.trans hl)
  subst this
  obtain ⟨xlast, j, g1, g2, g3, g4, -, g6, g7⟩ :=
    jackknife_spec n user_t m1' hn (by rw [h1]; exact hwf.1) h2
  rw [h1] at g1 g6 g7
  exact ⟨m1', xlast, j, hl, hb, h1, h2, h3, h5, g1, g2, g3.trans h1, g4, g6, g7⟩

theorem bca_run (E : Ext) (n : Int) (user_t : Stat) (nboot : Int) (m : Mem) (hn : 1 ≤ n)
    (hnb : 2 ≤ nboot) (hwf : well_formed n nboot m) (hE : draws_unit E) :
    ∃ m1 xlast j, for_loop (pctile_rep E n user_t) nboot.toNat 0 m = some m1 ∧
      bca_replicates E n user_t nboot m = some (m1, E.inverse_normal_cdf
        ((clamp_z0_count (count_below (user_t n m.x) m1.work2) nboot : ℚ) / (nboot : ℚ))) ∧
      m1.x = m.x ∧ (m1.xwork.length : Int) = n ∧ (m1.work2.length : Int) = nboot ∧
      (∀ v ∈ m1.work2, is_replicate n user_t m.x v) ∧
      rd m.x (n - 1) = some xlast ∧ jackknife n user_t m1 = some j ∧ j.1.x = m.x ∧
      j.1.work2 = m1.work2 ∧
      j.1.xwork = (List.range n.toNat).map (jack_value n user_t m.x xlast) ∧
      j.2 = ((List.range n.toNat).map (jack_value n user_t m.x xlast)).sum ∧
      boot_conf_BCa E n user_t nboot m =
        (compute_accel E n j.1.xwork j.2).bind (fun accel =>
          bca_outputs E (E.inverse_normal_cdf
            ((clamp_z0_count (count_below (user_t n m.x) m1.work2) nboot : ℚ) / (nboot : ℚ)))
            accel nboot j.1) := by
  obtain ⟨m1, xlast, j, hl, -, h1, h2, h3, h5, g1, g2, g3, g4, g6, g7⟩ :=
    bca_prepare E n user_t nboot m hn hwf hE
  obtain ⟨m1', hl', hr⟩ := bca_replicates_spec E hE n hn user_t nboot hnb m hwf
  have : m1' = m1 := Option.some.inj (hl'.symm.trans hl)
  subst this
  refine ⟨m1', xlast, j, hl, hr, h1, h2, h3, h5, g1, g2, g3, g4, g6, g7, ?_⟩
  simp [boot_conf_BCa, hr, g2]

/-- C2 (amended). Nesting of the BCa bounds: for a sample of size `n ≥ 2`, any
statistic, `nboot ≥ 2`, uniform draws in `[0,1]`, a `qsortd` that sorts
ascending, a non-decreasing `normal_cdf`, a non-decreasing
`inverse_normal_cdf` and a non-negative `sqrt`, `boot_conf_BCa` computes a
`z0` and an `accel`, and for the `z0` and `accel` it computes, when the divisor
`1 − accel·(z0 + z)` is positive at the six nominal quantiles and the six
ranks stay inside the buffer (the three `alo` are below `1` and the three
doubles `1.0 − ahi` are below `1`, that is `ahi > 2^-54`), it returns six
outputs with `low2p5 ≤ low5 ≤ low10 ≤ high10 ≤ high5 ≤ high2p5`. -/
theorem bca_nesting (E : Ext) (n : Int) (user_t : Stat) (nboot : Int) (m : Mem)
    (hn : 2 ≤ n) (hnb : 2 ≤ nboot) (hwf : well_formed n nboot m) (hE : draws_unit E)
    (hsort : sorts_ascending E nboot) (hmono : cdf_monotone E)
    (hinv : inverse_monotone E) (hsq : sqrt_nonneg E) :
    (∃ r j accel, bca_replicates E n user_t nboot m = some r ∧
      jackknife n user_t r.1 = some j ∧ compute_accel E n j.1.xwork j.2 = some accel) ∧
    ∀ r j accel, bca_replicates E n user_t nboot m = some r →
      jackknife n user_t r.1 = some j → compute_accel E n j.1.xwork j.2 = some accel →
      divisors_positive E r.2 accel → ranks_in_range E r.2 accel →
      ∃ b m', boot_conf_BCa E n user_t nboot m = some (b, m') ∧ nested b := by
  obtain ⟨m1, xlast, j, -, hr, -, -, h3, -, -, hj, -, hjw, hjx, -, hrun⟩ :=
    bca_run E n user_t nboot m (by omega) hnb hwf hE
  have hjl : (j.1.xwork.length : Int) = n := by
    rw [hjx]; simp; omega
  have ha := compute_accel_spec E hsq n (by omega) j.1.xwork hjl j.2
  refine ⟨⟨_, j, _, hr, hj, ha⟩, ?_⟩
  intro r' j' accel' hr' hj' ha' hpos hin
  have e1 := Option.some.inj (hr.symm.trans hr')
  subst e1
  have e2 := Option.some.inj (hj.symm.trans hj')
  subst e2
  have e3 := Option.some.inj (ha.symm.trans ha')
  subst e3
  obtain ⟨b, hb, hnest⟩ := bca_outputs_nested E _ _ nboot j.1 (by omega)
    (by rw [hjw]; exact h3) hsort hmono hinv hpos hin
  exact ⟨b, _, by rw [hrun, ha]; exact hb, hnest⟩

theorem skew_well_formed : well_formed 5 2 skew_mem := ⟨rfl, rfl, rfl⟩

/-- C2, witness: `bca_nesting` on a concrete run (`n = 5`, `nboot = 2`), where
`z0 = 0`, `accel = 18 / (384 + 1e-60)`, the six divisors are positive and the
six ranks stay inside the buffer. -/
theorem bca_nesting_witness :
    ∃ b m', boot_conf_BCa demo_ext 5 mean 2 skew_mem = some (b, m') ∧ nested b :=
  (bca_nesting demo_ext 5 mean 2 skew_mem (by decide) (by decide) skew_well_formed
    demo_draws_unit (demo_sorts 2) demo_cdf_monotone demo_inverse_monotone
    demo_sqrt_nonneg).2
    (⟨[20, 12, 4, 4, 0], [4, 4, 4, 4, 4], [84 / 5, 4], 10⟩, 0)
    (⟨[20, 12, 4, 4, 0], [5, 7, 9, 9, 10], [84 / 5, 4], 10⟩, 40)
    (18 / (384 + 1 / 10 ^ 60)) (by decide!) (by decide!) (by decide!)
    (by unfold divisors_positive nominal; decide!) (by unfold ranks_in_range; decide!)

/-- C2, counterexample.  First run (`n = 4`, sample `24, 6, 6, 0`, the mean,
`nboot = 2`): every hypothesis of the claim holds, `normal_cdf` even has its
values strictly inside `(0,1)`, `z0 = 0`, `accel = 96 / (1296 + 1e-60)`, the
divisor `1 − accel·(z0 + z)` is negative at the 97.5% quantile `z = 19`, and
`boot_conf_BCa` returns `high5 = 24 > high2p5 = 0`.  Second run (`n = 2`,
sample `0, 1`, the mean, `nboot = 20`, a `normal_cdf` that reaches `1`):
every hypothesis of the claim holds and the procedure reads `work2[20]`,
outside the buffer.  Third run (`n = 2`, sample `7, 7`, the mean, `nboot = 1`):
the clamped count is 1 and `inverse_normal_cdf` is called at `1/1 = 1`.
Fourth run (`n = 2`, sample `7, 7`, the mean, `nboot = 20`, a `normal_cdf`
with values strictly inside `(0,1)` and thin tails): every hypothesis of the
claim holds, `ahi` of the 90% bound is positive and below `2^-54`, the double
`1.0 − ahi` is `1.0`, the rank is `20 = nboot` and the procedure reads
`work2[-1]`, outside the buffer. -/
theorem bca_nesting_counterexample :
    ((2 ≤ (4 : Int) ∧ 1 ≤ (2 : Int) ∧ well_formed 4 2 demo_mem ∧ draws_unit demo_ext ∧
        sorts_ascending demo_ext 2 ∧ cdf_monotone demo_ext ∧ cdf_unit demo_ext ∧
        inverse_monotone demo_ext ∧ inverse_of_cdf demo_ext) ∧
      ∃ b m', boot_conf_BCa demo_ext 4 mean 2 demo_mem = some (b, m') ∧ ¬ nested b) ∧
    ((2 ≤ (2 : Int) ∧ 1 ≤ (20 : Int) ∧ well_formed 2 20 sat_mem ∧ draws_unit sat_ext ∧
        sorts_ascending sat_ext 20 ∧ cdf_monotone sat_ext ∧ cdf_unit sat_ext ∧
        inverse_monotone sat_ext ∧ inverse_of_cdf sat_ext) ∧
      boot_conf_BCa sat_ext 2 mean 20 sat_mem = none) ∧
    ((2 ≤ (2 : Int) ∧ 1 ≤ (1 : Int) ∧ well_formed 2 1 single_mem ∧ draws_unit demo_ext ∧
        sorts_ascending demo_ext 1 ∧ cdf_monotone demo_ext ∧ cdf_unit demo_ext ∧
        inverse_monotone demo_ext ∧ inverse_of_cdf demo_ext) ∧
      boot_conf_BCa demo_ext 2 mean 1 single_mem = none) ∧
    ((2 ≤ (2 : Int) ∧ 1 ≤ (20 : Int) ∧ well_formed 2 20 flat_mem ∧ draws_unit thin_ext ∧
        sorts_ascending thin_ext 20 ∧ cdf_monotone thin_ext ∧ cdf_open thin_ext ∧
        inverse_monotone thin_ext ∧ inverse_of_cdf thin_ext) ∧
      (∃ r ahi, bca_replicates thin_ext 2 mean 20 flat_mem = some r ∧
        bca_adjust thin_ext r.2 0 (thin_ext.inverse_normal_cdf 0.90) = some ahi ∧
        0 < ahi ∧ ahi < 1 / 2 ^ 54 ∧ one_minus ahi = 1 ∧ rank (one_minus ahi) 20 = 20) ∧
      boot_conf_BCa thin_ext 2 mean 20 flat_mem = none) := by
  refine ⟨⟨⟨by decide, by decide, demo_well_formed, demo_draws_unit, demo_sorts 2,
    demo_cdf_monotone, fun z => ⟨(demo_cdf_open z).1.le, (demo_cdf_open z).2.le⟩,
    demo_inverse_monotone, demo_inverse_of_cdf⟩, ?_⟩,
    ⟨⟨by decide, by decide, sat_well_formed, sat_draws_unit, sat_sorts 20, sat_cdf_monotone,
      sat_cdf_unit, sat_inverse_monotone, sat_inverse_of_cdf⟩, by decide!⟩,
    ⟨⟨by decide, by decide, ⟨rfl, rfl, rfl⟩, demo_draws_unit, demo_sorts 1,
      demo_cdf_monotone, fun z => ⟨(demo_cdf_open z).1.le, (demo_cdf_open z).2.le⟩,
      demo_inverse_monotone, demo_inverse_of_cdf⟩, by decide!⟩,
    ⟨by decide, by decide, flat_well_formed, thin_draws_unit, thin_sorts 20,
      thin_cdf_monotone, thin_cdf_open, thin_inverse_monotone, thin_inverse_of_cdf⟩,
    ⟨(⟨[7, 7], [7, 7], List.replicate 20 7, 40⟩, thin_ext.inverse_normal_cdf (1 / 20)),
      thin_ext.normal_cdf (thin_ext.inverse_normal_cdf (1 / 20) +
        (thin_ext.inverse_normal_cdf (1 / 20) + thin_ext.inverse_normal_cdf 0.90) /
          (1 - 0 * (thin_ext.inverse_normal_cdf (1 / 20) + thin_ext.inverse_normal_cdf 0.90))),
      by decide!, by decide!, by decide!, by decide!, by decide!, by decide!⟩, by decide!⟩
  refine ⟨⟨0, 0, 0, 24, 0, 24⟩, ⟨[24, 6, 6, 0], [4, 10, 10, 12], [0, 24], 8⟩, by decide!, ?_⟩
  intro h
  have := h.2.2.2.2
  norm_num at this

/-- C3. Sample restoration in `boot_conf_BCa`: for a sample of size `n ≥ 2`
and a statistic that does not write to its argument, the sample is equal,
cell for cell, to its original contents after the replication loop, at the
start of every jackknife iteration `i` (after `i` iterations, `i ≤ n`), after
the jackknife, and in the memory `boot_conf_BCa` returns; at `i = n − 1` the
value swapped in is the cell itself. -/
theorem bca_sample_restored (E : Ext) (n : Int) (user_t : Stat) (nboot : Int) (m : Mem)
    (hn : 2 ≤ n) (hwf : well_formed n nboot m) (hE : draws_unit E) :
    ∃ s xlast j,
      for_loop (bca_rep E n user_t (user_t n m.x)) nboot.toNat 0 (m, 0) = some s ∧
      s.1.x = m.x ∧ rd m.x (n - 1) = some xlast ∧
      (∀ i : Nat, (i : Int) ≤ n →
        ∃ t, for_loop (jack_step n user_t xlast) i 0 (s.1, 0) = some t ∧ t.1.x = m.x) ∧
      m.x.set (n - 1).toNat xlast = m.x ∧
      jackknife n user_t s.1 = some j ∧ j.1.x = m.x ∧
      ∀ b m', boot_conf_BCa E n user_t nboot m = some (b, m') → m'.x = m.x := by
  obtain ⟨m1, xlast, j, -, hb, h1, h2, -, -, hx, hj, hjx, -, -, -⟩ :=
    bca_prepare E n user_t nboot m (by omega) hwf hE
  refine ⟨_, xlast, j, hb, h1, hx, ?_, ?_, hj, hjx, ?_⟩
  · intro i hi
    obtain ⟨t, ht, g1, -⟩ :=
      jack_loop_spec n user_t xlast m1 (by rw [h1]; exact hwf.1) h2 i hi
    exact ⟨t, ht, g1.trans h1⟩
  · obtain ⟨-, hg⟩ := rd_getElem hx
    obtain ⟨hlt, he⟩ := List.getElem?_eq_some_iff.mp hg
    rw [← he]
    exact set_getElem_same hlt
  · intro b m' hrun
    simp only [boot_conf_BCa, Option.bind_eq_bind, Option.bind_eq_some] at hrun
    obtain ⟨r, hr, j', hj', accel, -, ho⟩ := hrun
    obtain ⟨s, hs, hrs⟩ := bca_replicates_fst hr
    have e1 := Option.some.inj (hb.symm.trans hs)
    rw [hrs, ← e1] at hj'
    have e2 := Option.some.inj (hj.symm.trans hj')
    rw [bca_outputs_frame ho, ← e2]
    exact hjx

/-- C3, witness: `bca_sample_restored` on a concrete run (`n = 4`, `nboot = 2`). -/
theorem bca_sample_restored_witness :
    ∃ s xlast j,
      for_loop (bca_rep demo_ext 4 mean (mean 4 demo_mem.x)) (2 : Int).toNat 0 (demo_mem, 0)
        = some s ∧
      s.1.x = demo_mem.x ∧ rd demo_mem.x (4 - 1) = some xlast ∧
      (∀ i : Nat, (i : Int) ≤ 4 →
        ∃ t, for_loop (jack_step 4 mean xlast) i 0 (s.1, 0) = some t ∧ t.1.x = demo_mem.x) ∧
      demo_mem.x.set ((4 : Int) - 1).toNat xlast = demo_mem.x ∧
      jackknife 4 mean s.1 = some j ∧ j.1.x = demo_mem.x ∧
      ∀ b m', boot_conf_BCa demo_ext 4 mean 2 demo_mem = some (b, m') → m'.x = demo_mem.x :=
  bca_sample_restored demo_ext 4 mean 2 demo_mem (by decide) demo_well_formed demo_draws_unit

theorem sum_const {l : List ℚ} {c : ℚ} (h : ∀ e ∈ l, e = c) : l.sum = l.length * c := by
  induction l with
  | nil => simp
  | cons a l ih =>
    have ha : a = c := h a (List.mem_cons_self _ _)
    have := ih (fun e he => h e (List.mem_cons_of_mem _ he))
    simp only [List.sum_cons, List.length_cons, this, ha]
    push_cast
    ring

theorem mean_const {cnt : Int} {buf : List ℚ} {c : ℚ} (h1 : 1 ≤ cnt)
    (h2 : cnt ≤ buf.length) (hc : ∀ e ∈ buf, e = c) : mean cnt buf = c := by
  unfold mean
  have hs := sum_const (l := buf.take cnt.toNat) (c := c)
    (fun e he => hc e (List.mem_of_mem_take he))
  have hl : ((buf.take cnt.toNat).length : ℚ) = (cnt : ℚ) := by
    rw [List.length_take, min_eq_left (by omega)]
    have : ((cnt.toNat : Int) : ℚ) = (cnt : ℚ) := by rw [Int.toNat_of_nonneg (by omega)]
    exact_mod_cast this
  have hnz : (cnt : ℚ) ≠ 0 := by exact_mod_cast (by omega : cnt ≠ 0)
  rw [hs, hl]
  field_simp

theorem replicate_const {n : Int} {x : List ℚ} {c v : ℚ} (hn : 1 ≤ n) (hc : ∀ e ∈ x, e = c)
    (h : is_replicate n mean x v) : v = c := by
  obtain ⟨xw, hl, hm, rfl⟩ := h
  exact mean_const hn (by omega) (fun e he => hc e (hm e he))

theorem jack_value_const {n : Int} {x : List ℚ} {c xlast : ℚ} (hn : 2 ≤ n)
    (hx : (x.length : Int) = n) (hc : ∀ e ∈ x, e = c) (hl : xlast = c) (j : Nat) :
    jack_value n mean x xlast j = c := by
  unfold jack_value
  apply mean_const (by omega) (by rw [List.length_set]; omega)
  intro e he
  rcases List.mem_or_eq_of_mem_set he with h | h
  · exact hc e h
  · rw [h, hl]

theorem count_below_const {theta_hat : ℚ} {w : List ℚ} (h : ∀ v ∈ w, v = theta_hat) :
    count_below theta_hat w = 0 := by
  unfold count_below
  have : w.countP (fun v => decide (v < theta_hat)) = 0 := by
    rw [List.countP_eq_zero]
    intro v hv
    simp [h v hv]
  simp [this]

theorem bca_outputs_mem (E : Ext) (z0 accel : ℚ) (nboot : Int) (m : Mem) (hnb : 1 ≤ nboot)
    (hlen : (m.work2.length : Int) = nboot) (hperm : permutes E nboot)
    (hin : ranks_in_range E z0 accel)
    (hdiv : ∀ p ∈ nominal, 1 - accel * (z0 + E.inverse_normal_cdf p) ≠ 0) :
    ∃ b, bca_outputs E z0 accel nboot m =
        some (b, { m with work2 := E.qsortd 0 (nboot - 1) m.work2 }) ∧
      b.low2p5 ∈ m.work2 ∧ b.high2p5 ∈ m.work2 ∧ b.low5 ∈ m.work2 ∧
      b.high5 ∈ m.work2 ∧ b.low10 ∈ m.work2 ∧ b.high10 ∈ m.work2 := by
  have hp := hperm m.work2 hlen
  have hlen2 : ((E.qsortd 0 (nboot - 1) m.work2).length : Int) = nboot := by
    rw [hp.length_eq]; exact hlen
  have pair : ∀ plo ∈ [(0.025 : ℚ), 0.05, 0.10], ∀ phi ∈ [(0.90 : ℚ), 0.95, 0.975],
      ∃ lo hi, bca_pair E z0 accel nboot (E.qsortd 0 (nboot - 1) m.work2) plo phi =
        some (lo, hi) ∧ lo ∈ m.work2 ∧ hi ∈ m.work2 := by
    intro plo h1 phi h2
    have n1 : plo ∈ nominal := by
      simp only [List.mem_cons, List.mem_singleton, List.not_mem_nil, or_false] at h1
      simp only [nominal, List.mem_cons, List.mem_singleton, List.not_mem_nil, or_false]
      tauto
    have n2 : phi ∈ nominal := by
      simp only [List.mem_cons, List.mem_singleton, List.not_mem_nil, or_false] at h2
      simp only [nominal, List.mem_cons, List.mem_singleton, List.not_mem_nil, or_false]
      tauto
    obtain ⟨lo, -, r1, -⟩ := rank_in_range nboot hnb _ (hin.1 plo h1) _ hlen2
    obtain ⟨-, hi, -, r2⟩ := rank_in_range nboot hnb _ (hin.2 phi h2) _ hlen2
    exact ⟨lo, hi, bca_pair_some E z0 accel nboot _ plo phi n1 n2
      (bca_adjust_some E (hdiv _ n1)) (bca_adjust_some E (hdiv _ n2)) r1 r2,
      hp.subset (rd_mem r1), hp.subset (rd_mem r2)⟩
  obtain ⟨a1, b1, p1, f1, g1⟩ := pair 0.025 (by simp) 0.975 (by simp)
  obtain ⟨a2, b2, p2, f2, g2⟩ := pair 0.05 (by simp) 0.95 (by simp)
  obtain ⟨a3, b3, p3, f3, g3⟩ := pair 0.10 (by simp) 0.90 (by simp)
  exact ⟨⟨a1, b1, a2, b2, a3, b3⟩, by simp [bca_outputs, p1, p2, p3], f1, g1, f2, g2, f3, g3⟩


theorem clamp_z0_count_zero {nboot : Int} (hnb : 1 ≤ nboot) : clamp_z0_count 0 nboot = 1 := by
  unfold clamp_z0_count
  simp only
  split_ifs <;> omega

/-- C8 (amended). Degenerate reduction: for `n ≥ 2`, `nboot ≥ 1`, a constant
`c`, uniform draws in `[0,1]`, a `qsortd` that permutes the buffer, when every
case of the sample equals `c` and the statistic is the arithmetic mean,
`boot_conf_pctile` returns six bounds equal to `c`; and for `nboot ≥ 2`, with a
non-negative `sqrt`, when for `z0 = inverse_normal_cdf(1/nboot)` and
`accel = 0` the six ranks stay inside the buffer (the three `alo` are below
`1` and the three doubles `1.0 − ahi` are below `1`, that is `ahi > 2^-54`),
in `boot_conf_BCa` the count of replicates below `theta_hat` is clamped to 1,
`z0` is that value, the jackknifed values are all `c`, `accel = 0`, and the
six bounds returned are equal to `c`. -/
theorem degenerate_reduction (E : Ext) (n : Int) (nboot : Int) (m : Mem) (c : ℚ)
    (hn : 2 ≤ n) (hnb : 1 ≤ nboot) (hwf : well_formed n nboot m) (hE : draws_unit E)
    (hperm : permutes E nboot) (hc : ∀ e ∈ m.x, e = c) :
    (∃ m', boot_conf_pctile E n mean nboot m = some (⟨c, c, c, c, c, c⟩, m')) ∧
    (2 ≤ nboot → ranks_in_range E (E.inverse_normal_cdf (1 / nboot)) 0 → sqrt_nonneg E →
      (∃ r j, bca_replicates E n mean nboot m = some r ∧
        r.2 = E.inverse_normal_cdf (1 / nboot) ∧ jackknife n mean r.1 = some j ∧
        (∀ v ∈ j.1.xwork, v = c) ∧ compute_accel E n j.1.xwork j.2 = some 0) ∧
      ∃ m', boot_conf_BCa E n mean nboot m = some (⟨c, c, c, c, c, c⟩, m')) := by
  obtain ⟨m1, hl, -, -, h3, -, hrep, hprun⟩ := pctile_run E n mean nboot m (by omega) hwf hE
  have hall : ∀ v ∈ m1.work2, v = c := fun v hv => replicate_const (by omega) hc (hrep v hv)
  constructor
  · have hp := hperm m1.work2 h3
    have hlen2 : ((E.qsortd 0 (nboot - 1) m1.work2).length : Int) = nboot := by
      rw [hp.length_eq]; exact h3
    obtain ⟨a1, b1, r1, r2⟩ := rank_in_range nboot hnb 0.025 (by norm_num) _ hlen2
    obtain ⟨a2, b2, r3, r4⟩ := rank_in_range nboot hnb 0.05 (by norm_num) _ hlen2
    obtain ⟨a3, b3, r5, r6⟩ := rank_in_range nboot hnb 0.10 (by norm_num) _ hlen2
    have e1 : a1 = c := hall _ (hp.subset (rd_mem r1))
    have e2 : b1 = c := hall _ (hp.subset (rd_mem r2))
    have e3 : a2 = c := hall _ (hp.subset (rd_mem r3))
    have e4 : b2 = c := hall _ (hp.subset (rd_mem r4))
    have e5 : a3 = c := hall _ (hp.subset (rd_mem r5))
    have e6 : b3 = c := hall _ (hp.subset (rd_mem r6))
    subst e1 e2 e3 e4 e5 e6
    exact ⟨_, hprun.trans (pctile_outputs_some E nboot m1 r1 r2 r3 r4 r5 r6)⟩
  · intro hnb2 hin hsq
    obtain ⟨m1', xlast, j, hl', hr, -, -, -, -, hx, hj, -, hjw, hjv, hjs, hrun⟩ :=
      bca_run E n mean nboot m (by omega) hnb2 hwf hE
    have : m1' = m1 := Option.some.inj (hl'.symm.trans hl)
    subst this
    have hz : E.inverse_normal_cdf
        ((clamp_z0_count (count_below (mean n m.x) m1'.work2) nboot : ℚ) / (nboot : ℚ)) =
        E.inverse_normal_cdf (1 / nboot) := by
      have ht : mean n m.x = c := mean_const (by omega) (by rw [hwf.1]) hc
      rw [ht, count_below_const hall, clamp_z0_count_zero hnb]
      norm_num
    have hxl : xlast = c := hc _ (rd_mem hx)
    have hjc : ∀ v ∈ j.1.xwork, v = c := by
      intro v hv
      rw [hjv] at hv
      obtain ⟨i, -, rfl⟩ := List.mem_map.mp hv
      exact jack_value_const hn hwf.1 hc hxl i
    have hjl : (j.1.xwork.length : Int) = n := by
      rw [hjv]; simp; omega
    have hnz : (n : ℚ) ≠ 0 := by exact_mod_cast (by omega : n ≠ 0)
    have htd : j.2 / n = c := by
      rw [hjs, ← hjv, sum_const hjc]
      have : ((j.1.xwork.length : Int) : ℚ) = (n : ℚ) := by rw [hjl]
      have e : (j.1.xwork.length : ℚ) = (n : ℚ) := by exact_mod_cast this
      rw [e]
      field_simp
    have hnum : (j.1.xwork.map (fun v => (j.2 / n - v) * (j.2 / n - v) * (j.2 / n - v))).sum
        = 0 := by
      rw [sum_const (c := 0)]
      · simp
      · intro e he
        obtain ⟨v, hv, rfl⟩ := List.mem_map.mp he
        rw [htd, hjc v hv]
        ring
    have ha : compute_accel E n j.1.xwork j.2 = some 0 := by
      rw [compute_accel_spec E hsq n (by omega) j.1.xwork hjl j.2, hnum, zero_div]
    refine ⟨⟨_, j, hr, hz, hj, hjc, ha⟩, ?_⟩
    obtain ⟨b, hb, f1, f2, f3, f4, f5, f6⟩ := bca_outputs_mem E
      (E.inverse_normal_cdf
        ((clamp_z0_count (count_below (mean n m.x) m1'.work2) nboot : ℚ) / (nboot : ℚ)))
      0 nboot j.1 hnb (by rw [hjw]; exact h3) hperm (by rw [hz]; exact hin)
      (by intro p _; simp)
    rw [hjw] at f1 f2 f3 f4 f5 f6
    have hbc : b = ⟨c, c, c, c, c, c⟩ := by
      cases b
      simp only [Bounds.mk.injEq]
      exact ⟨hall _ f1, hall _ f2, hall _ f3, hall _ f4, hall _ f5, hall _ f6⟩
    rw [hbc] at hb
    exact ⟨_, by rw [hrun, ha]; exact hb⟩

theorem const_well_formed : well_formed 3 2 const_mem := ⟨rfl, rfl, rfl⟩

/-- C8, witness: `degenerate_reduction` on a concrete run (`n = 3`, `nboot = 2`, `c = 7`). -/
theorem degenerate_reduction_witness :
    (∃ m', boot_conf_pctile demo_ext 3 mean 2 const_mem = some (⟨7, 7, 7, 7, 7, 7⟩, m')) ∧
    (∃ r j, bca_replicates demo_ext 3 mean 2 const_mem = some r ∧
      r.2 = demo_ext.inverse_normal_cdf (1 / (2 : Int)) ∧ jackknife 3 mean r.1 = some j ∧
      (∀ v ∈ j.1.xwork, v = 7) ∧ compute_accel demo_ext 3 j.1.xwork j.2 = some 0) ∧
    (∃ m', boot_conf_BCa demo_ext 3 mean 2 const_mem = some (⟨7, 7, 7, 7, 7, 7⟩, m')) :=
  ⟨(degenerate_reduction demo_ext 3 2 const_mem 7 (by decide) (by decide) const_well_formed
      demo_draws_unit (sorts_permutes (demo_sorts 2)) (by decide!)).1,
    (degenerate_reduction demo_ext 3 2 const_mem 7 (by decide) (by decide) const_well_formed
      demo_draws_unit (sorts_permutes (demo_sorts 2)) (by decide!)).2 (by decide)
      (by unfold ranks_in_range; decide!) demo_sqrt_nonneg⟩

/-- C8, counterexample.  First run (`n = 2`, sample `7, 7`, the arithmetic
mean, `nboot = 1`): `boot_conf_pctile` returns six bounds equal to `7`; in
`boot_conf_BCa` the replicate is `7`, the count of replicates below
`theta_hat = 7` is 0, the two clamps leave the count 1, the proportion is
`1/1 = 1`, `inverse_normal_cdf` is called at `1`, outside `(0, 1)`, and the
procedure has no defined result.  Second run (`n = 2`, sample `7, 7`,
`nboot = 20`, a strictly increasing `normal_cdf` with values strictly inside
`(0,1)` and thin tails): `boot_conf_pctile` returns six bounds equal to `7`;
in `boot_conf_BCa` `z0 = inverse_normal_cdf(1/20)`, `accel = 0`, `ahi` of the
90% bound is positive and below `2^-54`, the double `1.0 − ahi` is `1.0`, the
rank is `20 = nboot` and the read `work2[-1]` is outside the buffer. -/
theorem degenerate_reduction_counterexample :
    ((∀ e ∈ single_mem.x, e = 7) ∧
      boot_conf_pctile demo_ext 2 mean 1 single_mem =
        some (⟨7, 7, 7, 7, 7, 7⟩, ⟨[7, 7], [7, 7], [7], 2⟩) ∧
      for_loop (bca_rep demo_ext 2 mean (mean 2 single_mem.x)) (1 : Int).toNat 0
        (single_mem, 0) = some (⟨[7, 7], [7, 7], [7], 2⟩, 0) ∧
      clamp_z0_count 0 1 = 1 ∧ fdiv ((1 : Int) : ℚ) ((1 : Int) : ℚ) = some 1 ∧
      probit demo_ext 1 = none ∧
      boot_conf_BCa demo_ext 2 mean 1 single_mem = none) ∧
    ((∀ e ∈ flat_mem.x, e = 7) ∧ cdf_open thin_ext ∧
      boot_conf_pctile thin_ext 2 mean 20 flat_mem =
        some (⟨7, 7, 7, 7, 7, 7⟩, ⟨[7, 7], [7, 7], List.replicate 20 7, 40⟩) ∧
      bca_replicates thin_ext 2 mean 20 flat_mem =
        some (⟨[7, 7], [7, 7], List.replicate 20 7, 40⟩,
          thin_ext.inverse_normal_cdf (1 / 20)) ∧
      (∃ ahi, bca_adjust thin_ext (thin_ext.inverse_normal_cdf (1 / 20)) 0
          (thin_ext.inverse_normal_cdf 0.90) = some ahi ∧
        0 < ahi ∧ ahi < 1 / 2 ^ 54 ∧ one_minus ahi = 1 ∧ rank (one_minus ahi) 20 = 20) ∧
      boot_conf_BCa thin_ext 2 mean 20 flat_mem = none) := by
  refine ⟨⟨by decide!, by decide!, by decide!, by decide!, by decide!, by decide!, by decide!⟩,
    by decide!, thin_cdf_open, by decide!, by decide!,
    ⟨thin_ext.normal_cdf (thin_ext.inverse_normal_cdf (1 / 20) +
        (thin_ext.inverse_normal_cdf (1 / 20) + thin_ext.inverse_normal_cdf 0.90) /
          (1 - 0 * (thin_ext.inverse_normal_cdf (1 / 20) + thin_ext.inverse_normal_cdf 0.90))),
      by decide!, by decide!, by decide!, by decide!, by decide!⟩, by decide!⟩

/-! ## Conditional nesting in the output stage of the BCa procedure -/

/-- C19. The output stage of `boot_conf_BCa` (lines 164-203) at a corrected
probability `ahi` below `2^-54`: with `nboot = 20`, a buffer of 20 replicates
that `qsortd` sorts ascending, `accel = 0` (the six divisors are `1`),
`z0 = inverse_normal_cdf(1/20)`, a strictly increasing `normal_cdf` with
values strictly inside `(0,1)` and a non-decreasing `inverse_normal_cdf`, the
corrected probability `ahi` of the 90% bound is positive and below `2^-54`,
the double `1.0 − ahi` is `1.0`, the rank is `k = 20 = nboot`, the mirrored
upper index is `−1`, below the 10% lower index `0`, the read `work2[-1]` is
outside the buffer and the output stage has no defined result;
`boot_conf_BCa` reaches this stage on the sample `7, 7`. -/
theorem bca_absorbed_overrun :
    (1 ≤ (20 : Int) ∧ sorts_ascending thin_ext 20 ∧
      (List.replicate 20 (7 : ℚ)).Sorted (· ≤ ·) ∧
      (∀ z1 z2 : ℚ, z1 < z2 → thin_ext.normal_cdf z1 < thin_ext.normal_cdf z2) ∧
      cdf_open thin_ext ∧ inverse_monotone thin_ext ∧
      divisors_positive thin_ext (thin_ext.inverse_normal_cdf (1 / 20)) 0) ∧
    (∃ alo ahi, bca_adjust thin_ext (thin_ext.inverse_normal_cdf (1 / 20)) 0
        (thin_ext.inverse_normal_cdf 0.10) = some alo ∧
      bca_adjust thin_ext (thin_ext.inverse_normal_cdf (1 / 20)) 0
        (thin_ext.inverse_normal_cdf 0.90) = some ahi ∧
      0 < ahi ∧ ahi < 1 / 2 ^ 54 ∧ one_minus ahi = 1 ∧ rank alo 20 = 0 ∧
      rank (one_minus ahi) 20 = 20 ∧ (20 : Int) - 1 - rank (one_minus ahi) 20 = -1 ∧
      rd (thin_ext.qsortd 0 (20 - 1) (List.replicate 20 7))
        (20 - 1 - rank (one_minus ahi) 20) = none) ∧
    bca_outputs thin_ext (thin_ext.inverse_normal_cdf (1 / 20)) 0 20
      ⟨[7, 7], [7, 7], List.replicate 20 7, 40⟩ = none ∧
    bca_replicates thin_ext 2 mean 20 flat_mem =
      some (⟨[7, 7], [7, 7], List.replicate 20 7, 40⟩, thin_ext.inverse_normal_cdf (1 / 20)) ∧
    boot_conf_BCa thin_ext 2 mean 20 flat_mem = none := by
  refine ⟨⟨by decide, thin_sorts 20, by simp [List.Sorted, List.pairwise_replicate],
    fun z1 z2 h => cdf_thin_strict h, thin_cdf_open, thin_inverse_monotone, thin_divisors _⟩,
    ⟨thin_ext.normal_cdf (thin_ext.inverse_normal_cdf (1 / 20) +
        (thin_ext.inverse_normal_cdf (1 / 20) + thin_ext.inverse_normal_cdf 0.10) /
          (1 - 0 * (thin_ext.inverse_normal_cdf (1 / 20) + thin_ext.inverse_normal_cdf 0.10))),
      thin_ext.normal_cdf (thin_ext.inverse_normal_cdf (1 / 20) +
        (thin_ext.inverse_normal_cdf (1 / 20) + thin_ext.inverse_normal_cdf 0.90) /
          (1 - 0 * (thin_ext.inverse_normal_cdf (1 / 20) + thin_ext.inverse_normal_cdf 0.90))),
      by decide!, by decide!, by decide!, by decide!, by decide!, by decide!, by decide!,
      by decide!, by decide!⟩, by decide!, by decide!, by decide!⟩

/-! ## Frame properties of the percentile procedure -/

theorem for_loop_frame {σ α : Type} (body : Int → σ → Option σ) (f : σ → α)
    (h : ∀ i s s', body i s = some s' → f s' = f s) :
    ∀ (k : Nat) (i : Int) (s s' : σ), for_loop body k i s = some s' → f s' = f s := by
  intro k
  induction k with
  | zero => intro i s s' hl; simp only [for_loop, Option.some.injEq] at hl; rw [hl]
  | succ k ih =>
    intro i s s' hl
    simp only [for_loop, Option.bind_eq_some] at hl
    obtain ⟨t, ht, hl⟩ := hl
    rw [ih _ _ _ hl, h _ _ _ ht]

theorem for_loop_split {σ : Type} (body : Int → σ → Option σ) :
    ∀ (k j : Nat) (i : Int) (s : σ),
      for_loop body (k + j) i s = (for_loop body k i s).bind (for_loop body j (i + k)) := by
  intro k
  induction k with
  | zero => intro j i s; simp [for_loop]
  | succ k ih =>
    intro j i s
    have e : k + 1 + j = (k + j) + 1 := by omega
    rw [e]
    simp only [for_loop]
    cases hb : body i s with
    | none => simp
    | some t =>
      simp only [Option.some_bind, ih]
      have : i + 1 + (k : Int) = i + ((k + 1 : Nat) : Int) := by push_cast; ring
      rw [this]

theorem for_loop_initial {σ : Type} (body : Int → σ → Option σ) {k n : Nat} (hk : k ≤ n)
    {i : Int} {s s' : σ} (h : for_loop body n i s = some s') :
    ∃ t, for_loop body k i s = some t := by
  obtain ⟨j, rfl⟩ := Nat.exists_eq_add_of_le hk
  rw [for_loop_split, Option.bind_eq_some] at h
  obtain ⟨t, ht, _⟩ := h
  exact ⟨t, ht⟩

theorem for_loop_next {σ : Type} (body : Int → σ → Option σ) {k n : Nat} (hk : k < n)
    {s s' t : σ} (h : for_loop body n 0 s = some s') (ht : for_loop body k 0 s = some t) :
    ∃ t', body k t = some t' := by
  obtain ⟨u, hu⟩ := for_loop_initial body (k := k + 1) (by omega) h
  rw [for_loop_split, ht] at hu
  simp only [Option.some_bind, for_loop, Option.bind_eq_some] at hu
  obtain ⟨t', h1, _⟩ := hu
  exact ⟨t', by simpa using h1⟩

theorem draw_case_frame {E : Ext} {n i : Int} {m m' : Mem} (h : draw_case E n i m = some m') :
    (m'.x, m'.work2) = (m.x, m.work2) := by
  simp only [draw_case, Option.bind_eq_bind, Option.bind_eq_some, Option.pure_def,
    Option.some.injEq] at h
  obtain ⟨v, _, xw, _, rfl⟩ := h
  rfl

theorem draw_loop_frame {E : Ext} {n : Int} {k : Nat} {i : Int} {m m' : Mem}
    (h : for_loop (draw_case E n) k i m = some m') : m'.x = m.x ∧ m'.work2 = m.work2 := by
  have := for_loop_frame _ (fun s : Mem => (s.x, s.work2))
    (fun _ _ _ hd => draw_case_frame hd) _ _ _ _ h
  exact ⟨congrArg Prod.fst this, congrArg Prod.snd this⟩

theorem pctile_rep_frame {E : Ext} {n : Int} {user_t : Stat} {rep : Int} {m m' : Mem}
    (h : pctile_rep E n user_t rep m = some m') : m'.x = m.x := by
  simp only [pctile_rep, Option.bind_eq_bind, Option.bind_eq_some, Option.pure_def,
    Option.some.injEq] at h
  obtain ⟨m1, h1, w2, _, rfl⟩ := h
  exact (draw_loop_frame h1).1

theorem pctile_rep_inner {E : Ext} {n : Int} {user_t : Stat} {rep : Int} {m m' : Mem}
    (h : pctile_rep E n user_t rep m = some m') :
    ∃ m1, for_loop (draw_case E n) n.toNat 0 m = some m1 := by
  simp only [pctile_rep, Option.bind_eq_bind, Option.bind_eq_some] at h
  obtain ⟨m1, h1, _⟩ := h
  exact ⟨m1, h1⟩

theorem pctile_outputs_frame {E : Ext} {nboot : Int} {m m' : Mem} {b : Bounds}
    (h : pctile_outputs E nboot m = some (b, m')) :
    m' = { m with work2 := E.qsortd 0 (nboot - 1) m.work2 } := by
  simp only [pctile_outputs, Option.bind_eq_bind, Option.bind_eq_some, Option.pure_def,
    Option.some.injEq, Prod.mk.injEq] at h
  obtain ⟨_, _, _, _, _, _, _, _, _, _, _, _, _, h2⟩ := h
  exact h2.symm

theorem pctile_outputs_total (E : Ext) (nboot : Int) (m : Mem) (hnb : 1 ≤ nboot)
    (hlen : (m.work2.length : Int) = nboot) (hperm : permutes E nboot) :
    ∃ b, pctile_outputs E nboot m =
      some (b, { m with work2 := E.qsortd 0 (nboot - 1) m.work2 }) := by
  have hl : ((E.qsortd 0 (nboot - 1) m.work2).length : Int) = nboot := by
    rw [(hperm m.work2 hlen).length_eq]; exact hlen
  obtain ⟨a1, b1, r1, r2⟩ := rank_in_range nboot hnb 0.025 (by norm_num) _ hl
  obtain ⟨a2, b2, r3, r4⟩ := rank_in_range nboot hnb 0.05 (by norm_num) _ hl
  obtain ⟨a3, b3, r5, r6⟩ := rank_in_range nboot hnb 0.10 (by norm_num) _ hl
  exact ⟨_, pctile_outputs_some E nboot m r1 r2 r3 r4 r5 r6⟩

/-- C11. The percentile procedure does not modify the sample.  Every state
that `boot_conf_pctile` reaches, after any number of replications and any
number of draws of the replication under way, has the sample `x` of the call,
and so has the memory it returns: the procedure writes to `xwork`, `work2` and
the six outputs only.  For `n ≥ 1`, `nboot ≥ 1`, buffers of `n` and `nboot`
cells, draws in `[0,1]` and a `qsortd` that permutes, these states exist and
the procedure returns. -/
theorem pctile_sample_unchanged (E : Ext) (n : Int) (user_t : Stat) (nboot : Int) (m : Mem) :
    (∀ (rep : Nat) (s : Mem), for_loop (pctile_rep E n user_t) rep 0 m = some s →
      s.x = m.x ∧ ∀ (i : Nat) (t : Mem), for_loop (draw_case E n) i 0 s = some t → t.x = m.x) ∧
    (∀ b m', boot_conf_pctile E n user_t nboot m = some (b, m') → m'.x = m.x) ∧
    (1 ≤ n → 1 ≤ nboot → well_formed n nboot m → draws_unit E → permutes E nboot →
      (∀ rep : Nat, (rep : Int) < nboot → ∃ s, for_loop (pctile_rep E n user_t) rep 0 m = some s ∧
        ∀ i : Nat, (i : Int) ≤ n → ∃ t, for_loop (draw_case E n) i 0 s = some t) ∧
      ∃ b m', boot_conf_pctile E n user_t nboot m = some (b, m') ∧ m'.x = m.x) := by
  have hrep : ∀ (rep : Nat) (s : Mem), for_loop (pctile_rep E n user_t) rep 0 m = some s →
      s.x = m.x := fun rep s hs =>
    for_loop_frame _ (fun s : Mem => s.x) (fun _ _ _ h => pctile_rep_frame h) _ _ _ _ hs
  have hfin : ∀ b m', boot_conf_pctile E n user_t nboot m = some (b, m') → m'.x = m.x := by
    intro b m' h
    simp only [boot_conf_pctile, Option.bind_eq_bind, Option.bind_eq_some] at h
    obtain ⟨m1, h1, h2⟩ := h
    rw [pctile_outputs_frame h2]
    exact hrep nboot.toNat m1 h1
  refine ⟨fun rep s hs => ⟨hrep rep s hs, fun i t ht => ?_⟩, hfin, ?_⟩
  · rw [(draw_loop_frame ht).1]; exact hrep rep s hs
  · intro hn hnb hwf hE hperm
    obtain ⟨m1, hl, -, -, hlen, -, -, hrun⟩ := pctile_run E n user_t nboot m hn hwf hE
    refine ⟨fun rep hrep' => ?_, ?_⟩
    · obtain ⟨s, hs⟩ := for_loop_initial (pctile_rep E n user_t) (k := rep) (by omega) hl
      refine ⟨s, hs, fun i hi => ?_⟩
      obtain ⟨t', ht'⟩ := for_loop_next (pctile_rep E n user_t) (k := rep) (by omega) hl hs
      obtain ⟨m2, hm2⟩ := pctile_rep_inner ht'
      exact for_loop_initial (draw_case E n) (k := i) (by omega) hm2
    · obtain ⟨b, hb⟩ := pctile_outputs_total E nboot m1 hnb hlen hperm
      exact ⟨b, _, hrun.trans hb, hfin _ _ (hrun.trans hb)⟩

/-- C11, witness: `pctile_sample_unchanged` on a concrete run (`n = 4`, `nboot = 2`). -/
theorem pctile_sample_unchanged_witness :
    ∃ b m', boot_conf_pctile demo_ext 4 mean 2 demo_mem = some (b, m') ∧ m'.x = demo_mem.x :=
  ((pctile_sample_unchanged demo_ext 4 mean 2 demo_mem).2.2 (by decide) (by decide)
    demo_well_formed demo_draws_unit (sorts_permutes (demo_sorts 2))).2
/-! ## The clamps of `z0_count` -/

/-- C13 (amended). The clamps of `z0_count`: for `nboot ≥ 2` (and `n ≥ 1`,
buffers of `n` and `nboot` cells, draws in `[0,1]`) the replication loop of
`boot_conf_BCa` ends with `z0_count` equal to the number of replicates
strictly below `theta_hat`, the count after the two clamps lies in
`[1, nboot − 1]`, the proportion `z0_count / nboot` is strictly between 0 and
1, and that proportion is the argument at which `inverse_normal_cdf` is
called; the two bounds on the clamped count hold for every integer count. -/
theorem z0_clamp (E : Ext) (n : Int) (user_t : Stat) (nboot : Int) (m : Mem) (hn : 1 ≤ n)
    (hnb : 2 ≤ nboot) (hwf : well_formed n nboot m) (hE : draws_unit E) :
    (∃ s, for_loop (bca_rep E n user_t (user_t n m.x)) nboot.toNat 0 (m, 0) = some s ∧
      s.2 = count_below (user_t n m.x) s.1.work2 ∧
      1 ≤ clamp_z0_count s.2 nboot ∧ clamp_z0_count s.2 nboot ≤ nboot - 1 ∧
      0 < (clamp_z0_count s.2 nboot : ℚ) / (nboot : ℚ) ∧
      (clamp_z0_count s.2 nboot : ℚ) / (nboot : ℚ) < 1 ∧
      fdiv (clamp_z0_count s.2 nboot) nboot =
        some ((clamp_z0_count s.2 nboot : ℚ) / (nboot : ℚ)) ∧
      bca_replicates E n user_t nboot m =
        some (s.1, E.inverse_normal_cdf ((clamp_z0_count s.2 nboot : ℚ) / (nboot : ℚ)))) ∧
    ∀ c : Int, 1 ≤ clamp_z0_count c nboot ∧ clamp_z0_count c nboot ≤ nboot - 1 ∧
      0 < (clamp_z0_count c nboot : ℚ) / (nboot : ℚ) ∧
      (clamp_z0_count c nboot : ℚ) / (nboot : ℚ) < 1 := by
  refine ⟨?_, fun c => ⟨(clamp_z0_count_range c hnb).1, (clamp_z0_count_range c hnb).2,
    (clamp_proportion c hnb).1, (clamp_proportion c hnb).2⟩⟩
  obtain ⟨m1, h1, h2⟩ := bca_loop_spec E hE n hn user_t (user_t n m.x) nboot m hwf
  obtain ⟨m1', h1', hr⟩ := bca_replicates_spec E hE n hn user_t nboot hnb m hwf
  have e : m1' = m1 := Option.some.inj (h1'.symm.trans h1)
  subst e
  have hnz : (nboot : ℚ) ≠ 0 := by exact_mod_cast (by omega : nboot ≠ 0)
  refine ⟨_, h2, rfl, (clamp_z0_count_range _ hnb).1, (clamp_z0_count_range _ hnb).2,
    (clamp_proportion _ hnb).1, (clamp_proportion _ hnb).2, by simp [fdiv, hnz], hr⟩

/-- C13, witness: `z0_clamp` on a concrete run (`n = 4`, `nboot = 2`). -/
theorem z0_clamp_witness :
    ∃ s, for_loop (bca_rep demo_ext 4 mean (mean 4 demo_mem.x)) (2 : Int).toNat 0
        (demo_mem, 0) = some s ∧
      s.2 = count_below (mean 4 demo_mem.x) s.1.work2 ∧
      1 ≤ clamp_z0_count s.2 2 ∧ clamp_z0_count s.2 2 ≤ 2 - 1 ∧
      0 < (clamp_z0_count s.2 2 : ℚ) / ((2 : Int) : ℚ) ∧
      (clamp_z0_count s.2 2 : ℚ) / ((2 : Int) : ℚ) < 1 ∧
      fdiv (clamp_z0_count s.2 2) (2 : Int) =
        some ((clamp_z0_count s.2 2 : ℚ) / ((2 : Int) : ℚ)) ∧
      bca_replicates demo_ext 4 mean 2 demo_mem =
        some (s.1, demo_ext.inverse_normal_cdf
          ((clamp_z0_count s.2 2 : ℚ) / ((2 : Int) : ℚ))) :=
  (z0_clamp demo_ext 4 mean 2 demo_mem (by decide) (by decide) demo_well_formed
    demo_draws_unit).1

/-- C13, counterexample: `nboot = 1`.  On the run `n = 2`, sample `7, 7`, the
mean, `nboot = 1`, no replicate is strictly below `theta_hat`, the count `0` is
clamped to `1`, which is above `nboot − 1 = 0`, the proportion given to
`inverse_normal_cdf` is `1/1 = 1`, and `bca_replicates` has no defined result.
At `nboot = 1` the two clamps turn every count into `1`, and the interval
`[1, nboot − 1]` is empty. -/
theorem z0_clamp_counterexample :
    1 ≤ (1 : Int) ∧
    (∃ s, for_loop (bca_rep demo_ext 2 mean (mean 2 single_mem.x)) (1 : Int).toNat 0
        (single_mem, 0) = some s ∧
      s.2 = count_below (mean 2 single_mem.x) s.1.work2 ∧ s.2 = 0 ∧
      clamp_z0_count s.2 1 = 1 ∧ ¬ (clamp_z0_count s.2 1 ≤ 1 - 1) ∧
      (clamp_z0_count s.2 1 : ℚ) / ((1 : Int) : ℚ) = 1 ∧
      ¬ ((clamp_z0_count s.2 1 : ℚ) / ((1 : Int) : ℚ) < 1)) ∧
    bca_replicates demo_ext 2 mean 1 single_mem = none ∧
    (∀ c : Int, clamp_z0_count c 1 = 1) ∧
    ¬ ∃ c : Int, 1 ≤ c ∧ c ≤ 1 - 1 := by
  refine ⟨by decide, ⟨(⟨[7, 7], [7, 7], [7], 2⟩, 0), by decide!, by decide!, rfl, by decide!,
    by decide!, by decide!, by decide!⟩, by decide!, ?_, ?_⟩
  · intro c
    unfold clamp_z0_count
    simp only
    split_ifs <;> omega
  · rintro ⟨c, h1, h2⟩
    omega
/-! ## The index of the resampled case -/

theorem draw_case_index (E : Ext) (n : Int) (i : Int) (m : Mem) :
    draw_case E n i m =
      (rd m.x (draw_index (E.unifrand m.draws) n)).bind (fun v =>
        (wr m.xwork i v).bind (fun xw =>
          some { m with xwork := xw, draws := m.draws + 1 })) := rfl

theorem to_int_floor {d : ℚ} (h : 0 ≤ d) : to_int d = ⌊d⌋ := by
  simp [to_int, h]

/-- C16. Selection of the resample index: for `n ≥ 1` and a draw `u` with
`0 ≤ u ≤ 1`, the index computed in the resampling loop (of both procedures,
whose loops are the same statements) is `min (floor (u·n)) (n − 1)` and lies
in `[0, n − 1]`; the read `x[k]` is defined and the value written to
`xwork[i]` is a case of the sample; the branch `k >= n` is taken exactly when
`u = 1`: for `u < 1` the index is `floor (u·n)`, for `u = 1` the cast gives
`n` and the index is `n − 1`. -/
theorem resample_index (E : Ext) (n : Int) (i : Int) (m : Mem) (hn : 1 ≤ n)
    (hx : (m.x.length : Int) = n) (hi0 : 0 ≤ i) (hi1 : i < m.xwork.length)
    (hu0 : 0 ≤ E.unifrand m.draws) (hu1 : E.unifrand m.draws ≤ 1) :
    draw_index (E.unifrand m.draws) n = min ⌊E.unifrand m.draws * n⌋ (n - 1) ∧
    0 ≤ draw_index (E.unifrand m.draws) n ∧ draw_index (E.unifrand m.draws) n ≤ n - 1 ∧
    (∃ v, rd m.x (draw_index (E.unifrand m.draws) n) = some v ∧ v ∈ m.x ∧
      draw_case E n i m =
        some { m with xwork := m.xwork.set i.toNat v, draws := m.draws + 1 }) ∧
    (n ≤ to_int (E.unifrand m.draws * n) ↔ E.unifrand m.draws = 1) ∧
    (E.unifrand m.draws < 1 →
      draw_index (E.unifrand m.draws) n = ⌊E.unifrand m.draws * n⌋) ∧
    (E.unifrand m.draws = 1 →
      to_int (E.unifrand m.draws * n) = n ∧ draw_index (E.unifrand m.draws) n = n - 1) := by
  have hn0 : (0 : ℚ) < (n : ℚ) := by exact_mod_cast (by omega : (0 : Int) < n)
  have hun : 0 ≤ E.unifrand m.draws * n := mul_nonneg hu0 hn0.le
  have hf : to_int (E.unifrand m.draws * n) = ⌊E.unifrand m.draws * n⌋ := to_int_floor hun
  have hf0 : 0 ≤ ⌊E.unifrand m.draws * n⌋ := Int.floor_nonneg.mpr hun
  have hiff : n ≤ ⌊E.unifrand m.draws * n⌋ ↔ E.unifrand m.draws = 1 := by
    rw [Int.le_floor]
    constructor
    · intro h
      have : 1 ≤ E.unifrand m.draws := by
        by_contra hlt
        push_neg at hlt
        nlinarith
      exact le_antisymm hu1 this
    · intro h
      rw [h, one_mul]
  have hidx : draw_index (E.unifrand m.draws) n = min ⌊E.unifrand m.draws * n⌋ (n - 1) := by
    unfold draw_index
    simp only [hf]
    split_ifs with h
    · rw [min_eq_right (by omega)]
    · rw [min_eq_left (by omega)]
  have h0 : 0 ≤ draw_index (E.unifrand m.draws) n := by
    rw [hidx]; exact le_min hf0 (by omega)
  have h1 : draw_index (E.unifrand m.draws) n ≤ n - 1 := by
    rw [hidx]; exact min_le_right _ _
  refine ⟨hidx, h0, h1, ?_, by rw [hf]; exact hiff, ?_, ?_⟩
  · obtain ⟨v, hv, hmem, _⟩ := rd_eq_some (a := m.x) h0 (by omega)
    refine ⟨v, hv, hmem, ?_⟩
    rw [draw_case_index, hv, Option.some_bind, wr_eq_some v hi0 hi1, Option.some_bind]
  · intro hlt
    rw [hidx]
    have : ¬ n ≤ ⌊E.unifrand m.draws * n⌋ := fun h => absurd (hiff.mp h) hlt.ne
    exact min_eq_left (by omega)
  · intro he
    have := hiff.mpr he
    have hle : ⌊E.unifrand m.draws * n⌋ ≤ n := by
      rw [he, one_mul, Int.floor_intCast]
    refine ⟨by rw [hf]; omega, ?_⟩
    rw [hidx]
    exact min_eq_right (by omega)

/-- C16, witness: `resample_index` at a draw `u = 1` (`n = 4`, third call of
the generator): the cast gives `4` and the index is `3`. -/
theorem resample_index_witness :
    edge_ext.unifrand edge_mem.draws = 1 ∧
    to_int (edge_ext.unifrand edge_mem.draws * (4 : Int)) = 4 ∧
    draw_index (edge_ext.unifrand edge_mem.draws) 4 = 4 - 1 :=
  ⟨by decide!, (resample_index edge_ext 4 0 edge_mem (by decide) rfl (by decide) (by decide)
    (by decide!) (by decide!)).2.2.2.2.2.2 (by decide!)⟩
/-! ## The resampling step shared by the two procedures -/

/-- C17. The shared resampling step: for `n ≥ 1`, `nboot ≥ 0`, buffers of `n`
and `nboot` cells and draws in `[0,1]`, the replication loops of
`boot_conf_pctile` and of `boot_conf_BCa`, started on the same memory and the
same generator state, end in the same memory `m1`: the same `n·nboot` draws
are consumed and `work2` holds the same `nboot` replicates in the same order
(the BCa loop counts, in addition, the replicates below `theta_hat`).  The
jackknife leaves `work2` and the generator untouched, so both procedures sort
the same buffer: the memories they return have the same `work2` and the same
generator state. -/
theorem shared_resampling (E : Ext) (n : Int) (user_t : Stat) (nboot : Int) (m : Mem)
    (hn : 1 ≤ n) (hnb : 0 ≤ nboot) (hwf : well_formed n nboot m) (hE : draws_unit E) :
    ∃ m1, for_loop (pctile_rep E n user_t) nboot.toNat 0 m = some m1 ∧
      for_loop (bca_rep E n user_t (user_t n m.x)) nboot.toNat 0 (m, 0) =
        some (m1, count_below (user_t n m.x) m1.work2) ∧
      (m1.draws : Int) = m.draws + n * nboot ∧ (m1.work2.length : Int) = nboot ∧
      (∀ v ∈ m1.work2, is_replicate n user_t m.x v) ∧
      (∃ j, jackknife n user_t m1 = some j ∧ j.1.work2 = m1.work2 ∧ j.1.draws = m1.draws) ∧
      (∀ b m', boot_conf_pctile E n user_t nboot m = some (b, m') →
        m'.work2 = E.qsortd 0 (nboot - 1) m1.work2 ∧ m'.draws = m1.draws) ∧
      (∀ b m', boot_conf_BCa E n user_t nboot m = some (b, m') →
        m'.work2 = E.qsortd 0 (nboot - 1) m1.work2 ∧ m'.draws = m1.draws) := by
  obtain ⟨m1, hl, hb⟩ := bca_loop_spec E hE n hn user_t (user_t n m.x) nboot m hwf
  obtain ⟨m1', hl', h1, h2, h3, h4, h5, hrun⟩ := pctile_run E n user_t nboot m hn hwf hE
  have e : m1' = m1 := Option.some.inj (hl'.symm.trans hl)
  subst e
  obtain ⟨xlast, j, -, hj, -, hjw, hjd, -, -⟩ :=
    jackknife_spec n user_t m1' hn (by rw [h1]; exact hwf.1) h2
  refine ⟨m1', hl, hb, ?_, h3, h5, ⟨j, hj, hjw, hjd⟩, ?_, ?_⟩
  · rw [h4]
    push_cast
    rw [Int.toNat_of_nonneg hnb, Int.toNat_of_nonneg (by omega : 0 ≤ n)]
    ring
  · intro b m' h
    rw [hrun] at h
    rw [pctile_outputs_frame h]
    exact ⟨rfl, rfl⟩
  · intro b m' h
    simp only [boot_conf_BCa, Option.bind_eq_bind, Option.bind_eq_some] at h
    obtain ⟨r, hr, j', hj', accel, -, ho⟩ := h
    obtain ⟨s, hs, hrs⟩ := bca_replicates_fst hr
    have e1 := Option.some.inj (hb.symm.trans hs)
    rw [hrs, ← e1] at hj'
    have e2 := Option.some.inj (hj.symm.trans hj')
    rw [bca_outputs_frame ho, ← e2]
    exact ⟨by rw [hjw], hjd⟩

/-- C17, witness: `shared_resampling` on a concrete run (`n = 4`, `nboot = 2`). -/
theorem shared_resampling_witness :
    ∃ m1, for_loop (pctile_rep demo_ext 4 mean) (2 : Int).toNat 0 demo_mem = some m1 ∧
      for_loop (bca_rep demo_ext 4 mean (mean 4 demo_mem.x)) (2 : Int).toNat 0 (demo_mem, 0) =
        some (m1, count_below (mean 4 demo_mem.x) m1.work2) ∧
      (m1.draws : Int) = demo_mem.draws + 4 * 2 ∧ (m1.work2.length : Int) = 2 ∧
      (∀ v ∈ m1.work2, is_replicate 4 mean demo_mem.x v) ∧
      (∃ j, jackknife 4 mean m1 = some j ∧ j.1.work2 = m1.work2 ∧ j.1.draws = m1.draws) ∧
      (∀ b m', boot_conf_pctile demo_ext 4 mean 2 demo_mem = some (b, m') →
        m'.work2 = demo_ext.qsortd 0 (2 - 1) m1.work2 ∧ m'.draws = m1.draws) ∧
      (∀ b m', boot_conf_BCa demo_ext 4 mean 2 demo_mem = some (b, m') →
        m'.work2 = demo_ext.qsortd 0 (2 - 1) m1.work2 ∧ m'.draws = m1.draws) :=
  shared_resampling demo_ext 4 mean 2 demo_mem (by decide) (by decide) demo_well_formed
    demo_draws_unit
/-! ## The jackknife is leave-one-out -/

theorem leave_one_out_perm {l : List ℚ} {k i : Nat} (hlen : l.length = k + 1) (hi : i ≤ k)
    {xlast xi : ℚ} (hlast : l[k]? = some xlast) (hxi : l[i]? = some xi) :
    (xi :: (l.set i xlast).take k).Perm l := by
  have hk : k < l.length := by omega
  have hl : l = l.take k ++ [xlast] := by
    have h1 := List.take_append_drop k l
    have h2 : l.drop k = [xlast] := by
      rw [List.drop_eq_getElem_cons hk, List.drop_eq_nil_of_le (by omega)]
      rw [List.getElem?_eq_getElem hk] at hlast
      simp only [Option.some.injEq] at hlast
      rw [hlast]
    rw [h2] at h1
    exact h1.symm
  rw [List.set_take]
  rcases Nat.lt_or_ge i k with h | h
  · have hik : i < (l.take k).length := by rw [List.length_take]; omega
    have hy : (l.take k)[i]? = some xi := by rw [List.getElem?_take_of_lt h]; exact hxi
    rw [List.getElem?_eq_getElem hik] at hy
    simp only [Option.some.injEq] at hy
    have hsplit : l.take k = (l.take k).take i ++ xi :: (l.take k).drop (i + 1) := by
      rw [← hy, ← List.drop_eq_getElem_cons hik, List.take_append_drop]
    have hset : (l.take k).set i xlast =
        (l.take k).take i ++ xlast :: (l.take k).drop (i + 1) := by
      rw [List.set_eq_take_append_cons_drop, if_pos hik]
    rw [hset]
    nth_rewrite 3 [hl]
    nth_rewrite 3 [hsplit]
    have p1 : (xi :: ((l.take k).take i ++ xlast :: (l.take k).drop (i + 1))).Perm
        (xi :: xlast :: ((l.take k).take i ++ (l.take k).drop (i + 1))) :=
      List.Perm.cons _ List.perm_middle
    have p2 : (((l.take k).take i ++ xi :: (l.take k).drop (i + 1)) ++ [xlast]).Perm
        (xlast :: xi :: ((l.take k).take i ++ (l.take k).drop (i + 1))) :=
      (List.perm_append_singleton _ _).trans (List.Perm.cons _ List.perm_middle)
    exact p1.trans ((List.Perm.swap _ _ _).trans p2.symm)
  · have hik : i = k := by omega
    subst hik
    have e : xi = xlast := Option.some.inj (hxi.symm.trans hlast)
    rw [List.set_eq_of_length_le (by rw [List.length_take]; omega), e]
    nth_rewrite 2 [hl]
    exact (List.perm_append_singleton _ _).symm

/-- C14. The jackknife is leave-one-out: for a sample of size `n ≥ 2` and
every `i` in `[0, n)`, iteration `i` of the jackknife starts with the original
sample, and the `n − 1` first cells of the buffer it passes to the statistic
(with the count `n − 1`) are, as a multiset, the sample with the observation
`x[i]` removed; for `i < n − 1` cell `i` holds `x[n−1]` and the other cells
are those of the sample, for `i = n − 1` the cells are `x[0..n−2]`. -/
theorem jackknife_leave_one_out (n : Int) (user_t : Stat) (m : Mem) (hn : 2 ≤ n)
    (hx : (m.x.length : Int) = n) (hw : (m.xwork.length : Int) = n) :
    ∃ xlast, rd m.x (n - 1) = some xlast ∧
      ∀ i : Nat, (i : Int) < n →
        ∃ s x1 xi, for_loop (jack_step n user_t xlast) i 0 (m, 0) = some s ∧ s.1.x = m.x ∧
          rd s.1.x i = some xi ∧ wr s.1.x i xlast = some x1 ∧
          jack_step n user_t xlast i s =
            some ({ s.1 with xwork := s.1.xwork.set i (user_t (n - 1) x1) },
              s.2 + user_t (n - 1) x1) ∧
          ((x1.take (n - 1).toNat).length : Int) = n - 1 ∧
          ((x1.take (n - 1).toNat : List ℚ) : Multiset ℚ) = (m.x : Multiset ℚ).erase xi ∧
          ((i : Int) < n - 1 → x1[i]? = some xlast ∧
            ∀ j : Nat, j ≠ i → x1[j]? = m.x[j]?) ∧
          ((i : Int) = n - 1 → x1.take (n - 1).toNat = m.x.take (n - 1).toNat) := by
  obtain ⟨xlast, hr, -, hlast⟩ := rd_eq_some (a := m.x) (k := n - 1) (by omega) (by omega)
  refine ⟨xlast, hr, fun i hi => ?_⟩
  obtain ⟨s, hl, h1, -, -, h4, -, -⟩ := jack_loop_spec n user_t xlast m hx hw i (by omega)
  have hi0 : (0 : Int) ≤ (i : Int) := by omega
  have hilt : (i : Int) < (m.x.length : Int) := by omega
  obtain ⟨xi, hxi, -, hxi'⟩ := rd_eq_some (a := m.x) hi0 hilt
  have hwr := wr_eq_some (a := m.x) xlast hi0 hilt
  have hstep := jack_step_spec n user_t xlast i s (by rw [h1]; exact hx) h4 hi0 hi
  simp only [Int.toNat_ofNat] at hxi' hwr hstep
  have hlen : m.x.length = (n - 1).toNat + 1 := by omega
  have hperm := leave_one_out_perm (l := m.x) (k := (n - 1).toNat) (i := i) hlen (by omega)
    hlast hxi'
  refine ⟨s, m.x.set i xlast, xi, hl, h1, by rw [h1]; exact hxi, by rw [h1]; exact hwr,
    hstep.trans (by simp only [jack_value, h1]), ?_, ?_, ?_, ?_⟩
  · rw [List.length_take, List.length_set]
    omega
  · rw [Multiset.coe_erase, Multiset.coe_eq_coe]
    have := hperm.erase xi
    rwa [List.erase_cons_head] at this
  · intro hlt
    refine ⟨?_, fun j hj => ?_⟩
    · rw [List.getElem?_set]
      simp only [if_true]
      rw [if_pos (by omega)]
    · rw [List.getElem?_set_ne (fun h => hj h.symm)]
  · intro he
    rw [List.set_take, List.set_eq_of_length_le]
    rw [List.length_take]
    omega

/-- C14, witness: `jackknife_leave_one_out` on the sample `24, 6, 6, 0` (`n = 4`). -/
theorem jackknife_leave_one_out_witness :
    ∃ xlast, rd demo_mem.x (4 - 1) = some xlast ∧
      ∀ i : Nat, (i : Int) < 4 →
        ∃ s x1 xi, for_loop (jack_step 4 mean xlast) i 0 (demo_mem, 0) = some s ∧
          s.1.x = demo_mem.x ∧
          rd s.1.x i = some xi ∧ wr s.1.x i xlast = some x1 ∧
          jack_step 4 mean xlast i s =
            some ({ s.1 with xwork := s.1.xwork.set i (mean (4 - 1) x1) },
              s.2 + mean (4 - 1) x1) ∧
          ((x1.take ((4 : Int) - 1).toNat).length : Int) = 4 - 1 ∧
          ((x1.take ((4 : Int) - 1).toNat : List ℚ) : Multiset ℚ) =
            (demo_mem.x : Multiset ℚ).erase xi ∧
          ((i : Int) < 4 - 1 → x1[i]? = some xlast ∧
            ∀ j : Nat, j ≠ i → x1[j]? = demo_mem.x[j]?) ∧
          ((i : Int) = 4 - 1 →
            x1.take ((4 : Int) - 1).toNat = demo_mem.x.take ((4 : Int) - 1).toNat) :=
  jackknife_leave_one_out 4 mean demo_mem (by decide) rfl rfl
/-! ## The acceleration in real arithmetic -/

theorem compute_accel_eq_over (E : Ext) (n : Int) (xwork : List ℚ) (theta_dot : ℚ) :
    compute_accel E n xwork theta_dot = compute_accel_over E.sqrt n xwork theta_dot := rfl

theorem sum_map_take_succ_real (f : ℝ → ℝ) (l : List ℝ) {i : Nat} (h : i < l.length) :
    ((l.take (i + 1)).map f).sum = ((l.take i).map f).sum + f l[i] := by
  rw [List.take_succ, List.getElem?_eq_getElem h]
  simp only [Option.toList, List.map_append, List.sum_append, List.map_cons, List.map_nil,
    List.sum_cons, List.sum_nil, add_zero]

theorem accel_loop_real (td : ℝ) (xwork : List ℝ) (k : Nat) (hk : k ≤ xwork.length) :
    for_loop (accel_step_over td xwork) k 0 (0, 0) =
      some (((xwork.take k).map (fun v => (td - v) * (td - v) * (td - v))).sum,
        ((xwork.take k).map (fun v => (td - v) * (td - v))).sum) := by
  have key := for_loop_inv (accel_step_over td xwork)
    (fun i s => s = (((xwork.take i.toNat).map (fun v => (td - v) * (td - v) * (td - v))).sum,
        ((xwork.take i.toNat).map (fun v => (td - v) * (td - v))).sum)) xwork.length
    (by
      rintro i s hi0 hi1 rfl
      have hlt : i.toNat < xwork.length := by omega
      have h1 : rd_over xwork i = some xwork[i.toNat] := by
        simp [rd_over, hi0, List.getElem?_eq_getElem hlt]
      have e : (i + 1).toNat = i.toNat + 1 := by omega
      have hstep : accel_step_over td xwork i
          (((xwork.take i.toNat).map (fun v => (td - v) * (td - v) * (td - v))).sum,
            ((xwork.take i.toNat).map (fun v => (td - v) * (td - v))).sum) =
          some (((xwork.take i.toNat).map (fun v => (td - v) * (td - v) * (td - v))).sum +
              (td - xwork[i.toNat]) * (td - xwork[i.toNat]) * (td - xwork[i.toNat]),
            ((xwork.take i.toNat).map (fun v => (td - v) * (td - v))).sum +
              (td - xwork[i.toNat]) * (td - xwork[i.toNat])) := by
        simp only [accel_step_over, h1, Option.bind_eq_bind, Option.some_bind, Option.pure_def]
      refine ⟨_, hstep, ?_⟩
      show (_, _) = (_, _)
      rw [e, sum_map_take_succ_real _ xwork hlt, sum_map_take_succ_real _ xwork hlt])
    k 0 (0, 0) le_rfl (by omega) (by simp)
  obtain ⟨s, hl, hs⟩ := key
  rw [hl, hs]
  simp

theorem spec_sum_sq_eq (n : Int) (js : List ℝ) :
    spec_sum_sq n js = (js.map (fun v => (js.sum / n - v) * (js.sum / n - v))).sum := by
  unfold spec_sum_sq spec_diffs
  rw [List.map_map]
  congr 1
  apply List.map_congr_left
  intro v _
  simp only [Function.comp]
  ring

theorem spec_sum_cube_eq (n : Int) (js : List ℝ) :
    spec_sum_cube n js =
      (js.map (fun v => (js.sum / n - v) * (js.sum / n - v) * (js.sum / n - v))).sum := by
  unfold spec_sum_cube spec_diffs
  rw [List.map_map]
  congr 1
  apply List.map_congr_left
  intro v _
  simp only [Function.comp]
  ring

theorem spec_sum_sq_nonneg (n : Int) (js : List ℝ) : 0 ≤ spec_sum_sq n js := by
  unfold spec_sum_sq
  apply List.sum_nonneg
  intro x hx
  rw [List.mem_map] at hx
  obtain ⟨y, _, rfl⟩ := hx
  positivity

theorem sqrt_cube_eq_rpow {d : ℝ} (hd : 0 ≤ d) : (Real.sqrt d) ^ 3 = d ^ ((3 : ℝ) / 2) := by
  rw [Real.sqrt_eq_rpow, ← Real.rpow_natCast, ← Real.rpow_mul hd]
  norm_num

theorem compute_accel_real (n : Int) (hn : 1 ≤ n) (js : List ℝ)
    (hlen : (js.length : Int) = n) :
    compute_accel_over Real.sqrt n js js.sum =
      some (spec_sum_cube n js / (6 * (Real.sqrt (spec_sum_sq n js)) ^ 3 + 1 / 10 ^ 60)) ∧
    0 < 6 * (Real.sqrt (spec_sum_sq n js)) ^ 3 + 1 / 10 ^ 60 := by
  have hnz : (n : ℝ) ≠ 0 := by exact_mod_cast (by omega : n ≠ 0)
  have hl := accel_loop_real (js.sum / n) js n.toNat (by omega)
  have e : n.toNat = js.length := by omega
  rw [e, List.take_length, ← spec_sum_sq_eq, ← spec_sum_cube_eq] at hl
  have h0 := Real.sqrt_nonneg (spec_sum_sq n js)
  have hpos : (0 : ℝ) < 6 * (Real.sqrt (spec_sum_sq n js)) ^ 3 + 1 / 10 ^ 60 := by
    have : (0 : ℝ) < 1 / 10 ^ 60 := by positivity
    positivity
  refine ⟨?_, hpos⟩
  have e3 : Real.sqrt (spec_sum_sq n js) * Real.sqrt (spec_sum_sq n js) *
      Real.sqrt (spec_sum_sq n js) = (Real.sqrt (spec_sum_sq n js)) ^ 3 := by ring
  simp only [compute_accel_over, fdiv_over, hnz, if_false, e, hl, Option.bind_eq_bind,
    Option.some_bind, e3]
  rw [if_neg hpos.ne']

theorem jackknife_sum (n : Int) (user_t : Stat) (m : Mem) (hn : 1 ≤ n)
    (hx : (m.x.length : Int) = n) (hw : (m.xwork.length : Int) = n) :
    ∃ j, jackknife n user_t m = some j ∧ (j.1.xwork.length : Int) = n ∧ j.2 = j.1.xwork.sum := by
  obtain ⟨xlast, j, -, hj, -, -, -, h1, h2⟩ := jackknife_spec n user_t m hn hx hw
  refine ⟨j, hj, ?_, by rw [h2, h1]⟩
  rw [h1, List.length_map, List.length_range]
  omega

theorem sum_zero_of_forall {l : List ℝ} (h : ∀ e ∈ l, e = 0) : l.sum = 0 := by
  induction l with
  | nil => simp
  | cons a l ih =>
    rw [List.sum_cons, h a (List.mem_cons_self _ _),
      ih (fun e he => h e (List.mem_cons_of_mem _ he)), add_zero]

theorem sum_const_real {l : List ℝ} {c : ℝ} (h : ∀ e ∈ l, e = c) : l.sum = l.length * c := by
  induction l with
  | nil => simp
  | cons a l ih =>
    have ha : a = c := h a (List.mem_cons_self _ _)
    have := ih (fun e he => h e (List.mem_cons_of_mem _ he))
    simp only [List.sum_cons, List.length_cons, this, ha]
    push_cast
    ring

theorem spec_diffs_const {n : Int} {js : List ℝ} (hn : 1 ≤ n) (hlen : (js.length : Int) = n)
    (hc : ∀ v ∈ js, ∀ w ∈ js, v = w) : ∀ d ∈ spec_diffs n js, d = 0 := by
  intro d hd
  unfold spec_diffs at hd
  rw [List.mem_map] at hd
  obtain ⟨v, hv, rfl⟩ := hd
  have hsum : js.sum = js.length * v := sum_const_real (fun e he => hc e he v hv)
  have hnz : (n : ℝ) ≠ 0 := by exact_mod_cast (by omega : n ≠ 0)
  have hl : ((js.length : Int) : ℝ) = (n : ℝ) := by rw [hlen]
  rw [hsum]
  push_cast at hl
  rw [hl]
  field_simp

/-- C15. The acceleration formula in real arithmetic: for `n ≥ 1` and every
vector of `n` real jackknife values `j_0 .. j_{n−1}` with sum `Σ j_i` (the
value the jackknife hands over, which line 147 divides by `n`), with
`theta_dot = (Σ j_i)/n` and `diff_i = theta_dot − j_i`, lines 147-158 compute
`Σ diff_i³ / (6·(sqrt (Σ diff_i²))³ + 1e-60)`, which is
`Σ diff_i³ / (6·(Σ diff_i²)^1.5 + 1e-60)`; the denominator is strictly
positive; and `accel = 0` when all jackknife values are equal.  The
computation over the rationals that `boot_conf_BCa` is built from is the same
definition taken at `ℚ`. -/
theorem accel_formula (n : Int) (hn : 1 ≤ n) (js : List ℝ) (hlen : (js.length : Int) = n) :
    (∀ (E : Ext) (xwork : List ℚ) (theta_dot : ℚ),
      compute_accel E n xwork theta_dot = compute_accel_over E.sqrt n xwork theta_dot) ∧
    (∀ (user_t : Stat) (m : Mem), (m.x.length : Int) = n → (m.xwork.length : Int) = n →
      ∃ j, jackknife n user_t m = some j ∧ (j.1.xwork.length : Int) = n ∧
        j.2 = j.1.xwork.sum) ∧
    compute_accel_over Real.sqrt n js js.sum =
      some (spec_sum_cube n js / (6 * (Real.sqrt (spec_sum_sq n js)) ^ 3 + 1 / 10 ^ 60)) ∧
    compute_accel_over Real.sqrt n js js.sum =
      some (spec_sum_cube n js / (6 * (spec_sum_sq n js) ^ ((3 : ℝ) / 2) + 1 / 10 ^ 60)) ∧
    0 < 6 * (spec_sum_sq n js) ^ ((3 : ℝ) / 2) + 1 / 10 ^ 60 ∧
    ((∀ v ∈ js, ∀ w ∈ js, v = w) → compute_accel_over Real.sqrt n js js.sum = some 0) := by
  obtain ⟨hc, hpos⟩ := compute_accel_real n hn js hlen
  have hpow := sqrt_cube_eq_rpow (spec_sum_sq_nonneg n js)
  refine ⟨fun E xwork theta_dot => compute_accel_eq_over E n xwork theta_dot,
    fun user_t m hx hw => jackknife_sum n user_t m hn hx hw, hc, ?_, ?_, ?_⟩
  · rw [hc, hpow]
  · rw [← hpow]; exact hpos
  · intro hall
    have hz := spec_diffs_const hn hlen hall
    have h0 : spec_sum_cube n js = 0 := by
      unfold spec_sum_cube
      apply sum_zero_of_forall
      intro e he
      rw [List.mem_map] at he
      obtain ⟨d, hd, rfl⟩ := he
      rw [hz d hd]; norm_num
    rw [hc, h0, zero_div]

/-- C15, witness: `accel_formula` on the jackknife values `5, 7, 9, 9, 10` (`n = 5`). -/
theorem accel_formula_witness :
    compute_accel_over Real.sqrt 5 [5, 7, 9, 9, 10] ([5, 7, 9, 9, 10] : List ℝ).sum =
      some (spec_sum_cube 5 ([5, 7, 9, 9, 10] : List ℝ) /
        (6 * (spec_sum_sq 5 ([5, 7, 9, 9, 10] : List ℝ)) ^ ((3 : ℝ) / 2) + 1 / 10 ^ 60)) ∧
    0 < 6 * (spec_sum_sq 5 ([5, 7, 9, 9, 10] : List ℝ)) ^ ((3 : ℝ) / 2) + 1 / 10 ^ 60 :=
  ⟨(accel_formula 5 (by decide) [5, 7, 9, 9, 10] rfl).2.2.2.1,
    (accel_formula 5 (by decide) [5, 7, 9, 9, 10] rfl).2.2.2.2.1⟩

/-! ## The bound on the acceleration -/

theorem sq_le_sum_sq {l : List ℝ} : ∀ d ∈ l, d ^ 2 ≤ (l.map (fun d => d ^ 2)).sum := by
  induction l with
  | nil => intro d hd; simp at hd
  | cons a l ih =>
    intro d hd
    have hnn : 0 ≤ (l.map (fun d => d ^ 2)).sum :=
      List.sum_nonneg (by
        intro x hx
        rw [List.mem_map] at hx
        obtain ⟨y, _, rfl⟩ := hx
        positivity)
    simp only [List.map_cons, List.sum_cons]
    rcases List.mem_cons.mp hd with h | h
    · rw [h]; linarith
    · have := ih d h
      have : 0 ≤ a ^ 2 := by positivity
      linarith

theorem abs_sum_cube_le {l : List ℝ} {s : ℝ} (h : ∀ d ∈ l, |d| ≤ s) :
    |(l.map (fun d => d ^ 3)).sum| ≤ s * (l.map (fun d => d ^ 2)).sum := by
  induction l with
  | nil => simp
  | cons a l ih =>
    have h1 := ih (fun d hd => h d (List.mem_cons_of_mem _ hd))
    have ha := h a (List.mem_cons_self _ _)
    simp only [List.map_cons, List.sum_cons]
    have h3 : |a ^ 3| ≤ s * a ^ 2 := by
      have : |a ^ 3| = |a| * a ^ 2 := by
        rw [abs_pow, pow_succ, ← abs_pow, abs_of_nonneg (by positivity : (0 : ℝ) ≤ a ^ 2)]
        ring
      rw [this]
      exact mul_le_mul_of_nonneg_right ha (by positivity)
    calc |a ^ 3 + (l.map (fun d => d ^ 3)).sum|
        ≤ |a ^ 3| + |(l.map (fun d => d ^ 3)).sum| := abs_add _ _
      _ ≤ s * a ^ 2 + s * (l.map (fun d => d ^ 2)).sum := add_le_add h3 h1
      _ = s * (a ^ 2 + (l.map (fun d => d ^ 2)).sum) := by ring

theorem abs_cube_le_of_sq_le {l : List ℝ} {s : ℝ} (hs : 0 ≤ s)
    (hsq : (l.map (fun d => d ^ 2)).sum ≤ s * s) :
    |(l.map (fun d => d ^ 3)).sum| ≤ s ^ 3 := by
  have hd : ∀ d ∈ l, |d| ≤ s := by
    intro d hd
    have h1 := sq_le_sum_sq d hd
    exact abs_le.mpr ⟨by nlinarith, by nlinarith⟩
  have h2 := abs_sum_cube_le hd
  have h3 : s * (l.map (fun d => d ^ 2)).sum ≤ s * (s * s) := mul_le_mul_of_nonneg_left hsq hs
  calc |(l.map (fun d => d ^ 3)).sum| ≤ s * (l.map (fun d => d ^ 2)).sum := h2
    _ ≤ s * (s * s) := h3
    _ = s ^ 3 := by ring

theorem divisor_bound {accel : ℝ} (h : |accel| < 1 / 6) (z0 z : ℝ)
    (hd : 1 - accel * (z0 + z) ≤ 0) : 6 < |z0 + z| := by
  by_contra hle
  push_neg at hle
  have h1 : accel * (z0 + z) ≤ |accel| * |z0 + z| := by
    rw [← abs_mul]; exact le_abs_self _
  have h2 : |accel| * |z0 + z| ≤ |accel| * 6 := mul_le_mul_of_nonneg_left hle (abs_nonneg _)
  linarith

/-- C18. The bound on the acceleration in real arithmetic: for `n ≥ 1` and
every vector of `n` real jackknife values, `|Σ diff_i³| ≤ (Σ diff_i²)^1.5`,
the denominator `6·(Σ diff_i²)^1.5 + 1e-60` is strictly above
`6·(Σ diff_i²)^1.5`, and the `accel` that lines 147-158 compute satisfies
`|accel| < 1/6`; so the divisor `1 − accel·(z0 + z)` of the BCa correction is
zero or negative only when `|z0 + z| > 6`. -/
theorem accel_bound (n : Int) (hn : 1 ≤ n) (js : List ℝ) (hlen : (js.length : Int) = n) :
    ∃ accel : ℝ, compute_accel_over Real.sqrt n js js.sum = some accel ∧
      accel = spec_sum_cube n js / (6 * (spec_sum_sq n js) ^ ((3 : ℝ) / 2) + 1 / 10 ^ 60) ∧
      |spec_sum_cube n js| ≤ (spec_sum_sq n js) ^ ((3 : ℝ) / 2) ∧
      6 * (spec_sum_sq n js) ^ ((3 : ℝ) / 2) <
        6 * (spec_sum_sq n js) ^ ((3 : ℝ) / 2) + 1 / 10 ^ 60 ∧
      |accel| < 1 / 6 ∧
      ∀ z0 z : ℝ, 1 - accel * (z0 + z) ≤ 0 → 6 < |z0 + z| := by
  obtain ⟨hc, hpos⟩ := compute_accel_real n hn js hlen
  have hD := spec_sum_sq_nonneg n js
  have hpow := sqrt_cube_eq_rpow hD
  rw [hpow] at hc hpos
  have hN : |spec_sum_cube n js| ≤ (spec_sum_sq n js) ^ ((3 : ℝ) / 2) := by
    rw [← hpow]
    exact abs_cube_le_of_sq_le (Real.sqrt_nonneg _) (by
      rw [Real.mul_self_sqrt hD]
      exact le_refl (spec_sum_sq n js))
  have heps : (0 : ℝ) < 1 / 10 ^ 60 := by positivity
  have hacc : |spec_sum_cube n js /
      (6 * (spec_sum_sq n js) ^ ((3 : ℝ) / 2) + 1 / 10 ^ 60)| < 1 / 6 := by
    rw [abs_div, abs_of_pos hpos, div_lt_iff₀ hpos]
    linarith
  exact ⟨_, hc, rfl, hN, by linarith, hacc, fun z0 z => divisor_bound hacc z0 z⟩

/-- C18, witness: `accel_bound` on the jackknife values `5, 7, 9, 9, 10` (`n = 5`). -/
theorem accel_bound_witness :
    ∃ accel : ℝ, compute_accel_over Real.sqrt 5 [5, 7, 9, 9, 10]
        ([5, 7, 9, 9, 10] : List ℝ).sum = some accel ∧ |accel| < 1 / 6 ∧
      ∀ z0 z : ℝ, 1 - accel * (z0 + z) ≤ 0 → 6 < |z0 + z| := by
  obtain ⟨accel, h1, -, -, -, h4, h5⟩ := accel_bound 5 (by decide) [5, 7, 9, 9, 10] rfl
  exact ⟨accel, h1, h4, h5⟩

/-! ## Determinism -/

theorem for_loop_rel {σ τ : Type} (b1 : Int → σ → Option σ) (b2 : Int → τ → Option τ)
    (R : Int → σ → τ → Prop) (hi : Int)
    (step : ∀ i s t, 0 ≤ i → i < hi → R i s t →
      (b1 i s = none ∧ b2 i t = none) ∨
        ∃ s' t', b1 i s = some s' ∧ b2 i t = some t' ∧ R (i + 1) s' t') :
    ∀ (k : Nat) (i : Int) (s : σ) (t : τ), 0 ≤ i → i + k ≤ hi → R i s t →
      (for_loop b1 k i s = none ∧ for_loop b2 k i t = none) ∨
        ∃ s' t', for_loop b1 k i s = some s' ∧ for_loop b2 k i t = some t' ∧
          R (i + k) s' t' := by
  intro k
  induction k with
  | zero => intro i s t _ _ hR; exact Or.inr ⟨s, t, rfl, rfl, by simpa using hR⟩
  | succ k ih =>
    intro i s t h0 hk hR
    rcases step i s t h0 (by push_cast at hk; omega) hR with ⟨h1, h2⟩ | ⟨s1, t1, h1, h2, hR1⟩
    · left; simp [for_loop, h1, h2]
    · have e : i + 1 + (k : Int) = i + ((k + 1 : Nat) : Int) := by push_cast; ring
      rcases ih (i + 1) s1 t1 (by omega) (by push_cast at hk ⊢; omega) hR1 with
        ⟨g1, g2⟩ | ⟨s2, t2, g1, g2, hR2⟩
      · left; simp [for_loop, h1, h2, g1, g2]
      · right
        exact ⟨s2, t2, by simp [for_loop, h1, g1], by simp [for_loop, h2, g2], e ▸ hR2⟩

theorem wr_none {a : List ℚ} {k : Int} (v : ℚ) (h : ¬ (0 ≤ k ∧ k < a.length)) :
    wr a k v = none := by
  simp only [wr, if_neg h]

theorem take_eq_of_length {a b : List ℚ} {n : Int} (ha : (a.length : Int) = n)
    (hb : (b.length : Int) = n) (h : a.take n.toNat = b.take n.toNat) : a = b := by
  have e1 : n.toNat = a.length := by omega
  have e2 : n.toNat = b.length := by omega
  have h1 : a.take n.toNat = a := by rw [e1, List.take_length]
  have h2 : b.take n.toNat = b := by rw [e2, List.take_length]
  rw [← h1, ← h2, h]

theorem draw_case_sim (E : Ext) (n i : Int) (s t : Mem) (hi0 : 0 ≤ i) (hx : s.x = t.x)
    (hd : s.draws = t.draws) (hl : s.xwork.length = t.xwork.length)
    (htake : s.xwork.take i.toNat = t.xwork.take i.toNat) :
    (draw_case E n i s = none ∧ draw_case E n i t = none) ∨
      ∃ s' t', draw_case E n i s = some s' ∧ draw_case E n i t = some t' ∧ s'.x = t'.x ∧
        s'.draws = t'.draws ∧ s'.xwork.length = s.xwork.length ∧
        t'.xwork.length = t.xwork.length ∧
        s'.xwork.take (i + 1).toNat = t'.xwork.take (i + 1).toNat := by
  have hr' : rd s.x (draw_index (E.unifrand s.draws) n) =
      rd t.x (draw_index (E.unifrand t.draws) n) := by rw [hx, hd]
  cases hr : rd t.x (draw_index (E.unifrand t.draws) n) with
  | none =>
    left
    rw [draw_case_index, draw_case_index, hr', hr]
    exact ⟨rfl, rfl⟩
  | some v =>
    by_cases hlt : i < s.xwork.length
    · right
      have hlt' : i < t.xwork.length := by omega
      have e : (i + 1).toNat = i.toNat + 1 := by omega
      refine ⟨{ s with xwork := s.xwork.set i.toNat v, draws := s.draws + 1 },
        { t with xwork := t.xwork.set i.toNat v, draws := t.draws + 1 },
        by rw [draw_case_index, hr', hr, Option.some_bind, wr_eq_some v hi0 hlt,
          Option.some_bind],
        by rw [draw_case_index, hr, Option.some_bind, wr_eq_some v hi0 hlt',
          Option.some_bind], hx, by simp [hd], by simp, by simp, ?_⟩
      simp only [e]
      rw [take_set_succ v (by omega), take_set_succ v (by omega), htake]
    · left
      have hlt' : ¬ i < t.xwork.length := by omega
      rw [draw_case_index, draw_case_index, hr', hr, Option.some_bind, Option.some_bind,
        wr_none v (fun h => hlt h.2), wr_none v (fun h => hlt' h.2)]
      exact ⟨rfl, rfl⟩

theorem draw_loop_sim (E : Ext) (n : Int) (s t : Mem) (hx : s.x = t.x) (hd : s.draws = t.draws)
    (hs : (s.xwork.length : Int) = n) (ht : (t.xwork.length : Int) = n) :
    (for_loop (draw_case E n) n.toNat 0 s = none ∧
        for_loop (draw_case E n) n.toNat 0 t = none) ∨
      ∃ s' t', for_loop (draw_case E n) n.toNat 0 s = some s' ∧
        for_loop (draw_case E n) n.toNat 0 t = some t' ∧ s'.x = t'.x ∧ s'.draws = t'.draws ∧
        s'.xwork = t'.xwork ∧ (s'.xwork.length : Int) = n ∧ s'.work2 = s.work2 ∧
        t'.work2 = t.work2 := by
  have key := for_loop_rel (draw_case E n) (draw_case E n)
    (fun i a b => a.x = b.x ∧ a.draws = b.draws ∧ (a.xwork.length : Int) = n ∧
      (b.xwork.length : Int) = n ∧ a.xwork.take i.toNat = b.xwork.take i.toNat) n
    (by
      rintro i a b hi0 hi1 ⟨h1, h2, h3, h4, h5⟩
      rcases draw_case_sim E n i a b hi0 h1 h2 (by omega) h5 with h | ⟨a', b', g1, g2, g3, g4,
        g5, g6, g7⟩
      · exact Or.inl h
      · exact Or.inr ⟨a', b', g1, g2, g3, g4, by omega, by omega, g7⟩)
    n.toNat 0 s t le_rfl (by omega) ⟨hx, hd, hs, ht, by simp⟩
  rcases key with h | ⟨s', t', g1, g2, g3, g4, g5, g6, g7⟩
  · exact Or.inl h
  · have e : (0 : Int) + (n.toNat : Int) = n := by omega
    rw [e] at g7
    exact Or.inr ⟨s', t', g1, g2, g3, g4, take_eq_of_length g5 g6 g7, g5,
      (draw_loop_frame g1).2, (draw_loop_frame g2).2⟩

theorem bca_rep_sim (E : Ext) (n : Int) (user_t : Stat) (theta_hat : ℚ) (rep : Int)
    (s t : Mem × Int) (hr0 : 0 ≤ rep) (hx : s.1.x = t.1.x) (hd : s.1.draws = t.1.draws)
    (hs : (s.1.xwork.length : Int) = n) (ht : (t.1.xwork.length : Int) = n)
    (hl : s.1.work2.length = t.1.work2.length)
    (htake : s.1.work2.take rep.toNat = t.1.work2.take rep.toNat) (hc : s.2 = t.2) :
    (bca_rep E n user_t theta_hat rep s = none ∧ bca_rep E n user_t theta_hat rep t = none) ∨
      ∃ s' t', bca_rep E n user_t theta_hat rep s = some s' ∧
        bca_rep E n user_t theta_hat rep t = some t' ∧ s'.1.x = t'.1.x ∧
        s'.1.draws = t'.1.draws ∧ (s'.1.xwork.length : Int) = n ∧
        (t'.1.xwork.length : Int) = n ∧ s'.1.work2.length = s.1.work2.length ∧
        t'.1.work2.length = t.1.work2.length ∧
        s'.1.work2.take (rep + 1).toNat = t'.1.work2.take (rep + 1).toNat ∧ s'.2 = t'.2 := by
  rcases draw_loop_sim E n s.1 t.1 hx hd hs ht with ⟨h1, h2⟩ | ⟨a, b, h1, h2, g1, g2, g3, g4,
    g5, g6⟩
  · left
    simp [bca_rep, h1, h2]
  · by_cases hlt : rep < s.1.work2.length
    · right
      have hlt' : rep < t.1.work2.length := by omega
      have e : (rep + 1).toNat = rep.toNat + 1 := by omega
      have w1 := wr_eq_some (a := a.work2) (user_t n a.xwork) hr0 (by rw [g5]; exact hlt)
      have w2 := wr_eq_some (a := b.work2) (user_t n b.xwork) hr0 (by rw [g6]; exact hlt')
      refine ⟨({ a with work2 := a.work2.set rep.toNat (user_t n a.xwork) },
          if user_t n a.xwork < theta_hat then s.2 + 1 else s.2),
        ({ b with work2 := b.work2.set rep.toNat (user_t n b.xwork) },
          if user_t n b.xwork < theta_hat then t.2 + 1 else t.2),
        by simp only [bca_rep, h1, w1, Option.bind_eq_bind, Option.some_bind, Option.pure_def],
        by simp only [bca_rep, h2, w2, Option.bind_eq_bind, Option.some_bind, Option.pure_def],
        g1, g2, g4, by rw [← g3]; exact g4, by simp [g5], by simp [g6], ?_, by rw [g3, hc]⟩
      simp only [e, g5, g6, g3]
      rw [take_set_succ _ (by omega), take_set_succ _ (by omega), htake]
    · left
      have hlt' : ¬ rep < t.1.work2.length := by omega
      have w1 := wr_none (a := a.work2) (k := rep) (user_t n a.xwork)
        (fun h => hlt (by rw [← g5]; exact h.2))
      have w2 := wr_none (a := b.work2) (k := rep) (user_t n b.xwork)
        (fun h => hlt' (by rw [← g6]; exact h.2))
      constructor
      · simp only [bca_rep, h1, w1, Option.bind_eq_bind, Option.some_bind, Option.none_bind]
      · simp only [bca_rep, h2, w2, Option.bind_eq_bind, Option.some_bind, Option.none_bind]

theorem bca_loop_sim (E : Ext) (n : Int) (user_t : Stat) (theta_hat : ℚ) (nboot : Int)
    (m1 m2 : Mem) (hx : m1.x = m2.x) (hd : m1.draws = m2.draws)
    (hs : (m1.xwork.length : Int) = n) (ht : (m2.xwork.length : Int) = n)
    (hb1 : (m1.work2.length : Int) = nboot) (hb2 : (m2.work2.length : Int) = nboot) :
    (for_loop (bca_rep E n user_t theta_hat) nboot.toNat 0 (m1, 0) = none ∧
        for_loop (bca_rep E n user_t theta_hat) nboot.toNat 0 (m2, 0) = none) ∨
      ∃ s' t', for_loop (bca_rep E n user_t theta_hat) nboot.toNat 0 (m1, 0) = some s' ∧
        for_loop (bca_rep E n user_t theta_hat) nboot.toNat 0 (m2, 0) = some t' ∧
        s'.1.x = t'.1.x ∧ s'.1.draws = t'.1.draws ∧ (s'.1.xwork.length : Int) = n ∧
        (t'.1.xwork.length : Int) = n ∧ s'.1.work2 = t'.1.work2 ∧ s'.2 = t'.2 := by
  have key := for_loop_rel (bca_rep E n user_t theta_hat) (bca_rep E n user_t theta_hat)
    (fun i a b => a.1.x = b.1.x ∧ a.1.draws = b.1.draws ∧ (a.1.xwork.length : Int) = n ∧
      (b.1.xwork.length : Int) = n ∧ (a.1.work2.length : Int) = nboot ∧
      (b.1.work2.length : Int) = nboot ∧
      a.1.work2.take i.toNat = b.1.work2.take i.toNat ∧ a.2 = b.2) nboot
    (by
      rintro i a b hi0 hi1 ⟨h1, h2, h3, h4, h5, h6, h7, h8⟩
      rcases bca_rep_sim E n user_t theta_hat i a b hi0 h1 h2 h3 h4 (by omega) h7 h8 with
        h | ⟨a', b', g1, g2, g3, g4, g5, g6, g7, g8, g9, g10⟩
      · exact Or.inl h
      · exact Or.inr ⟨a', b', g1, g2, g3, g4, g5, g6, by omega, by omega, g9, g10⟩)
    nboot.toNat 0 (m1, 0) (m2, 0) le_rfl (by omega) ⟨hx, hd, hs, ht, hb1, hb2, by simp, rfl⟩
  rcases key with h | ⟨s', t', g1, g2, g3, g4, g5, g6, g7, g8, g9, g10⟩
  · exact Or.inl h
  · have e : (0 : Int) + (nboot.toNat : Int) = nboot := by omega
    rw [e] at g9
    exact Or.inr ⟨s', t', g1, g2, g3, g4, g5, g6, take_eq_of_length g7 g8 g9, g10⟩

theorem wr_some_inv {a w : List ℚ} {k : Int} {v : ℚ} (h : wr a k v = some w) :
    0 ≤ k ∧ k < a.length ∧ w = a.set k.toNat v := by
  unfold wr at h
  split_ifs at h with hk
  exact ⟨hk.1, hk.2, (Option.some.inj h).symm⟩

theorem jack_step_sim (n : Int) (user_t : Stat) (xlast : ℚ) (i : Int) (s t s' : Mem × ℚ)
    (hx : s.1.x = t.1.x) (hw2 : s.1.work2 = t.1.work2) (hd : s.1.draws = t.1.draws)
    (hl : s.1.xwork.length = t.1.xwork.length)
    (htake : s.1.xwork.take i.toNat = t.1.xwork.take i.toNat) (hc : s.2 = t.2)
    (h : jack_step n user_t xlast i s = some s') :
    ∃ t', jack_step n user_t xlast i t = some t' ∧ s'.1.x = t'.1.x ∧
      s'.1.work2 = t'.1.work2 ∧ s'.1.draws = t'.1.draws ∧
      s'.1.xwork.length = s.1.xwork.length ∧ t'.1.xwork.length = t.1.xwork.length ∧
      s'.1.xwork.take (i + 1).toNat = t'.1.xwork.take (i + 1).toNat ∧ s'.2 = t'.2 := by
  simp only [jack_step, Option.bind_eq_bind, Option.bind_eq_some, Option.pure_def,
    Option.some.injEq] at h
  obtain ⟨xtemp, h1, x1, h2, xw, h3, x2, h4, rfl⟩ := h
  obtain ⟨hi0, hi1, rfl⟩ := wr_some_inv h3
  have e : (i + 1).toNat = i.toNat + 1 := by omega
  have w3 := wr_eq_some (a := t.1.xwork) (user_t (n - 1) x1) hi0 (by omega)
  rw [hx] at h1 h2
  refine ⟨({ t.1 with x := x2, xwork := t.1.xwork.set i.toNat (user_t (n - 1) x1) },
    t.2 + user_t (n - 1) x1), ?_, rfl, hw2, hd, by simp, by simp, ?_, by simp [hc]⟩
  · simp only [jack_step, h1, h2, w3, h4, Option.bind_eq_bind, Option.some_bind,
      Option.pure_def]
  · simp only [e]
    rw [take_set_succ _ (by omega), take_set_succ _ (by omega), htake]

theorem jack_loop_sim (n : Int) (user_t : Stat) (xlast : ℚ) (m1 m2 : Mem) (hx : m1.x = m2.x)
    (hw2 : m1.work2 = m2.work2) (hd : m1.draws = m2.draws)
    (hs : (m1.xwork.length : Int) = n) (ht : (m2.xwork.length : Int) = n) :
    for_loop (jack_step n user_t xlast) n.toNat 0 (m1, 0) =
      for_loop (jack_step n user_t xlast) n.toNat 0 (m2, 0) := by
  have key := for_loop_rel (jack_step n user_t xlast) (jack_step n user_t xlast)
    (fun i a b => a.1.x = b.1.x ∧ a.1.work2 = b.1.work2 ∧ a.1.draws = b.1.draws ∧
      (a.1.xwork.length : Int) = n ∧ (b.1.xwork.length : Int) = n ∧
      a.1.xwork.take i.toNat = b.1.xwork.take i.toNat ∧ a.2 = b.2) n
    (by
      rintro i a b hi0 hi1 ⟨h1, h2, h3, h4, h5, h6, h7⟩
      cases ha : jack_step n user_t xlast i a with
      | none =>
        cases hb : jack_step n user_t xlast i b with
        | none => exact Or.inl ⟨rfl, rfl⟩
        | some b' =>
          obtain ⟨a', ha', -⟩ := jack_step_sim n user_t xlast i b a b' h1.symm h2.symm h3.symm
            (by omega) h6.symm h7.symm hb
          rw [ha] at ha'
          exact absurd ha' (by simp)
      | some a' =>
        obtain ⟨b', hb', g1, g2, g3, g4, g5, g6, g7⟩ :=
          jack_step_sim n user_t xlast i a b a' h1 h2 h3 (by omega) h6 h7 ha
        exact Or.inr ⟨a', b', rfl, hb', g1, g2, g3, by omega, by omega, g6, g7⟩)
    n.toNat 0 (m1, 0) (m2, 0) le_rfl (by omega) ⟨hx, hw2, hd, hs, ht, by simp, rfl⟩
  rcases key with ⟨h1, h2⟩ | ⟨s', t', g1, g2, g3, g4, g5, g6, g7, g8, g9⟩
  · rw [h1, h2]
  · have e : (0 : Int) + (n.toNat : Int) = n := by omega
    rw [e] at g8
    have hxw := take_eq_of_length g6 g7 g8
    rw [g1, g2]
    obtain ⟨⟨x1, xw1, w1, d1⟩, c1⟩ := s'
    obtain ⟨⟨x2, xw2, w2, d2⟩, c2⟩ := t'
    simp only at g3 g4 g5 hxw g9
    rw [g3, g4, g5, hxw, g9]

theorem jackknife_sim (n : Int) (user_t : Stat) (m1 m2 : Mem) (hx : m1.x = m2.x)
    (hw2 : m1.work2 = m2.work2) (hd : m1.draws = m2.draws)
    (hs : (m1.xwork.length : Int) = n) (ht : (m2.xwork.length : Int) = n) :
    jackknife n user_t m1 = jackknife n user_t m2 := by
  unfold jackknife
  rw [hx]
  cases rd m2.x (n - 1) with
  | none => rfl
  | some xlast =>
    simp only [Option.bind_eq_bind, Option.some_bind]
    exact jack_loop_sim n user_t xlast m1 m2 hx hw2 hd hs ht

theorem bca_replicates_sim (E : Ext) (n : Int) (user_t : Stat) (nboot : Int) (m1 m2 : Mem)
    (hx : m1.x = m2.x) (hd : m1.draws = m2.draws)
    (hs : (m1.xwork.length : Int) = n) (ht : (m2.xwork.length : Int) = n)
    (hb1 : (m1.work2.length : Int) = nboot) (hb2 : (m2.work2.length : Int) = nboot) :
    (bca_replicates E n user_t nboot m1 = none ∧ bca_replicates E n user_t nboot m2 = none) ∨
      ∃ r1 r2, bca_replicates E n user_t nboot m1 = some r1 ∧
        bca_replicates E n user_t nboot m2 = some r2 ∧ r1.1.x = r2.1.x ∧
        r1.1.draws = r2.1.draws ∧ (r1.1.xwork.length : Int) = n ∧
        (r2.1.xwork.length : Int) = n ∧ r1.1.work2 = r2.1.work2 ∧ r1.2 = r2.2 := by
  rcases bca_loop_sim E n user_t (user_t n m1.x) nboot m1 m2 hx hd hs ht hb1 hb2 with
    ⟨h1, h2⟩ | ⟨s', t', h1, h2, g1, g2, g3, g4, g5, g6⟩
  · left
    rw [hx] at h2
    constructor
    · simp only [bca_replicates, h1, Option.bind_eq_bind, Option.none_bind]
    · simp only [bca_replicates, h2, Option.bind_eq_bind, Option.none_bind]
  · have h2' := h2
    rw [hx] at h2'
    cases hf : fdiv (clamp_z0_count s'.2 nboot) nboot with
    | none =>
      left
      constructor
      · simp only [bca_replicates, h1, hf, Option.bind_eq_bind, Option.some_bind,
          Option.none_bind]
      · rw [g6] at hf
        simp only [bca_replicates, h2', hf, Option.bind_eq_bind, Option.some_bind,
          Option.none_bind]
    | some p =>
      cases hp : probit E p with
      | none =>
        left
        constructor
        · simp only [bca_replicates, h1, hf, hp, Option.bind_eq_bind, Option.some_bind,
            Option.none_bind]
        · rw [g6] at hf
          simp only [bca_replicates, h2', hf, hp, Option.bind_eq_bind, Option.some_bind,
            Option.none_bind]
      | some z0 =>
        right
        refine ⟨(s'.1, z0), (t'.1, z0), ?_, ?_, g1, g2, g3, g4, g5, rfl⟩
        · simp only [bca_replicates, h1, hf, hp, Option.bind_eq_bind, Option.some_bind,
            Option.pure_def]
        · rw [g6] at hf
          simp only [bca_replicates, h2', hf, hp, Option.bind_eq_bind, Option.some_bind,
            Option.pure_def]

theorem pctile_outputs_sim {E : Ext} {nboot : Int} {a b a' : Mem} {bd : Bounds}
    (hw : a.work2 = b.work2) (h : pctile_outputs E nboot a = some (bd, a')) :
    pctile_outputs E nboot b =
      some (bd, { b with work2 := E.qsortd 0 (nboot - 1) b.work2 }) := by
  simp only [pctile_outputs, Option.bind_eq_bind, Option.bind_eq_some, Option.pure_def,
    Option.some.injEq, Prod.mk.injEq] at h
  obtain ⟨v1, h1, v2, h2, v3, h3, v4, h4, v5, h5, v6, h6, rfl, -⟩ := h
  rw [hw] at h1 h2 h3 h4 h5 h6
  exact pctile_outputs_some E nboot b h1 h2 h3 h4 h5 h6

theorem pctile_outputs_bounds {E : Ext} {nboot : Int} {a b : Mem} (hw : a.work2 = b.work2) :
    (pctile_outputs E nboot a).map Prod.fst = (pctile_outputs E nboot b).map Prod.fst := by
  cases ha : pctile_outputs E nboot a with
  | none =>
    cases hb : pctile_outputs E nboot b with
    | none => rfl
    | some q =>
      have hb' : pctile_outputs E nboot b = some (q.1, q.2) := hb
      have := pctile_outputs_sim hw.symm hb'
      rw [ha] at this
      exact absurd this (by simp)
  | some q =>
    have ha' : pctile_outputs E nboot a = some (q.1, q.2) := ha
    rw [pctile_outputs_sim hw ha']
    rfl

/-- C12. Determinism under fixed randomness: two runs of `boot_conf_pctile`
(respectively `boot_conf_BCa`) with the same `n`, the same sample, the same
statistic, the same `nboot` and the generator in the same state return the
same six bounds, whatever the work areas `xwork` (of `n` cells) and `work2`
(of `nboot` cells) hold at the start of each run; a run with no defined result
has none in the other run either.  For `boot_conf_BCa` the memories returned
are the same as well. -/
theorem runs_deterministic (E : Ext) (n : Int) (user_t : Stat) (nboot : Int) (m1 m2 : Mem)
    (hwf1 : well_formed n nboot m1) (hwf2 : well_formed n nboot m2) (hx : m1.x = m2.x)
    (hd : m1.draws = m2.draws) :
    (boot_conf_pctile E n user_t nboot m1).map Prod.fst =
      (boot_conf_pctile E n user_t nboot m2).map Prod.fst ∧
    (boot_conf_BCa E n user_t nboot m1).map Prod.fst =
      (boot_conf_BCa E n user_t nboot m2).map Prod.fst ∧
    boot_conf_BCa E n user_t nboot m1 = boot_conf_BCa E n user_t nboot m2 := by
  obtain ⟨-, hs, hb1⟩ := hwf1
  obtain ⟨-, ht, hb2⟩ := hwf2
  have hbca : boot_conf_BCa E n user_t nboot m1 = boot_conf_BCa E n user_t nboot m2 := by
    rcases bca_replicates_sim E n user_t nboot m1 m2 hx hd hs ht hb1 hb2 with
      ⟨h1, h2⟩ | ⟨r1, r2, h1, h2, g1, g2, g3, g4, g5, g6⟩
    · simp only [boot_conf_BCa, h1, h2]
    · have hj := jackknife_sim n user_t r1.1 r2.1 g1 g5 g2 g3 g4
      simp only [boot_conf_BCa, h1, h2, Option.bind_eq_bind, Option.some_bind, hj, g6]
  refine ⟨?_, by rw [hbca], hbca⟩
  have f1 := bca_loop_fst E n user_t 0 nboot.toNat 0 (m1, 0)
  have f2 := bca_loop_fst E n user_t 0 nboot.toNat 0 (m2, 0)
  rcases bca_loop_sim E n user_t 0 nboot m1 m2 hx hd hs ht hb1 hb2 with
    ⟨h1, h2⟩ | ⟨s', t', h1, h2, -, -, -, -, g5, -⟩
  · rw [h1] at f1
    rw [h2] at f2
    simp only [Option.map_none'] at f1 f2
    simp only [boot_conf_pctile, ← f1, ← f2, Option.bind_eq_bind, Option.none_bind]
  · rw [h1] at f1
    rw [h2] at f2
    simp only [Option.map_some'] at f1 f2
    simp only [boot_conf_pctile, ← f1, ← f2, Option.bind_eq_bind, Option.some_bind]
    exact pctile_outputs_bounds g5

/-- C12, witness: `runs_deterministic` on a run from `demo_mem` and a second
run from the memory a first run has left, the generator back in its initial
state (`n = 4`, `nboot = 2`): both runs of each procedure return the same bounds. -/
theorem runs_deterministic_witness :
    (boot_conf_pctile demo_ext 4 mean 2 demo_mem).map Prod.fst = some ⟨0, 24, 0, 24, 0, 24⟩ ∧
    (boot_conf_pctile demo_ext 4 mean 2 rerun_mem).map Prod.fst = some ⟨0, 24, 0, 24, 0, 24⟩ ∧
    (boot_conf_BCa demo_ext 4 mean 2 demo_mem).map Prod.fst = some ⟨0, 0, 0, 24, 0, 24⟩ ∧
    (boot_conf_BCa demo_ext 4 mean 2 rerun_mem).map Prod.fst = some ⟨0, 0, 0, 24, 0, 24⟩ := by
  obtain ⟨h1, h2, -⟩ := runs_deterministic demo_ext 4 mean 2 demo_mem rerun_mem
    demo_well_formed ⟨rfl, rfl, rfl⟩ rfl rfl
  have e1 : (boot_conf_pctile demo_ext 4 mean 2 demo_mem).map Prod.fst =
      some ⟨0, 24, 0, 24, 0, 24⟩ := by decide!
  have e2 : (boot_conf_BCa demo_ext 4 mean 2 demo_mem).map Prod.fst =
      some ⟨0, 0, 0, 24, 0, 24⟩ := by decide!
  exact ⟨e1, h1 ▸ e1, e2, h2 ▸ e2⟩

end BootConf
